import Mathlib

/-!
Verification of the `go-lfu-cache` repository: an LFU cache with LRU
tie-breaking built on a sentinel-based doubly-linked list.

The embedding is a heap model: elements of `linkedlist.List` are identified
by natural-number ids ("pointers"); id `0` is the sentinel root embedded in
the list struct.  A Go pointer is an `Option Nat` (`none` is Go `nil`,
`some 0` is `&l.root`).  The element heap is a total function
`Nat → Elem E`; slots that were never allocated hold junk and are never
read on the executions the theorems quantify over (the representation
invariant `Links` tracks the allocated ring).  Dereferencing a `nil`
pointer is modelled by `deref`, which sends `none` to the root slot; every
dereference performed by the cache on the states reached in the theorems is
of a live pointer, with one exception that is modelled exactly: in
`extractLatest` the Go code reads `del.Value` where `del` may be the `nil`
returned by `PopBack` on an empty list — that nil dereference (a panic) is
modelled by `extractLatest` returning `none`.
-/

/-- linkedlist.Element: `next`/`prev` pointers and the stored value.
(`Option Nat` pointers: `none` is Go `nil`.) -/
structure Elem (E : Type) where
  next : Option Nat
  prev : Option Nat
  value : E

/-- linkedlist.List: the element heap (id 0 is the sentinel `root` embedded
in the struct) together with the `len` field. -/
structure LList (E : Type) where
  elems : Nat → Elem E
  len : Nat

namespace LList

variable {E : Type}

/-- Dereference a Go pointer: `none` (nil) is sent to the root slot; on the
states considered by the theorems every dereference is of a live pointer. -/
def deref (p : Option Nat) : Nat := p.getD 0

/-- Pointer field `next` of the element at id `i`. -/
def nextOf (l : LList E) (i : Nat) : Option Nat := (l.elems i).next

/-- Pointer field `prev` of the element at id `i`. -/
def prevOf (l : LList E) (i : Nat) : Option Nat := (l.elems i).prev

/-- Stored value of the element at id `i`. -/
def valueOf (l : LList E) (i : Nat) : E := (l.elems i).value

/-- Heap write of the `next` field of element `i`. -/
def setNext (l : LList E) (i : Nat) (p : Option Nat) : LList E :=
  { l with elems := fun j => if j = i then { l.elems j with next := p } else l.elems j }

/-- Heap write of the `prev` field of element `i`. -/
def setPrev (l : LList E) (i : Nat) (p : Option Nat) : LList E :=
  { l with elems := fun j => if j = i then { l.elems j with prev := p } else l.elems j }

/-- linkedlist.NewList / (*List).init: the root's next and prev point at the
root itself and len is 0.  (`d` is the zero value of `E`; unallocated slots
hold junk that is never read.) -/
def NewList (d : E) : LList E :=
  { elems := fun i =>
      if i = 0 then { next := some 0, prev := some 0, value := d }
      else { next := none, prev := none, value := d },
    len := 0 }

/-- linkedlist.(*List).Add: links `e` as the new back element and increments
`len`.  Note the Go code performs no membership check (its doc comment
notwithstanding); the writes happen unconditionally, in source order. -/
def Add (l : LList E) (e : Nat) : LList E :=
  let last := deref (l.prevOf 0)
  let l1 := l.setPrev e (some last)
  let l2 := l1.setNext e (some 0)
  let l3 := l2.setNext last (some e)
  let l4 := l3.setPrev 0 (some e)
  { l4 with len := l4.len + 1 }

/-- linkedlist.(*List).Remove: `l.link(e.prev, e.next)` then `len--`;  a
no-op when `len == 0`.  Both pointer arguments are read before the writes,
as in the Go call.  The removed element's own `next`/`prev` are left
dangling at its former neighbours, exactly as in the source. -/
def Remove (l : LList E) (e : Nat) : LList E :=
  if l.len = 0 then l
  else
    let p := l.prevOf e
    let nx := l.nextOf e
    let l1 := l.setNext (deref p) nx
    let l2 := l1.setPrev (deref nx) p
    { l2 with len := l2.len - 1 }

/-- linkedlist.(*List).PopBack: removes and returns the back element,
clearing its `next`/`prev`; returns `none` (Go `nil`) when empty. -/
def PopBack (l : LList E) : Option Nat × LList E :=
  if l.len = 0 then (none, l)
  else
    let last := deref (l.prevOf 0)
    let l1 := l.setNext (deref (l.prevOf last)) (some 0)
    let l2 := l1.setPrev 0 (l1.prevOf last)
    let l3 := l2.setNext last none
    let l4 := l3.setPrev last none
    (some last, { l4 with len := l4.len - 1 })

/-- linkedlist.(*List).Front: returns `l.root.next`. -/
def Front (l : LList E) : Option Nat := l.nextOf 0

/-- linkedlist.(*List).Back: returns `l.root.prev`, or nil when empty. -/
def Back (l : LList E) : Option Nat :=
  if l.len = 0 then none else l.prevOf 0

/-- linkedlist.(Element).GetNext: the `next` pointer of element `e`. -/
def GetNext (l : LList E) (e : Nat) : Option Nat := l.nextOf e

/-- linkedlist.(*List).AddBefore: splices `e` immediately before `old`;
a no-op when `old` is the root.  Writes in source order; `old.prev` is
re-read at each use as in the Go statements. -/
def AddBefore (l : LList E) (e old : Nat) : LList E :=
  if old = 0 then l
  else
    let l1 := l.setNext e (some old)
    let l2 := l1.setPrev e (l1.prevOf old)
    let l3 := l2.setNext (deref (l2.prevOf old)) (some e)
    let l4 := l3.setPrev old (some e)
    { l4 with len := l4.len + 1 }

/-- linkedlist.(*List).ReplaceDeletedElement: splices `e` into the slot
delimited by `del`'s (possibly dangling) neighbour pointers; a no-op when
`len == 0`. -/
def ReplaceDeletedElement (l : LList E) (e del : Nat) : LList E :=
  if l.len = 0 then l
  else
    let l1 := l.setNext e (l.nextOf del)
    let l2 := l1.setPrev e (l1.prevOf del)
    let l3 := l2.setNext (deref (l2.prevOf del)) (some e)
    let l4 := l3.setPrev (deref (l3.nextOf del)) (some e)
    { l4 with len := l4.len + 1 }

/-- The body of linkedlist.(*List).Iterator's loop: walk `next` pointers
from `i`, stopping at the root.  The Go loop is unbounded; on a well-formed
ring it takes exactly `len` steps, which is the fuel `Iterator` supplies. -/
def iterFrom (l : LList E) : Nat → Nat → List E
  | _, 0 => []
  | i, fuel + 1 =>
    if i = 0 then [] else l.valueOf i :: l.iterFrom (deref (l.nextOf i)) fuel

/-- linkedlist.(*List).Iterator: yields the stored values from front to
back. -/
def Iterator (l : LList E) : List E :=
  l.iterFrom (deref (l.nextOf 0)) l.len

/-! ### Representation predicate

`Links l a xs b` says that starting at element `a`, the `next` pointers
run through `xs` and then reach `b`, with matching `prev` pointers.  A
well-formed list with contents `ids` satisfies `Links l 0 ids 0`. -/

def Links (l : LList E) : Nat → List Nat → Nat → Prop
  | a, [], b => l.nextOf a = some b ∧ l.prevOf b = some a
  | a, x :: xs, b => l.nextOf a = some x ∧ l.prevOf x = some a ∧ Links l x xs b

@[simp] theorem links_nil {l : LList E} {a b : Nat} :
    Links l a [] b ↔ l.nextOf a = some b ∧ l.prevOf b = some a := Iff.rfl

@[simp] theorem links_cons {l : LList E} {a x b : Nat} {xs : List Nat} :
    Links l a (x :: xs) b ↔
      l.nextOf a = some x ∧ l.prevOf x = some a ∧ Links l x xs b := Iff.rfl

theorem links_append {l : LList E} {a y b : Nat} (xs : List Nat) {ys : List Nat} :
    Links l a (xs ++ y :: ys) b ↔ Links l a xs y ∧ Links l y ys b := by
  induction xs generalizing a with
  | nil => simp [Links, and_assoc]
  | cons x xs ih => simp [Links, ih, and_assoc]

theorem links_congr {l l' : LList E} {a b : Nat} {xs : List Nat}
    (hn : ∀ i ∈ a :: xs, l'.nextOf i = l.nextOf i)
    (hp : ∀ i ∈ xs ++ [b], l'.prevOf i = l.prevOf i)
    (h : Links l a xs b) : Links l' a xs b := by
  induction xs generalizing a with
  | nil =>
    obtain ⟨h1, h2⟩ := h
    exact ⟨(hn a (by simp)).trans h1, (hp b (by simp)).trans h2⟩
  | cons x xs ih =>
    obtain ⟨h1, h2, h3⟩ := h
    refine ⟨(hn a (by simp)).trans h1, (hp x (by simp)).trans h2, ?_⟩
    exact ih (fun i hi => hn i (by simpa using Or.inr (by simpa using hi)))
      (fun i hi => hp i (by simp at hi ⊢; tauto)) h3

theorem links_head {l : LList E} {a b : Nat} {xs : List Nat}
    (h : Links l a xs b) : l.nextOf a = some (xs.headD b) := by
  cases xs with
  | nil => exact h.1
  | cons x xs => exact h.1

theorem links_last {l : LList E} {a b : Nat} {xs : List Nat}
    (h : Links l a xs b) : l.prevOf b = some (xs.getLastD a) := by
  induction xs generalizing a with
  | nil => exact h.2
  | cons x xs ih =>
    rw [List.getLastD_cons]
    exact ih h.2.2

@[simp] theorem nextOf_setNext {l : LList E} {i j : Nat} {p : Option Nat} :
    (l.setNext i p).nextOf j = if j = i then p else l.nextOf j := by
  by_cases h : j = i <;> simp [setNext, nextOf, h]

@[simp] theorem prevOf_setNext {l : LList E} {i j : Nat} {p : Option Nat} :
    (l.setNext i p).prevOf j = l.prevOf j := by
  by_cases h : j = i <;> simp [setNext, prevOf, h]

@[simp] theorem valueOf_setNext {l : LList E} {i j : Nat} {p : Option Nat} :
    (l.setNext i p).valueOf j = l.valueOf j := by
  by_cases h : j = i <;> simp [setNext, valueOf, h]

@[simp] theorem len_setNext {l : LList E} {i : Nat} {p : Option Nat} :
    (l.setNext i p).len = l.len := rfl

@[simp] theorem nextOf_setPrev {l : LList E} {i j : Nat} {p : Option Nat} :
    (l.setPrev i p).nextOf j = l.nextOf j := by
  by_cases h : j = i <;> simp [setPrev, nextOf, h]

@[simp] theorem prevOf_setPrev {l : LList E} {i j : Nat} {p : Option Nat} :
    (l.setPrev i p).prevOf j = if j = i then p else l.prevOf j := by
  by_cases h : j = i <;> simp [setPrev, prevOf, h]

@[simp] theorem valueOf_setPrev {l : LList E} {i j : Nat} {p : Option Nat} :
    (l.setPrev i p).valueOf j = l.valueOf j := by
  by_cases h : j = i <;> simp [setPrev, valueOf, h]

@[simp] theorem len_setPrev {l : LList E} {i : Nat} {p : Option Nat} :
    (l.setPrev i p).len = l.len := rfl

@[simp] theorem nextOf_mkLen (l : LList E) (n : Nat) (i : Nat) :
    (LList.mk l.elems n).nextOf i = l.nextOf i := rfl

@[simp] theorem prevOf_mkLen (l : LList E) (n : Nat) (i : Nat) :
    (LList.mk l.elems n).prevOf i = l.prevOf i := rfl

@[simp] theorem valueOf_mkLen (l : LList E) (n : Nat) (i : Nat) :
    (LList.mk l.elems n).valueOf i = l.valueOf i := rfl

theorem getLastD_cases (u : List Nat) (d : Nat) : u.getLastD d ∈ u ∨ u.getLastD d = d := by
  induction u generalizing d with
  | nil => exact Or.inr rfl
  | cons x xs ih =>
    rw [List.getLastD_cons]
    rcases ih x with h | h
    · exact Or.inl (List.mem_cons_of_mem x h)
    · rw [h]; exact Or.inl (List.mem_cons_self x xs)

theorem headD_cases (u : List Nat) (d : Nat) : u.headD d ∈ u ∨ u.headD d = d := by
  cases u with
  | nil => exact Or.inr rfl
  | cons x xs => exact Or.inl (List.mem_cons_self x xs)

theorem getLastD_concat (u : List Nat) (L d : Nat) : (u ++ [L]).getLastD d = L := by
  induction u generalizing d with
  | nil => rfl
  | cons x xs ih => rw [List.cons_append, List.getLastD_cons]; exact ih x

/-- Effect of `Add` on a well-formed list, for a fresh element `e`:
the element is appended at the back. -/
theorem Add_spec {l : LList E} {ids : List Nat} {e : Nat}
    (hL : Links l 0 ids 0) (hnd : ids.Nodup) (h0 : 0 ∉ ids)
    (he : e ∉ ids) (he0 : e ≠ 0) :
    Links (l.Add e) 0 (ids ++ [e]) 0 ∧ (l.Add e).len = l.len + 1 ∧
      ∀ i, (l.Add e).valueOf i = l.valueOf i := by
  obtain ⟨L, hLdef, hLmem⟩ :
      ∃ L, ids.getLastD 0 = L ∧ (L ∈ ids ∨ L = 0) :=
    ⟨ids.getLastD 0, rfl, getLastD_cases ids 0⟩
  have hlast : l.prevOf 0 = some L := hLdef ▸ links_last hL
  have heL : e ≠ L := by
    rcases hLmem with h | h
    · exact fun hh => he (hh ▸ h)
    · exact fun hh => he0 (hh ▸ h)
  have hAdd : l.Add e =
      LList.mk ((((l.setPrev e (some L)).setNext e (some 0)).setNext L
        (some e)).setPrev 0 (some e)).elems (l.len + 1) := by
    simp [Add, deref, hlast]
  refine ⟨?_, by rw [hAdd], by intro i; rw [hAdd]; simp⟩
  rw [links_append ids, hAdd]
  refine ⟨?_, ?_, ?_⟩
  · -- Links _ 0 ids e
    rcases List.eq_nil_or_concat ids with h | ⟨u, L', h⟩
    · subst h
      simp only [List.getLastD] at hLdef
      subst hLdef
      exact ⟨by simp [he0, Ne.symm he0], by simp [he0, Ne.symm he0]⟩
    · rw [List.concat_eq_append] at h
      subst h
      have hLval : L = L' := by rw [← hLdef, getLastD_concat]
      subst hLval
      have hLu : L ∉ u := by
        simp [List.nodup_append] at hnd
        tauto
      have hL0' : L ≠ 0 := fun h => h0 (h ▸ List.mem_append_right u (by simp))
      have hsplit := (links_append u (l := l) (a := 0) (b := 0)).mp hL
      rw [links_append u]
      refine ⟨?_, ?_, ?_⟩
      · refine links_congr ?_ ?_ hsplit.1
        · intro i hi
          have hie : i ≠ e := by
            rcases List.mem_cons.mp hi with h | h
            · exact h ▸ Ne.symm he0
            · exact fun hh => he (hh ▸ List.mem_append_left _ h)
          have hiL : i ≠ L := by
            rcases List.mem_cons.mp hi with h | h
            · exact h ▸ Ne.symm hL0'
            · exact fun hh => hLu (hh ▸ h)
          simp [hie, hiL]
        · intro i hi
          simp only [List.mem_append, List.mem_singleton] at hi
          have hie : i ≠ e := by
            rcases hi with h | h
            · exact fun hh => he (hh ▸ List.mem_append_left _ h)
            · exact fun hh => heL (hh ▸ h.symm).symm
          have hi0 : i ≠ 0 := by
            rcases hi with h | h
            · exact fun hh => h0 (hh ▸ List.mem_append_left _ h)
            · exact h ▸ hL0'
          simp [hie, hi0]
      · simp [heL, Ne.symm heL, hL0']
      · simp [heL, Ne.symm heL, he0, Ne.symm he0]
  · -- next of e is the root
    simp [he0, Ne.symm he0, heL, Ne.symm heL]
  · -- prev of root is e
    simp [he0, Ne.symm he0]

/-- Effect of `Remove` on a well-formed list: the element is spliced out and
its own `next`/`prev` pointers are left dangling at its former neighbours. -/
theorem Remove_spec {l : LList E} {A B : List Nat} {e : Nat}
    (hL : Links l 0 (A ++ e :: B) 0) (hnd : (A ++ e :: B).Nodup)
    (h0 : 0 ∉ A ++ e :: B) (hlen : l.len ≠ 0) :
    Links (l.Remove e) 0 (A ++ B) 0 ∧ (l.Remove e).len = l.len - 1 ∧
      (∀ i, (l.Remove e).valueOf i = l.valueOf i) ∧
      (l.Remove e).nextOf e = some (B.headD 0) ∧
      (l.Remove e).prevOf e = some (A.getLastD 0) := by
  have he0 : e ≠ 0 := fun h => h0 (h ▸ List.mem_append_right A (by simp))
  have heA : e ∉ A := by
    simp [List.nodup_append] at hnd
    tauto
  have heB : e ∉ B := by
    simp [List.nodup_append] at hnd
    tauto
  have hAB : ∀ x ∈ A, x ∉ B := by
    simp [List.nodup_append, List.Disjoint] at hnd
    intro x hx hxB
    obtain ⟨-, -, hdisj⟩ := hnd
    exact (hdisj hx).2 hxB
  have hndA : A.Nodup := by
    simp [List.nodup_append] at hnd
    tauto
  have hndB : B.Nodup := by
    simp [List.nodup_append] at hnd
    tauto
  have h0A : 0 ∉ A := fun h => h0 (List.mem_append_left _ h)
  have h0B : 0 ∉ B := fun h => h0 (List.mem_append_right A (by simp [h]))
  have hsplit := (links_append A (l := l) (a := 0) (b := 0)).mp hL
  obtain ⟨P, hPdef, hPmem⟩ :
      ∃ P, A.getLastD 0 = P ∧ (P ∈ A ∨ P = 0) :=
    ⟨A.getLastD 0, rfl, getLastD_cases A 0⟩
  obtain ⟨N, hNdef, hNmem⟩ :
      ∃ N, B.headD 0 = N ∧ (N ∈ B ∨ N = 0) :=
    ⟨B.headD 0, rfl, headD_cases B 0⟩
  have hp : l.prevOf e = some P := hPdef ▸ links_last hsplit.1
  have hn : l.nextOf e = some N := hNdef ▸ links_head hsplit.2
  have heP : e ≠ P := by
    rcases hPmem with h | h
    · exact fun hh => heA (hh ▸ h)
    · exact fun hh => he0 (hh ▸ h)
  have heN : e ≠ N := by
    rcases hNmem with h | h
    · exact fun hh => heB (hh ▸ h)
    · exact fun hh => he0 (hh ▸ h)
  have hRem : l.Remove e =
      LList.mk ((l.setNext P (some N)).setPrev N (some P)).elems (l.len - 1) := by
    simp [Remove, hlen, hp, hn, deref]
  refine ⟨?_, by rw [hRem], by intro i; rw [hRem]; simp,
    by rw [hRem, hNdef]; simp [Ne.symm heP, Ne.symm heN, hn],
    by rw [hRem, hPdef]; simp [Ne.symm heP, Ne.symm heN, hp]⟩
  rw [hRem]
  cases B with
  | nil =>
    have hN0 : N = 0 := by
      rcases hNmem with h | h
      · simp at h
      · exact h
    subst hN0
    simp only [List.append_nil]
    rcases List.eq_nil_or_concat A with h | ⟨u, L, h⟩
    · subst h
      have hP0 : P = 0 := by
        rcases hPmem with h | h
        · simp at h
        · exact h
      subst hP0
      exact ⟨by simp, by simp⟩
    · rw [List.concat_eq_append] at h
      subst h
      have hPL : P = L := by rw [← hPdef, getLastD_concat]
      subst hPL
      have hLu : P ∉ u := by
        simp [List.nodup_append] at hndA
        tauto
      have hL0 : P ≠ 0 := fun h => h0A (h ▸ List.mem_append_right u (by simp))
      have hsplitA := (links_append u (l := l) (a := 0) (b := e)).mp hsplit.1
      rw [links_append u]
      refine ⟨?_, ?_, ?_⟩
      · refine links_congr ?_ ?_ hsplitA.1
        · intro i hi
          have hiP : i ≠ P := by
            rcases List.mem_cons.mp hi with h | h
            · exact h ▸ Ne.symm hL0
            · exact fun hh => hLu (hh ▸ h)
          simp [hiP]
        · intro i hi
          simp only [List.mem_append, List.mem_singleton] at hi
          have hi0 : i ≠ 0 := by
            rcases hi with h | h
            · exact fun hh => h0A (hh ▸ List.mem_append_left _ h)
            · exact h ▸ hL0
          simp [hi0]
      · simp [hL0]
      · simp
  | cons n B' =>
    have hnN : N = n := by rw [← hNdef]; rfl
    subst hnN
    have hNB' : N ∉ B' := by
      simp at hndB
      tauto
    have hN0 : N ≠ 0 := fun h => h0B (h ▸ List.mem_cons_self N B')
    have htail : Links l N B' 0 := hsplit.2.2.2
    rw [links_append A]
    constructor
    · -- Links _ 0 A N
      rcases List.eq_nil_or_concat A with h | ⟨u, L, h⟩
      · subst h
        have hP0 : P = 0 := by
          rcases hPmem with h | h
          · simp at h
          · exact h
        subst hP0
        exact ⟨by simp, by simp [hN0, Ne.symm heN]⟩
      · rw [List.concat_eq_append] at h
        subst h
        have hPL : P = L := by rw [← hPdef, getLastD_concat]
        subst hPL
        have hLu : P ∉ u := by
          simp [List.nodup_append] at hndA
          tauto
        have hL0 : P ≠ 0 := fun h => h0A (h ▸ List.mem_append_right u (by simp))
        have hPN : P ≠ N := fun h =>
          hAB P (List.mem_append_right u (by simp)) (h ▸ List.mem_cons_self N B')
        have hsplitA := (links_append u (l := l) (a := 0) (b := e)).mp hsplit.1
        rw [links_append u]
        refine ⟨?_, ?_, ?_⟩
        · refine links_congr ?_ ?_ hsplitA.1
          · intro i hi
            have hiP : i ≠ P := by
              rcases List.mem_cons.mp hi with h | h
              · exact h ▸ Ne.symm hL0
              · exact fun hh => hLu (hh ▸ h)
            simp [hiP]
          · intro i hi
            simp only [List.mem_append, List.mem_singleton] at hi
            have hiN : i ≠ N := by
              rcases hi with h | h
              · exact fun hh =>
                  hAB i (List.mem_append_left _ h) (hh ▸ List.mem_cons_self N B')
              · exact h ▸ hPN
            simp [hiN]
        · simp [hPN]
        · simp [hN0, Ne.symm heN]
    · -- Links _ N B' 0
      refine links_congr ?_ ?_ htail
      · intro i hi
        have hiP : i ≠ P := by
          rcases hPmem with h | h
        -- P ∈ A: i ∈ N :: B' ⊆ e :: B side, disjoint from A
          · rcases List.mem_cons.mp hi with h2 | h2
            · exact fun hh => hAB P h (hh ▸ h2 ▸ List.mem_cons_self N B')
            · exact fun hh => hAB P h (hh ▸ List.mem_cons_of_mem N h2)
          · subst h
            rcases List.mem_cons.mp hi with h2 | h2
            · exact h2 ▸ hN0
            · exact fun hh => h0B (hh ▸ List.mem_cons_of_mem N h2)
        simp [hiP]
      · intro i hi
        simp only [List.mem_append, List.mem_singleton] at hi
        have hiN : i ≠ N := by
          rcases hi with h | h
          · exact fun hh => hNB' (hh ▸ h)
          · exact h ▸ Ne.symm hN0
        simp [hiN]

/-- Effect of `AddBefore` on a well-formed list, for a fresh element `e` and
an anchor `r` in the list: `e` is spliced immediately before `r`. -/
theorem AddBefore_spec {l : LList E} {A B : List Nat} {e r : Nat}
    (hL : Links l 0 (A ++ r :: B) 0) (hnd : (A ++ r :: B).Nodup)
    (h0 : 0 ∉ A ++ r :: B) (he : e ∉ A ++ r :: B) (he0 : e ≠ 0) :
    Links (l.AddBefore e r) 0 (A ++ e :: r :: B) 0 ∧
      (l.AddBefore e r).len = l.len + 1 ∧
      ∀ i, (l.AddBefore e r).valueOf i = l.valueOf i := by
  have hr0 : r ≠ 0 := fun h => h0 (h ▸ List.mem_append_right A (by simp))
  have heA : e ∉ A := fun h => he (List.mem_append_left _ h)
  have heB : e ∉ B := fun h => he (List.mem_append_right A (by simp [h]))
  have heR : e ≠ r := fun h => he (h ▸ List.mem_append_right A (by simp))
  have hrA : r ∉ A := by
    simp [List.nodup_append] at hnd
    tauto
  have hrB : r ∉ B := by
    simp [List.nodup_append] at hnd
    tauto
  have hAB : ∀ x ∈ A, x ∉ B := by
    simp [List.nodup_append, List.Disjoint] at hnd
    intro x hx hxB
    obtain ⟨-, -, hdisj⟩ := hnd
    exact (hdisj hx).2 hxB
  have hndA : A.Nodup := by
    simp [List.nodup_append] at hnd
    tauto
  have h0A : 0 ∉ A := fun h => h0 (List.mem_append_left _ h)
  have h0B : 0 ∉ B := fun h => h0 (List.mem_append_right A (by simp [h]))
  have hsplit := (links_append A (l := l) (a := 0) (b := 0)).mp hL
  obtain ⟨P, hPdef, hPmem⟩ :
      ∃ P, A.getLastD 0 = P ∧ (P ∈ A ∨ P = 0) :=
    ⟨A.getLastD 0, rfl, getLastD_cases A 0⟩
  have hp : l.prevOf r = some P := hPdef ▸ links_last hsplit.1
  have heP : e ≠ P := by
    rcases hPmem with h | h
    · exact fun hh => heA (hh ▸ h)
    · exact fun hh => he0 (hh ▸ h)
  have hrP : r ≠ P := by
    rcases hPmem with h | h
    · exact fun hh => hrA (hh ▸ h)
    · exact fun hh => hr0 (hh ▸ h)
  have hAB' : l.AddBefore e r =
      LList.mk ((((l.setNext e (some r)).setPrev e (some P)).setNext P
        (some e)).setPrev r (some e)).elems (l.len + 1) := by
    simp [AddBefore, hr0, hp, deref, Ne.symm heR]
  refine ⟨?_, by rw [hAB'], by intro i; rw [hAB']; simp⟩
  rw [hAB', links_append A]
  constructor
  · -- Links _ 0 A e
    rcases List.eq_nil_or_concat A with h | ⟨u, L, h⟩
    · subst h
      have hP0 : P = 0 := by
        rcases hPmem with h | h
        · simp at h
        · exact h
      subst hP0
      exact ⟨by simp [hr0, heR, Ne.symm heR, he0, Ne.symm he0], by simp [heR, Ne.symm heR, heP, he0, Ne.symm he0]⟩
    · rw [List.concat_eq_append] at h
      subst h
      have hPL : P = L := by rw [← hPdef, getLastD_concat]
      subst hPL
      have hLu : P ∉ u := by
        simp [List.nodup_append] at hndA
        tauto
      have hL0 : P ≠ 0 := fun h => h0A (h ▸ List.mem_append_right u (by simp))
      have hsplitA := (links_append u (l := l) (a := 0) (b := r)).mp hsplit.1
      rw [links_append u]
      refine ⟨?_, ?_, ?_⟩
      · refine links_congr ?_ ?_ hsplitA.1
        · intro i hi
          have hie : i ≠ e := by
            rcases List.mem_cons.mp hi with h | h
            · exact h ▸ Ne.symm he0
            · exact fun hh => heA (hh ▸ List.mem_append_left _ h)
          have hiP : i ≠ P := by
            rcases List.mem_cons.mp hi with h | h
            · exact h ▸ Ne.symm hL0
            · exact fun hh => hLu (hh ▸ h)
          simp [hie, hiP]
        · intro i hi
          simp only [List.mem_append, List.mem_singleton] at hi
          have hie : i ≠ e := by
            rcases hi with h | h
            · exact fun hh => heA (hh ▸ List.mem_append_left _ h)
            · exact fun hh => heP (hh ▸ h.symm).symm
          have hir : i ≠ r := by
            rcases hi with h | h
            · exact fun hh => hrA (hh ▸ List.mem_append_left _ h)
            · exact fun hh => hrP (hh ▸ h.symm).symm
          simp [hie, hir]
      · simp [Ne.symm heR, Ne.symm hrP, heP]
      · simp [heR, Ne.symm heR, heP, he0, Ne.symm he0]
  · -- Links _ e (r :: B) 0
    refine ⟨?_, ?_, ?_⟩
    · simp [heP, Ne.symm heR]
    · simp
    · refine links_congr ?_ ?_ hsplit.2
      · intro i hi
        have hie : i ≠ e := by
          rcases List.mem_cons.mp hi with h | h
          · exact h ▸ Ne.symm heR
          · exact fun hh => heB (hh ▸ h)
        have hiP : i ≠ P := by
          rcases hPmem with hm | hm
          · rcases List.mem_cons.mp hi with h | h
            · exact fun hh => hrA (show r ∈ A by rw [h.symm.trans hh]; exact hm)
            · exact fun hh => hAB P hm (hh ▸ h)
          · subst hm
            rcases List.mem_cons.mp hi with h | h
            · exact h ▸ hr0
            · exact fun hh => h0B (hh ▸ h)
        simp [hie, hiP]
      · intro i hi
        simp only [List.mem_append, List.mem_singleton] at hi
        have hie : i ≠ e := by
          rcases hi with h | h
          · exact fun hh => heB (hh ▸ h)
          · exact h ▸ Ne.symm he0
        have hir : i ≠ r := by
          rcases hi with h | h
          · exact fun hh => hrB (hh ▸ h)
          · exact h ▸ Ne.symm hr0
        simp [hie, hir]

/-- Effect of `ReplaceDeletedElement e e` on a well-formed list, for a
detached element `e` whose dangling pointers still frame the gap between `A`
and `B`: `e` is spliced back into that gap. -/
theorem Replace_spec {l : LList E} {A B : List Nat} {e : Nat}
    (hL : Links l 0 (A ++ B) 0) (hnd : (A ++ B).Nodup) (h0 : 0 ∉ A ++ B)
    (he : e ∉ A ++ B) (he0 : e ≠ 0)
    (hn : l.nextOf e = some (B.headD 0)) (hp : l.prevOf e = some (A.getLastD 0))
    (hlen : l.len ≠ 0) :
    Links (l.ReplaceDeletedElement e e) 0 (A ++ e :: B) 0 ∧
      (l.ReplaceDeletedElement e e).len = l.len + 1 ∧
      ∀ i, (l.ReplaceDeletedElement e e).valueOf i = l.valueOf i := by
  have heA : e ∉ A := fun h => he (List.mem_append_left _ h)
  have heB : e ∉ B := fun h => he (List.mem_append_right A h)
  have hAB : ∀ x ∈ A, x ∉ B := fun x hx hxB =>
    (List.disjoint_of_nodup_append hnd) hx hxB
  have hndA : A.Nodup := hnd.of_append_left
  have hndB : B.Nodup := hnd.of_append_right
  have h0A : 0 ∉ A := fun h => h0 (List.mem_append_left _ h)
  have h0B : 0 ∉ B := fun h => h0 (List.mem_append_right A h)
  obtain ⟨P, hPdef, hPmem⟩ :
      ∃ P, A.getLastD 0 = P ∧ (P ∈ A ∨ P = 0) :=
    ⟨A.getLastD 0, rfl, getLastD_cases A 0⟩
  obtain ⟨N, hNdef, hNmem⟩ :
      ∃ N, B.headD 0 = N ∧ (N ∈ B ∨ N = 0) :=
    ⟨B.headD 0, rfl, headD_cases B 0⟩
  rw [hPdef] at hp
  rw [hNdef] at hn
  have heP : e ≠ P := by
    rcases hPmem with h | h
    · exact fun hh => heA (hh ▸ h)
    · exact fun hh => he0 (hh ▸ h)
  have heN : e ≠ N := by
    rcases hNmem with h | h
    · exact fun hh => heB (hh ▸ h)
    · exact fun hh => he0 (hh ▸ h)
  have hRep : l.ReplaceDeletedElement e e =
      LList.mk ((((l.setNext e (some N)).setPrev e (some P)).setNext P
        (some e)).setPrev N (some e)).elems (l.len + 1) := by
    simp [ReplaceDeletedElement, hlen, hp, hn, deref, heP, Ne.symm heP]
  refine ⟨?_, by rw [hRep], by intro i; rw [hRep]; simp⟩
  rw [hRep, links_append A]
  constructor
  · -- Links _ 0 A e
    rcases List.eq_nil_or_concat A with h | ⟨u, L, h⟩
    · subst h
      have hP0 : P = 0 := by
        rcases hPmem with h | h
        · simp at h
        · exact h
      subst hP0
      exact ⟨by simp [he0], by simp [heN, heP]⟩
    · rw [List.concat_eq_append] at h
      subst h
      have hPL : P = L := by rw [← hPdef, getLastD_concat]
      subst hPL
      have hLu : P ∉ u := by
        simp [List.nodup_append] at hndA
        tauto
      have hL0 : P ≠ 0 := fun h => h0A (h ▸ List.mem_append_right u (by simp))
      have hLA : Links l 0 u P ∧ Links l P B 0 := by
        rw [List.append_assoc] at hL hnd h0
        exact (links_append u (l := l) (a := 0) (b := 0)).mp hL
      rw [links_append u]
      refine ⟨?_, ?_, ?_⟩
      · refine links_congr ?_ ?_ hLA.1
        · intro i hi
          have hie : i ≠ e := by
            rcases List.mem_cons.mp hi with h | h
            · exact h ▸ Ne.symm he0
            · exact fun hh => heA (hh ▸ List.mem_append_left _ h)
          have hiP : i ≠ P := by
            rcases List.mem_cons.mp hi with h | h
            · exact h ▸ Ne.symm hL0
            · exact fun hh => hLu (hh ▸ h)
          simp [hie, hiP]
        · intro i hi
          simp only [List.mem_append, List.mem_singleton] at hi
          have hie : i ≠ e := by
            rcases hi with h | h
            · exact fun hh => heA (hh ▸ List.mem_append_left _ h)
            · exact fun hh => heP (hh ▸ h.symm).symm
          have hiN : i ≠ N := by
            rcases hNmem with hm | hm
            · rcases hi with h | h
              · exact fun hh => hAB i (List.mem_append_left _ h) (hh ▸ hm)
              · exact fun hh =>
                  hAB P (List.mem_append_right u (by simp)) (h ▸ hh ▸ hm)
            · subst hm
              rcases hi with h | h
              · exact fun hh => h0A (hh ▸ List.mem_append_left _ h)
              · exact h ▸ hL0
          simp [hie, hiN]
      · simp [heP, Ne.symm heP]
      · simp [heP, Ne.symm heP, heN]
  · -- Links _ e B 0
    cases B with
    | nil =>
      have hN0 : N = 0 := by
        rcases hNmem with h | h
        · simp at h
        · exact h
      subst hN0
      exact ⟨by simp [heP, heN], by simp⟩
    | cons n B' =>
      have hnN : N = n := by rw [← hNdef]; rfl
      subst hnN
      have hNB' : N ∉ B' := by
        simp at hndB
        tauto
      have hN0 : N ≠ 0 := fun h => h0B (h ▸ List.mem_cons_self N B')
      have htail : Links l N B' 0 := ((links_append A).mp hL).2
      refine ⟨?_, ?_, ?_⟩
      · simp [heP, heN]
      · simp
      · refine links_congr ?_ ?_ htail
        · intro i hi
          have hie : i ≠ e := by
            rcases List.mem_cons.mp hi with h | h
            · exact h ▸ Ne.symm heN
            · exact fun hh => heB (hh ▸ List.mem_cons_of_mem N h)
          have hiP : i ≠ P := by
            rcases hPmem with hm | hm
            · rcases List.mem_cons.mp hi with h | h
              · exact fun hh => hAB P hm (hh ▸ h ▸ List.mem_cons_self N B')
              · exact fun hh => hAB P hm (hh ▸ List.mem_cons_of_mem N h)
            · subst hm
              rcases List.mem_cons.mp hi with h | h
              · exact h ▸ hN0
              · exact fun hh => h0B (hh ▸ List.mem_cons_of_mem N h)
          simp [hie, hiP]
        · intro i hi
          simp only [List.mem_append, List.mem_singleton] at hi
          have hie : i ≠ e := by
            rcases hi with h | h
            · exact fun hh => heB (hh ▸ List.mem_cons_of_mem N h)
            · exact h ▸ Ne.symm he0
          have hiN : i ≠ N := by
            rcases hi with h | h
            · exact fun hh => hNB' (hh ▸ h)
            · exact h ▸ Ne.symm hN0
          simp [hie, hiN]

/-- `PopBack` on an empty list returns nil and changes nothing. -/
theorem PopBack_empty {l : LList E} (h : l.len = 0) : l.PopBack = (none, l) := by
  simp [PopBack, h]

/-- Effect of `PopBack` on a non-empty well-formed list: the back element is
returned and spliced out, and values are unchanged. -/
theorem PopBack_spec {l : LList E} {A : List Nat} {z : Nat}
    (hL : Links l 0 (A ++ [z]) 0) (hnd : (A ++ [z]).Nodup)
    (h0 : 0 ∉ A ++ [z]) (hlen : l.len ≠ 0) :
    ∃ l', l.PopBack = (some z, l') ∧ Links l' 0 A 0 ∧ l'.len = l.len - 1 ∧
      ∀ i, l'.valueOf i = l.valueOf i := by
  have hz0 : z ≠ 0 := fun h => h0 (h ▸ List.mem_append_right A (by simp))
  have hzA : z ∉ A := by
    simp [List.nodup_append] at hnd
    tauto
  have hndA : A.Nodup := hnd.of_append_left
  have h0A : 0 ∉ A := fun h => h0 (List.mem_append_left _ h)
  have hsplit := (links_append A (l := l) (a := 0) (b := 0)).mp hL
  have hlast : l.prevOf 0 = some z := by
    have := links_last hL
    rwa [getLastD_concat] at this
  obtain ⟨P, hPdef, hPmem⟩ :
      ∃ P, A.getLastD 0 = P ∧ (P ∈ A ∨ P = 0) :=
    ⟨A.getLastD 0, rfl, getLastD_cases A 0⟩
  have hp : l.prevOf z = some P := hPdef ▸ links_last hsplit.1
  have hzP : z ≠ P := by
    rcases hPmem with h | h
    · exact fun hh => hzA (hh ▸ h)
    · exact fun hh => hz0 (hh ▸ h)
  have hPB : l.PopBack = (some z,
      LList.mk ((((l.setNext P (some 0)).setPrev 0 (some P)).setNext z
        none).setPrev z none).elems (l.len - 1)) := by
    simp [PopBack, hlen, hlast, hp, deref]
  refine ⟨_, hPB, ?_, by simp, by intro i; simp⟩
  rcases List.eq_nil_or_concat A with h | ⟨u, L, h⟩
  · subst h
    have hP0 : P = 0 := by
      rcases hPmem with h | h
      · simp at h
      · exact h
    subst hP0
    exact ⟨by simp [hz0, Ne.symm hz0], by simp [hz0, Ne.symm hz0]⟩
  · rw [List.concat_eq_append] at h
    subst h
    have hPL : P = L := by rw [← hPdef, getLastD_concat]
    subst hPL
    have hLu : P ∉ u := by
      simp [List.nodup_append] at hndA
      tauto
    have hL0 : P ≠ 0 := fun h => h0A (h ▸ List.mem_append_right u (by simp))
    have hLA : Links l 0 u P ∧ Links l P [z] 0 := by
      rw [List.append_assoc] at hL
      exact (links_append u (l := l) (a := 0) (b := 0)).mp hL
    rw [links_append u]
    refine ⟨?_, ?_, ?_⟩
    · refine links_congr ?_ ?_ hLA.1
      · intro i hi
        have hiP : i ≠ P := by
          rcases List.mem_cons.mp hi with h | h
          · exact h ▸ Ne.symm hL0
          · exact fun hh => hLu (hh ▸ h)
        have hiz : i ≠ z := by
          rcases List.mem_cons.mp hi with h | h
          · exact h ▸ Ne.symm hz0
          · exact fun hh => hzA (hh ▸ List.mem_append_left _ h)
        simp [hiP, hiz]
      · intro i hi
        simp only [List.mem_append, List.mem_singleton] at hi
        have hi0 : i ≠ 0 := by
          rcases hi with h | h
          · exact fun hh => h0A (hh ▸ List.mem_append_left _ h)
          · exact h ▸ hL0
        have hiz : i ≠ z := by
          rcases hi with h | h
          · exact fun hh => hzA (hh ▸ List.mem_append_left _ h)
          · exact fun hh => hzP (hh ▸ h.symm).symm
        simp [hi0, hiz]
    · simp [hzP, Ne.symm hzP, hL0]
    · simp [hz0, Ne.symm hz0]

theorem iterFrom_spec {l : LList E} {xs : List Nat} {a : Nat} {fuel : Nat}
    (hL : Links l a xs 0) (h0 : 0 ∉ xs) (hf : xs.length ≤ fuel) :
    l.iterFrom (xs.headD 0) fuel = xs.map l.valueOf := by
  induction xs generalizing a fuel with
  | nil =>
    cases fuel with
    | zero => rfl
    | succ f => simp [iterFrom]
  | cons x xs ih =>
    cases fuel with
    | zero => simp at hf
    | succ f =>
      have hx0 : x ≠ 0 := fun h => h0 (h ▸ List.mem_cons_self x xs)
      have hnext : l.nextOf x = some (xs.headD 0) := links_head hL.2.2
      rw [show (x :: xs).headD 0 = x from rfl]
      simp only [iterFrom, if_neg hx0, List.map_cons, hnext, deref, Option.getD_some]
      exact congrArg _
        (ih hL.2.2 (fun h => h0 (List.mem_cons_of_mem x h)) (by simpa using hf))

/-- `Iterator` on a well-formed list yields the stored values of the chain
from front to back. -/
theorem Iterator_spec {l : LList E} {ids : List Nat}
    (hL : Links l 0 ids 0) (h0 : 0 ∉ ids) (hlen : l.len = ids.length) :
    l.Iterator = ids.map l.valueOf := by
  have hfront : l.nextOf 0 = some (ids.headD 0) := links_head hL
  rw [Iterator, hfront, hlen]
  exact iterFrom_spec hL h0 le_rfl

/-- `Back` on a non-empty well-formed list returns the last chain element. -/
theorem Back_spec {l : LList E} {ids : List Nat}
    (hL : Links l 0 ids 0) (hlen : l.len = ids.length) (hne : ids ≠ []) :
    l.Back = some (ids.getLastD 0) := by
  have h : l.len ≠ 0 := by
    rw [hlen]
    simpa using fun h => hne (List.eq_nil_of_length_eq_zero h)
  rw [Back, if_neg h]
  exact links_last hL

end LList

/-! ### The unused list implementation inside package `lfu`
(`src/internal/lfu/list.go`).

It differs from the `linkedlist` package in that each element carries a
back-reference to its owning list, and `Add`, `AddBefore` and
`ReplaceDeletedElement` are guarded on it.  The cache (`CacheImpl`) is built
on the `linkedlist` package, not on this one; it is modelled here because
claim C9 cites its `Add`.  The owner field is modelled as `Option Unit`
(`some ()` when the element belongs to the single list in play, Go `nil`
otherwise), which is what the guard `elementToAdd.list != nil` inspects. -/

/-- lfu.element: next/prev pointers, owning-list back-reference, value. -/
structure LfuElem (E : Type) where
  next : Option Nat
  prev : Option Nat
  list : Option Unit
  value : E

/-- lfu.list: element heap (id 0 = sentinel root) and length. -/
structure LfuList (E : Type) where
  elems : Nat → LfuElem E
  len : Nat

namespace LfuList

variable {E : Type}

/-- lfu.(*list).Add: returns nil and leaves the list untouched when the
element already belongs to a list; otherwise links it at the back.  This is
the guarded variant; compare `LList.Add`. -/
def Add (l : LfuList E) (e : Nat) : Option Nat × LfuList E :=
  if (l.elems e).list ≠ none then (none, l)
  else
    let last := LList.deref ((l.elems 0).prev)
    let f1 : Nat → LfuElem E := fun j =>
      if j = e then { l.elems j with list := some (), prev := some last, next := some 0 }
      else l.elems j
    let f2 : Nat → LfuElem E := fun j =>
      if j = last then { f1 j with next := some e } else f1 j
    let f3 : Nat → LfuElem E := fun j =>
      if j = 0 then { f2 j with prev := some e } else f2 j
    (some e, { elems := f3, len := l.len + 1 })

/-- The guarded `Add` of the package-internal lfu list is a no-op on an
element that already belongs to a list: it returns nil and the whole list
state (length, link structure, traversal order) is unchanged. -/
theorem Add_linked_noop {l : LfuList E} {e : Nat}
    (h : (l.elems e).list ≠ none) : l.Add e = (none, l) := by
  simp [Add, h]

end LfuList

/-! ### The LFU cache (`src/internal/lfu/lfu.go`)

`CacheImpl` carries the Go struct's fields plus the two heaps of the
pointer model (`nodes` for `*node[K,V]` targets, the element heap inside
`listOfData`) and fresh-id allocators for the two `new(...)` sites.  A
`*node[K,V]` pointer is an `Option Nat` into `nodes`; the stored value of a
list element is exactly that pointer (the sentinel root stores `none`, the
Go zero value).  Go map lookups of absent keys yield the zero value `nil`,
i.e. `none`. -/

/-- lfu.ErrKeyNotFound, the only error value of the package. -/
inductive GoErr where
  | keyNotFound
deriving DecidableEq

/-- lfu.node: key, value and frequency (a Go `int`). -/
structure Node (K V : Type) where
  key : K
  value : V
  freq : Int

/-- lfu.CacheImpl.  `defaultValue` is the zero-value field returned by `Get`
on a miss; `nextElem`/`nextNode` model the allocator (they are the model's
source of fresh pointers and have no observable Go counterpart). -/
structure CacheImpl (K V : Type) where
  listOfData : LList (Option Nat)
  nodes : Nat → Node K V
  keyToElement : K → Option Nat
  frequencyToRecentElement : Int → Option Nat
  capacity : Int
  defaultValue : V
  nextElem : Nat
  nextNode : Nat

namespace CacheImpl

variable {K V : Type} [DecidableEq K]

/-- The node id stored in list element `e` (dereference of `link.Value`). -/
def nodeId (s : CacheImpl K V) (e : Nat) : Nat :=
  ((s.listOfData.elems e).value).getD 0

/-- The node referenced by list element `e` (Go `link.Value`, a `*node`). -/
def nodeOf (s : CacheImpl K V) (e : Nat) : Node K V := s.nodes (s.nodeId e)

/-- In-place mutation of the node referenced by element `e`
(Go `link.Value.freq++` / `link.Value.value = v`). -/
def updNode (s : CacheImpl K V) (e : Nat) (f : Node K V → Node K V) :
    CacheImpl K V :=
  { s with nodes := fun j => if j = s.nodeId e then f (s.nodes j) else s.nodes j }

/-- Go map write `l.frequencyToRecentElement[f] = v` (or delete, `v = none`). -/
def setFreqMap (s : CacheImpl K V) (f : Int) (v : Option Nat) : CacheImpl K V :=
  { s with frequencyToRecentElement :=
      fun g => if g = f then v else s.frequencyToRecentElement g }

/-- Go map write `l.keyToElement[k] = v` (or delete, `v = none`). -/
def setKeyMap (s : CacheImpl K V) (k : K) (v : Option Nat) : CacheImpl K V :=
  { s with keyToElement := fun m => if m = k then v else s.keyToElement m }

/-- lfu.(*CacheImpl).Size: the list length, as a Go `int`. -/
def Size (s : CacheImpl K V) : Int := (s.listOfData.len : Int)

/-- lfu.(*CacheImpl).Capacity. -/
def Capacity (s : CacheImpl K V) : Int := s.capacity

/-- lfu.(*CacheImpl).removeFreqLevel.  The Go guard is
`link == nil || link.GetNext() == nil`; the cache only ever passes live
(non-nil) `link` pointers, so only the `GetNext` half is a real branch.
`previousEl` is the (possibly nil) `*node` stored in the successor. -/
def removeFreqLevel (s : CacheImpl K V) (link : Nat) : CacheImpl K V :=
  match s.listOfData.GetNext link with
  | none => s
  | some nxt =>
    let n := s.nodeOf link
    let previousEl := (s.listOfData.elems nxt).value
    if s.frequencyToRecentElement n.freq = some link then
      match previousEl with
      | some pid =>
        if (s.nodes pid).freq = n.freq then s.setFreqMap n.freq (some nxt)
        else s.setFreqMap n.freq none
      | none => s.setFreqMap n.freq none
    else s

/-- lfu.(*CacheImpl).removeFromList: list removal followed by
`removeFreqLevel` (which then reads the removed element's dangling `next`). -/
def removeFromList (s : CacheImpl K V) (link : Nat) : CacheImpl K V :=
  removeFreqLevel { s with listOfData := s.listOfData.Remove link } link

/-- lfu.(*CacheImpl).addToNotEmptyList, with its four-way branch. -/
def addToNotEmptyList (s : CacheImpl K V) (link : Nat) : CacheImpl K V :=
  let n := s.nodeOf link
  match s.frequencyToRecentElement n.freq with
  | some lastFreqRoot =>
    { s with listOfData := s.listOfData.AddBefore link lastFreqRoot }
  | none =>
    if n.freq < (s.nodeOf (LList.deref s.listOfData.Back)).freq then
      { s with listOfData := s.listOfData.Add link }
    else if n.freq ≠ 1 then
      match s.frequencyToRecentElement (n.freq - 1) with
      | some lastPastFreqRoot =>
        { s with listOfData := s.listOfData.AddBefore link lastPastFreqRoot }
      | none =>
        { s with listOfData := s.listOfData.ReplaceDeletedElement link link }
    else s

/-- lfu.(*CacheImpl).addToList: list insertion (empty-list case via `Add`),
then the two unconditional map writes, whose `n := link.Value` is read after
the insertion as in the source. -/
def addToList (s : CacheImpl K V) (link : Nat) : CacheImpl K V :=
  let s1 :=
    if s.listOfData.len = 0 then { s with listOfData := s.listOfData.Add link }
    else s.addToNotEmptyList link
  let n := s1.nodeOf link
  (s1.setFreqMap n.freq (some link)).setKeyMap n.key (some link)

/-- lfu.(*CacheImpl).Get: on a hit, detach, retire the old frequency level
(twice, as in the source), increment the frequency in place, re-insert, and
return the value; on a miss, return the zero value and ErrKeyNotFound. -/
def Get (s : CacheImpl K V) (key : K) : (V × Option GoErr) × CacheImpl K V :=
  match s.keyToElement key with
  | some link =>
    let s1 := s.removeFromList link
    let s2 := s1.removeFreqLevel link
    let s3 := s2.updNode link (fun n => { n with freq := n.freq + 1 })
    let s4 := s3.addToList link
    ((( s4.nodeOf link).value, none), s4)
  | none => ((s.defaultValue, some GoErr.keyNotFound), s)

/-- lfu.(*CacheImpl).extractLatest: pops the back of the list and then reads
`del.Value`.  When the list is empty, `PopBack` returns Go `nil` and that
read is a nil-pointer dereference: a panic, modelled as `none`. -/
def extractLatest (s : CacheImpl K V) : Option (CacheImpl K V) :=
  match s.listOfData.PopBack with
  | (none, _) => none
  | (some del, lst) =>
    let s1 : CacheImpl K V := { s with listOfData := lst }
    let n := s1.nodeOf del
    let s2 :=
      if s1.frequencyToRecentElement n.freq = some del then
        s1.setFreqMap n.freq none
      else s1
    some (s2.setKeyMap n.key none)

/-- lfu.(*CacheImpl).Put.  Present key: update value and frequency in place
and re-insert.  Absent key: evict first when `Size() == capacity` (this is
where a capacity-0 cache panics, see `extractLatest`), then allocate the
node and element (`linkedlist.NewElement`) at fresh ids, write the key map
(the source then reads that entry back as the `addToList` argument), and
insert. -/
def Put (s : CacheImpl K V) (key : K) (value : V) : Option (CacheImpl K V) :=
  match s.keyToElement key with
  | some link =>
    let s1 := s.removeFromList link
    let s2 := s1.removeFreqLevel link
    let s3 := s2.updNode link (fun n => { n with value := value })
    let s4 := s3.updNode link (fun n => { n with freq := n.freq + 1 })
    some (s4.addToList link)
  | none =>
    let step := if s.Size = s.capacity then s.extractLatest else some s
    match step with
    | none => none
    | some s1 =>
      let nId := s1.nextNode
      let s2 : CacheImpl K V :=
        { s1 with
          nodes := fun j => if j = nId then ⟨key, value, 1⟩ else s1.nodes j,
          nextNode := nId + 1 }
      let eId := s2.nextElem
      let s3 : CacheImpl K V :=
        { s2 with
          listOfData :=
            { s2.listOfData with
              elems := fun j =>
                if j = eId then ⟨none, none, some nId⟩ else s2.listOfData.elems j },
          nextElem := eId + 1,
          keyToElement := fun m => if m = key then some eId else s2.keyToElement m }
      some (s3.addToList eId)

/-- lfu.(*CacheImpl).All: front-to-back traversal of the list, reading each
element's node's key and value. -/
def All (s : CacheImpl K V) : List (K × V) :=
  (s.listOfData.Iterator).map
    (fun v => ((s.nodes (v.getD 0)).key, (s.nodes (v.getD 0)).value))

/-- lfu.(*CacheImpl).GetKeyFrequency: the stored frequency, or
`(0, ErrKeyNotFound)` on a miss. -/
def GetKeyFrequency (s : CacheImpl K V) (key : K) : Int × Option GoErr :=
  match s.keyToElement key with
  | some link => ((s.nodeOf link).freq, none)
  | none => (0, some GoErr.keyNotFound)

/-- lfu.DefaultCapacity. -/
def DefaultCapacity : Int := 5

/-- The cache value built by lfu.New once the capacity has been determined:
empty list, empty maps, zero-value heaps. -/
def mkCache [Inhabited K] [Inhabited V] (c : Int) : CacheImpl K V :=
  { listOfData := LList.NewList none,
    nodes := fun _ => ⟨default, default, 0⟩,
    keyToElement := fun _ => none,
    frequencyToRecentElement := fun _ => none,
    capacity := c,
    defaultValue := default,
    nextElem := 1,
    nextNode := 0 }

/-- lfu.New: variadic capacity (`none` = no argument, defaulting to
`DefaultCapacity`); a negative explicit capacity panics (`none` result). -/
def New [Inhabited K] [Inhabited V] (capacity : Option Int) :
    Option (CacheImpl K V) :=
  match capacity with
  | some c => if c < 0 then none else some (mkCache c)
  | none => some (mkCache DefaultCapacity)

end CacheImpl

/-! ### Operation sequences and the instrumented runner

`Op` is one public mutating call.  `GState` pairs the cache with ghost
observers used only to state recency claims: `touch k` is the clock value of
the last operation that touched `k` (a `Put` of `k`, or a successful `Get`
of `k`), and `clock` advances by one per operation.  The ghost components
never feed back into the cache; the `cache` component evolves exactly by
`Get`/`Put`. -/

inductive Op (K V : Type) where
  | get (k : K)
  | put (k : K) (v : V)

structure GState (K V : Type) where
  cache : CacheImpl K V
  touch : K → Option Nat
  clock : Nat

/-- One step of the instrumented runner; `none` propagates a `Put` panic. -/
def stepG {K V : Type} [DecidableEq K] (g : GState K V) :
    Op K V → Option (GState K V)
  | Op.get k =>
    some ⟨(CacheImpl.Get g.cache k).2,
      (if (g.cache.keyToElement k).isSome then
        fun j => if j = k then some g.clock else g.touch j
      else g.touch), g.clock + 1⟩
  | Op.put k v =>
    match CacheImpl.Put g.cache k v with
    | none => none
    | some c => some ⟨c, fun j => if j = k then some g.clock else g.touch j,
        g.clock + 1⟩

/-- Run a sequence of operations from a given instrumented state. -/
def runFromG {K V : Type} [DecidableEq K] (g : GState K V)
    (ops : List (Op K V)) : Option (GState K V) :=
  ops.foldlM stepG g

/-- The instrumented state of a fresh cache of capacity `cap`. -/
def initG (K V : Type) [Inhabited K] [Inhabited V] (cap : Int) : GState K V :=
  ⟨CacheImpl.mkCache cap, fun _ => none, 0⟩

/-- Run a sequence of operations on a fresh cache of capacity `cap`. -/
def runG {K V : Type} [DecidableEq K] [Inhabited K] [Inhabited V] (cap : Int)
    (ops : List (Op K V)) : Option (GState K V) :=
  runFromG (initG K V cap) ops

/-- C7: `Get` and `GetKeyFrequency` on a key with no live record both return
ErrKeyNotFound (`GetKeyFrequency` paired with the integer 0, `Get` with the
zero value), and the cache state after either call is literally the state
before — so `size`, every live key's value and frequency, and the `All`
traversal are all unchanged. -/
theorem claim_C7 {K V : Type} [DecidableEq K] (s : CacheImpl K V) (k : K)
    (h : s.keyToElement k = none) :
    CacheImpl.Get s k = ((s.defaultValue, some GoErr.keyNotFound), s) ∧
      CacheImpl.GetKeyFrequency s k = (0, some GoErr.keyNotFound) := by
  rw [CacheImpl.Get, CacheImpl.GetKeyFrequency, h]
  exact ⟨rfl, rfl⟩

theorem claim_C7_witness :
    (CacheImpl.mkCache 5 : CacheImpl Nat Nat).keyToElement 0 = none ∧
      CacheImpl.Get (CacheImpl.mkCache 5 : CacheImpl Nat Nat) 0 =
        (((CacheImpl.mkCache 5 : CacheImpl Nat Nat).defaultValue,
          some GoErr.keyNotFound), CacheImpl.mkCache 5) ∧
      CacheImpl.GetKeyFrequency (CacheImpl.mkCache 5 : CacheImpl Nat Nat) 0 =
        (0, some GoErr.keyNotFound) := by
  refine ⟨rfl, ?_⟩
  have h := claim_C7 (CacheImpl.mkCache 5 : CacheImpl Nat Nat) 0 rfl
  exact ⟨h.1, h.2⟩

/-- C8: construction panics exactly on an explicitly supplied negative
capacity; no argument gives the fixed default capacity 5; a non-negative
argument `c` gives capacity `c`. -/
theorem claim_C8 {K V : Type} [DecidableEq K] [Inhabited K] [Inhabited V] :
    (∀ c : Int, CacheImpl.New (K := K) (V := V) (some c) = none ↔ c < 0) ∧
      (∃ s : CacheImpl K V, CacheImpl.New (K := K) (V := V) none = some s ∧
        s.Capacity = 5) ∧
      (∀ c : Int, 0 ≤ c → ∃ s : CacheImpl K V,
        CacheImpl.New (K := K) (V := V) (some c) = some s ∧ s.Capacity = c) := by
  refine ⟨fun c => ?_, ⟨CacheImpl.mkCache CacheImpl.DefaultCapacity, rfl, rfl⟩,
    fun c hc => ⟨CacheImpl.mkCache c, ?_, rfl⟩⟩
  · constructor
    · intro h
      by_contra hneg
      rw [CacheImpl.New, if_neg hneg] at h
      exact Option.noConfusion h
    · intro h
      rw [CacheImpl.New, if_pos h]
  · rw [CacheImpl.New, if_neg (not_lt.mpr hc)]

theorem claim_C8_witness :
    (CacheImpl.New (K := Nat) (V := Nat) (some (-1)) = none) ∧
      (∃ s : CacheImpl Nat Nat, CacheImpl.New (K := Nat) (V := Nat) (some 3) = some s ∧
        s.Capacity = 3) := by
  exact ⟨(claim_C8.1 (-1)).mpr (by decide), claim_C8.2.2 3 (by decide)⟩

/-- C3 (refuting the claim as stated): `Put` does not always complete
normally.  On a cache constructed with capacity 0, the very first `Put`
reaches `extractLatest` (since `Size() == capacity` is `0 == 0`), where
`PopBack` on the empty list returns `nil` and the following `del.Value`
dereference panics — modelled by `Put` returning `none`. -/
theorem claim_C3 :
    ∃ s : CacheImpl Nat Nat, CacheImpl.New (some 0) = some s ∧
      CacheImpl.Put s 1 1 = none := by
  refine ⟨CacheImpl.mkCache 0, rfl, ?_⟩
  rfl

/-- C9 (refuting the claim as stated for the list the cache actually uses):
`linkedlist.(*List).Add` on an element that is already part of the sequence
is not a no-op.  Starting from the one-element list `[1]`, calling `Add 1`
again increments the length to 2 and relinks element 1's `next` pointer to
itself (corrupting the ring), though the claim — and `Add`'s own doc
comment — require the state to be unchanged.  (The package-internal list of
`src/internal/lfu/list.go` does implement the guard: `LfuList.Add_linked_noop`.) -/
theorem claim_C9 :
    ((LList.NewList 0 : LList Nat).Add 1).len = 1 ∧
      (((LList.NewList 0 : LList Nat).Add 1).Add 1).len = 2 ∧
      (((LList.NewList 0 : LList Nat).Add 1).Add 1).nextOf 1 = some 1 := by
  refine ⟨rfl, rfl, by decide⟩

/-! ### The cache invariant

`Cells` is the ghost description of a reachable cache: the list contents
front to back, each element id paired with an abstract entry carrying the
key, value, frequency, and the ghost last-touch clock value.  `CacheInv`
ties a concrete `CacheImpl` to its cells: the pointer ring spells out the
cells' ids, each cell's node holds its entry, the two Go maps agree with
first-match lookups over the cells, and the cells are sorted by strictly
descending (frequency, last-touch) lexicographic order (`entGT`), which is
the LFU+LRU ordering invariant of the spec. -/

structure AEntry (K V : Type) where
  key : K
  value : V
  freq : Int
  touch : Nat

abbrev Cells (K V : Type) := List (Nat × AEntry K V)

/-- First cell whose key is `k` (the Go `keyToElement` map's content on
reachable states; keys are unique there, so "first" is "the"). -/
def keyLookup {K V : Type} [DecidableEq K] (k : K) : Cells K V → Option Nat
  | [] => none
  | p :: rest => if p.2.key = k then some p.1 else keyLookup k rest

/-- First cell whose frequency is `f` (the front of the `f`-run; the Go
`frequencyToRecentElement` map's content on reachable states). -/
def freqLookup {K V : Type} (f : Int) : Cells K V → Option Nat
  | [] => none
  | p :: rest => if p.2.freq = f then some p.1 else freqLookup f rest

/-- Strict LFU+LRU order between abstract entries: greater frequency first;
within a frequency, the more recently touched first. -/
def entGT {K V : Type} (x y : AEntry K V) : Prop :=
  y.freq < x.freq ∨ (y.freq = x.freq ∧ y.touch < x.touch)

section LookupLemmas

variable {K V : Type}

@[simp] theorem keyLookup_nil [DecidableEq K] {k : K} :
    keyLookup (V := V) k [] = none := rfl

@[simp] theorem keyLookup_cons [DecidableEq K] {k : K} {p : Nat × AEntry K V} {rest : Cells K V} :
    keyLookup k (p :: rest) =
      if p.2.key = k then some p.1 else keyLookup k rest := rfl

@[simp] theorem freqLookup_nil {f : Int} : freqLookup (K := K) (V := V) f [] = none := rfl

@[simp] theorem freqLookup_cons {f : Int} {p : Nat × AEntry K V} {rest : Cells K V} :
    freqLookup f (p :: rest) =
      if p.2.freq = f then some p.1 else freqLookup f rest := rfl

theorem keyLookup_append_of_none [DecidableEq K] {k : K} {X Y : Cells K V}
    (h : keyLookup k X = none) : keyLookup k (X ++ Y) = keyLookup k Y := by
  induction X with
  | nil => rfl
  | cons p X ih =>
    simp only [List.cons_append, keyLookup_cons] at h ⊢
    by_cases hp : p.2.key = k
    · simp [hp] at h
    · rw [if_neg hp] at h ⊢
      exact ih h

theorem keyLookup_append_of_some [DecidableEq K] {k : K} {X Y : Cells K V} {e : Nat}
    (h : keyLookup k X = some e) : keyLookup k (X ++ Y) = some e := by
  induction X with
  | nil => simp at h
  | cons p X ih =>
    simp only [List.cons_append, keyLookup_cons] at h ⊢
    by_cases hp : p.2.key = k
    · rwa [if_pos hp] at h ⊢
    · rw [if_neg hp] at h ⊢
      exact ih h

theorem freqLookup_append_of_none {f : Int} {X Y : Cells K V}
    (h : freqLookup f X = none) : freqLookup f (X ++ Y) = freqLookup f Y := by
  induction X with
  | nil => rfl
  | cons p X ih =>
    simp only [List.cons_append, freqLookup_cons] at h ⊢
    by_cases hp : p.2.freq = f
    · simp [hp] at h
    · rw [if_neg hp] at h ⊢
      exact ih h

theorem freqLookup_append_of_some {f : Int} {X Y : Cells K V} {e : Nat}
    (h : freqLookup f X = some e) : freqLookup f (X ++ Y) = some e := by
  induction X with
  | nil => simp at h
  | cons p X ih =>
    simp only [List.cons_append, freqLookup_cons] at h ⊢
    by_cases hp : p.2.freq = f
    · rwa [if_pos hp] at h ⊢
    · rw [if_neg hp] at h ⊢
      exact ih h

theorem keyLookup_eq_none [DecidableEq K] {k : K} {C : Cells K V} :
    keyLookup k C = none ↔ ∀ p ∈ C, p.2.key ≠ k := by
  induction C with
  | nil => simp
  | cons p C ih =>
    by_cases hp : p.2.key = k
    · simp [hp]
    · simp [hp, ih]

theorem freqLookup_eq_none {f : Int} {C : Cells K V} :
    freqLookup f C = none ↔ ∀ p ∈ C, p.2.freq ≠ f := by
  induction C with
  | nil => simp
  | cons p C ih =>
    by_cases hp : p.2.freq = f
    · simp [hp]
    · simp [hp, ih]

theorem keyLookup_eq_some [DecidableEq K] {k : K} {C : Cells K V} {e : Nat}
    (h : keyLookup k C = some e) :
    ∃ X a Y, C = X ++ (e, a) :: Y ∧ a.key = k ∧ ∀ p ∈ X, p.2.key ≠ k := by
  induction C with
  | nil => simp at h
  | cons p C ih =>
    simp only [keyLookup_cons] at h
    by_cases hp : p.2.key = k
    · rw [if_pos hp] at h
      obtain rfl : p.1 = e := Option.some.inj h
      exact ⟨[], p.2, C, by simp, hp, by simp⟩
    · rw [if_neg hp] at h
      obtain ⟨X, a, Y, hC, hk, hX⟩ := ih h
      exact ⟨p :: X, a, Y, by simp [hC], hk,
        by intro q hq; rcases List.mem_cons.mp hq with h' | h'
           · exact h' ▸ hp
           · exact hX q h'⟩

theorem freqLookup_eq_some {f : Int} {C : Cells K V} {e : Nat}
    (h : freqLookup f C = some e) :
    ∃ X a Y, C = X ++ (e, a) :: Y ∧ a.freq = f ∧ ∀ p ∈ X, p.2.freq ≠ f := by
  induction C with
  | nil => simp at h
  | cons p C ih =>
    simp only [freqLookup_cons] at h
    by_cases hp : p.2.freq = f
    · rw [if_pos hp] at h
      obtain rfl : p.1 = e := Option.some.inj h
      exact ⟨[], p.2, C, by simp, hp, by simp⟩
    · rw [if_neg hp] at h
      obtain ⟨X, a, Y, hC, hk, hX⟩ := ih h
      exact ⟨p :: X, a, Y, by simp [hC], hk,
        by intro q hq; rcases List.mem_cons.mp hq with h' | h'
           · exact h' ▸ hp
           · exact hX q h'⟩

theorem keyLookup_of_mem [DecidableEq K] {C : Cells K V} {e : Nat} {a : AEntry K V}
    (hnd : (C.map (fun p => p.2.key)).Nodup) (hmem : (e, a) ∈ C) :
    keyLookup a.key C = some e := by
  induction C with
  | nil => simp at hmem
  | cons p C ih =>
    rcases List.mem_cons.mp hmem with h | h
    · rw [← h]
      simp
    · have hpk : p.2.key ≠ a.key := by
        simp only [List.map_cons, List.nodup_cons] at hnd
        intro hk
        exact hnd.1 (hk ▸ List.mem_map.mpr ⟨(e, a), h, rfl⟩)
      rw [keyLookup_cons, if_neg hpk]
      exact ih (by simp only [List.map_cons, List.nodup_cons] at hnd; exact hnd.2) h

end LookupLemmas

/-- The representation invariant relating a concrete cache state `s`, the
ghost touch map `t`, the cells `C` and the ghost clock. -/
structure CacheInv {K V : Type} [DecidableEq K] (s : CacheImpl K V)
    (t : K → Option Nat) (C : Cells K V) (clock : Nat) : Prop where
  links : LList.Links s.listOfData 0 (C.map Prod.fst) 0
  len_eq : s.listOfData.len = C.length
  ids_nodup : (C.map Prod.fst).Nodup
  root_not_mem : 0 ∉ C.map Prod.fst
  ids_lt : ∀ p ∈ C, p.1 < s.nextElem
  nextElem_pos : 0 < s.nextElem
  root_val : (s.listOfData.elems 0).value = none
  cell_val : ∀ p ∈ C, (s.listOfData.elems p.1).value = some (s.nodeId p.1)
  cell_node : ∀ p ∈ C, s.nodes (s.nodeId p.1) = ⟨p.2.key, p.2.value, p.2.freq⟩
  nids_nodup : (C.map (fun p => s.nodeId p.1)).Nodup
  nids_lt : ∀ p ∈ C, s.nodeId p.1 < s.nextNode
  keys_nodup : (C.map (fun p => p.2.key)).Nodup
  key_map : ∀ k, s.keyToElement k = keyLookup k C
  freq_map : ∀ f, s.frequencyToRecentElement f = freqLookup f C
  sorted : C.Pairwise (fun p q => entGT p.2 q.2)
  freq_pos : ∀ p ∈ C, 1 ≤ p.2.freq
  touch_lt : ∀ p ∈ C, p.2.touch < clock
  touch_eq : ∀ p ∈ C, t p.2.key = some p.2.touch
  size_le : (C.length : Int) ≤ s.capacity
  cap_nonneg : 0 ≤ s.capacity

/-- A fresh cache of non-negative capacity satisfies the invariant with no
cells. -/
theorem cacheInv_mkCache {K V : Type} [DecidableEq K] [Inhabited K] [Inhabited V]
    {c : Int} (hc : 0 ≤ c) :
    CacheInv (CacheImpl.mkCache (K := K) (V := V) c) (fun _ => none) [] 0 := by
  refine ⟨?_, rfl, by simp, by simp, by simp, Nat.one_pos, rfl, by simp, by simp,
    by simp, by simp, by simp, fun k => rfl, fun f => rfl, by simp, by simp,
    by simp, by simp, by simpa using hc, hc⟩
  exact ⟨rfl, rfl⟩

section MiddleLookup

variable {K V : Type}

theorem keyLookup_middle_self [DecidableEq K] {k : K} {e : Nat}
    {a : AEntry K V} {X Y : Cells K V} (hX : ∀ p ∈ X, p.2.key ≠ k)
    (ha : a.key = k) : keyLookup k (X ++ (e, a) :: Y) = some e := by
  rw [keyLookup_append_of_none (keyLookup_eq_none.mpr hX)]
  simp [ha]

theorem keyLookup_middle_ne [DecidableEq K] {m : K} {e : Nat}
    {a : AEntry K V} {X Y : Cells K V} (ha : a.key ≠ m) :
    keyLookup m (X ++ (e, a) :: Y) = keyLookup m (X ++ Y) := by
  cases hX : keyLookup m X with
  | some e' => rw [keyLookup_append_of_some hX, keyLookup_append_of_some hX]
  | none =>
    rw [keyLookup_append_of_none hX, keyLookup_append_of_none hX]
    simp [ha]

theorem freqLookup_middle_self {f : Int} {e : Nat}
    {a : AEntry K V} {X Y : Cells K V} (hX : ∀ p ∈ X, p.2.freq ≠ f)
    (ha : a.freq = f) : freqLookup f (X ++ (e, a) :: Y) = some e := by
  rw [freqLookup_append_of_none (freqLookup_eq_none.mpr hX)]
  simp [ha]

theorem freqLookup_middle_ne {g : Int} {e : Nat}
    {a : AEntry K V} {X Y : Cells K V} (ha : a.freq ≠ g) :
    freqLookup g (X ++ (e, a) :: Y) = freqLookup g (X ++ Y) := by
  cases hX : freqLookup g X with
  | some e' => rw [freqLookup_append_of_some hX, freqLookup_append_of_some hX]
  | none =>
    rw [freqLookup_append_of_none hX, freqLookup_append_of_none hX]
    simp [ha]

end MiddleLookup

namespace CacheImpl

variable {K V : Type} [DecidableEq K]

@[simp] theorem setFreqMap_listOfData (s : CacheImpl K V) (f : Int) (v : Option Nat) :
    (s.setFreqMap f v).listOfData = s.listOfData := rfl

@[simp] theorem setFreqMap_nodes (s : CacheImpl K V) (f : Int) (v : Option Nat) :
    (s.setFreqMap f v).nodes = s.nodes := rfl

@[simp] theorem setFreqMap_keyToElement (s : CacheImpl K V) (f : Int) (v : Option Nat) :
    (s.setFreqMap f v).keyToElement = s.keyToElement := rfl

@[simp] theorem setFreqMap_freqMap (s : CacheImpl K V) (f : Int) (v : Option Nat) (g : Int) :
    (s.setFreqMap f v).frequencyToRecentElement g =
      if g = f then v else s.frequencyToRecentElement g := rfl

@[simp] theorem setFreqMap_capacity (s : CacheImpl K V) (f : Int) (v : Option Nat) :
    (s.setFreqMap f v).capacity = s.capacity := rfl

@[simp] theorem setFreqMap_nextElem (s : CacheImpl K V) (f : Int) (v : Option Nat) :
    (s.setFreqMap f v).nextElem = s.nextElem := rfl

@[simp] theorem setFreqMap_nextNode (s : CacheImpl K V) (f : Int) (v : Option Nat) :
    (s.setFreqMap f v).nextNode = s.nextNode := rfl

@[simp] theorem setKeyMap_listOfData (s : CacheImpl K V) (k : K) (v : Option Nat) :
    (s.setKeyMap k v).listOfData = s.listOfData := rfl

@[simp] theorem setKeyMap_nodes (s : CacheImpl K V) (k : K) (v : Option Nat) :
    (s.setKeyMap k v).nodes = s.nodes := rfl

@[simp] theorem setKeyMap_keyToElement (s : CacheImpl K V) (k : K) (v : Option Nat) (m : K) :
    (s.setKeyMap k v).keyToElement m = if m = k then v else s.keyToElement m := rfl

@[simp] theorem setKeyMap_freqMap (s : CacheImpl K V) (k : K) (v : Option Nat) :
    (s.setKeyMap k v).frequencyToRecentElement = s.frequencyToRecentElement := rfl

@[simp] theorem setKeyMap_capacity (s : CacheImpl K V) (k : K) (v : Option Nat) :
    (s.setKeyMap k v).capacity = s.capacity := rfl

@[simp] theorem setKeyMap_nextElem (s : CacheImpl K V) (k : K) (v : Option Nat) :
    (s.setKeyMap k v).nextElem = s.nextElem := rfl

@[simp] theorem setKeyMap_nextNode (s : CacheImpl K V) (k : K) (v : Option Nat) :
    (s.setKeyMap k v).nextNode = s.nextNode := rfl

@[simp] theorem setFreqMap_nodeId (s : CacheImpl K V) (f : Int) (v : Option Nat) (e : Nat) :
    (s.setFreqMap f v).nodeId e = s.nodeId e := rfl

@[simp] theorem setKeyMap_nodeId (s : CacheImpl K V) (k : K) (v : Option Nat) (e : Nat) :
    (s.setKeyMap k v).nodeId e = s.nodeId e := rfl

@[simp] theorem updNode_listOfData (s : CacheImpl K V) (e : Nat) (f : Node K V → Node K V) :
    (s.updNode e f).listOfData = s.listOfData := rfl

@[simp] theorem updNode_keyToElement (s : CacheImpl K V) (e : Nat) (f : Node K V → Node K V) :
    (s.updNode e f).keyToElement = s.keyToElement := rfl

@[simp] theorem updNode_freqMap (s : CacheImpl K V) (e : Nat) (f : Node K V → Node K V) :
    (s.updNode e f).frequencyToRecentElement = s.frequencyToRecentElement := rfl

@[simp] theorem updNode_capacity (s : CacheImpl K V) (e : Nat) (f : Node K V → Node K V) :
    (s.updNode e f).capacity = s.capacity := rfl

@[simp] theorem updNode_nextElem (s : CacheImpl K V) (e : Nat) (f : Node K V → Node K V) :
    (s.updNode e f).nextElem = s.nextElem := rfl

@[simp] theorem updNode_nextNode (s : CacheImpl K V) (e : Nat) (f : Node K V → Node K V) :
    (s.updNode e f).nextNode = s.nextNode := rfl

@[simp] theorem updNode_nodeId (s : CacheImpl K V) (e : Nat) (f : Node K V → Node K V) (i : Nat) :
    (s.updNode e f).nodeId i = s.nodeId i := rfl

@[simp] theorem updNode_nodes (s : CacheImpl K V) (e : Nat) (f : Node K V → Node K V) (j : Nat) :
    (s.updNode e f).nodes j = if j = s.nodeId e then f (s.nodes j) else s.nodes j := rfl

end CacheImpl

namespace CacheImpl

variable {K V : Type} [DecidableEq K]

theorem nodeOf_listEq {s : CacheImpl K V} {L' : LList (Option Nat)} {e : Nat}
    (hval : (L'.elems e).value = (s.listOfData.elems e).value) :
    CacheImpl.nodeOf { s with listOfData := L' } e = s.nodeOf e := by
  simp [CacheImpl.nodeOf, CacheImpl.nodeId, hval]

theorem addToList_eq_of_len_zero {s : CacheImpl K V} {e : Nat}
    (h0 : s.listOfData.len = 0) :
    s.addToList e =
      (CacheImpl.setFreqMap { s with listOfData := s.listOfData.Add e }
        (CacheImpl.nodeOf { s with listOfData := s.listOfData.Add e } e).freq
        (some e)).setKeyMap
        (CacheImpl.nodeOf { s with listOfData := s.listOfData.Add e } e).key
        (some e) := by
  simp only [CacheImpl.addToList, if_pos h0]

theorem addToList_eq_of_len_ne {s : CacheImpl K V} {e : Nat}
    (h0 : ¬ s.listOfData.len = 0) :
    s.addToList e =
      (CacheImpl.setFreqMap (s.addToNotEmptyList e)
        (CacheImpl.nodeOf (s.addToNotEmptyList e) e).freq (some e)).setKeyMap
        (CacheImpl.nodeOf (s.addToNotEmptyList e) e).key (some e) := by
  simp only [CacheImpl.addToList, if_neg h0]

theorem addToNotEmptyList_eq_found {s : CacheImpl K V} {e r : Nat}
    (hfr : s.frequencyToRecentElement (s.nodeOf e).freq = some r) :
    s.addToNotEmptyList e = { s with listOfData := s.listOfData.AddBefore e r } := by
  simp only [CacheImpl.addToNotEmptyList, hfr]

theorem addToNotEmptyList_eq_min {s : CacheImpl K V} {e : Nat}
    (hfr : s.frequencyToRecentElement (s.nodeOf e).freq = none)
    (hlt : (s.nodeOf e).freq < (s.nodeOf (LList.deref s.listOfData.Back)).freq) :
    s.addToNotEmptyList e = { s with listOfData := s.listOfData.Add e } := by
  simp only [CacheImpl.addToNotEmptyList, hfr, if_pos hlt]

theorem addToNotEmptyList_eq_prev {s : CacheImpl K V} {e r' : Nat}
    (hfr : s.frequencyToRecentElement (s.nodeOf e).freq = none)
    (hnlt : ¬ (s.nodeOf e).freq < (s.nodeOf (LList.deref s.listOfData.Back)).freq)
    (hne1 : (s.nodeOf e).freq ≠ 1)
    (hfr2 : s.frequencyToRecentElement ((s.nodeOf e).freq - 1) = some r') :
    s.addToNotEmptyList e = { s with listOfData := s.listOfData.AddBefore e r' } := by
  simp only [CacheImpl.addToNotEmptyList, hfr, if_neg hnlt, if_pos hne1, hfr2]

theorem addToNotEmptyList_eq_replace {s : CacheImpl K V} {e : Nat}
    (hfr : s.frequencyToRecentElement (s.nodeOf e).freq = none)
    (hnlt : ¬ (s.nodeOf e).freq < (s.nodeOf (LList.deref s.listOfData.Back)).freq)
    (hne1 : (s.nodeOf e).freq ≠ 1)
    (hfr2 : s.frequencyToRecentElement ((s.nodeOf e).freq - 1) = none) :
    s.addToNotEmptyList e =
      { s with listOfData := s.listOfData.ReplaceDeletedElement e e } := by
  simp only [CacheImpl.addToNotEmptyList, hfr, if_neg hnlt, if_pos hne1, hfr2]

end CacheImpl

/-- The last cell of a sorted cell list has the minimal frequency. -/
theorem sorted_getLast_le {K V : Type} {C : Cells K V}
    (hs : C.Pairwise (fun p q => entGT p.2 q.2)) (hne : C ≠ []) :
    ∀ x ∈ C, (C.getLast hne).2.freq ≤ x.2.freq := by
  intro x hx
  have hsplit : C.dropLast ++ [C.getLast hne] = C := List.dropLast_append_getLast hne
  rw [← hsplit] at hs hx
  rw [List.pairwise_append] at hs
  rcases List.mem_append.mp hx with hm | hm
  · rcases hs.2.2 x hm (C.getLast hne) (by simp) with hlt | heq
    · exact le_of_lt hlt
    · exact le_of_eq heq.1
  · rw [List.mem_singleton.mp hm]

/-- The id of the last cell is the `getLastD` of the id list. -/
theorem map_fst_getLastD {K V : Type} {C : Cells K V} (hne : C ≠ []) :
    (C.map Prod.fst).getLastD 0 = (C.getLast hne).1 := by
  rw [List.getLastD_eq_getLast?, List.getLast?_eq_getLast _ (by simpa using hne)]
  simp [List.getLast_map]

/-- Hypothesis bundle for the re-insertion step shared by `Get`, `Put` on a
present key (new frequency `f' = old + 1`, cells `P`/`Q` are the list
before/after the detached element's former slot) and `Put` of a fresh key
(`f' = 1`, `Q = []` is forced).  `s3` is the state right before `addToList`:
list contents `P ++ Q`, the detached/fresh element `e` carrying node
`⟨k, v, f'⟩`, the key map already mapping `k` to `e` and the frequency map
agreeing with `P ++ Q` lookups. -/
structure PreInsert {K V : Type} [DecidableEq K] (s3 : CacheImpl K V)
    (P Q : Cells K V) (e : Nat) (k : K) (v : V) (f' : Int)
    (t' : K → Option Nat) (clock : Nat) : Prop where
  hf' : 1 ≤ f'
  hlinks : LList.Links s3.listOfData 0 ((P ++ Q).map Prod.fst) 0
  hlen : s3.listOfData.len = (P ++ Q).length
  hnd : ((P ++ Q).map Prod.fst).Nodup
  h0 : 0 ∉ (P ++ Q).map Prod.fst
  he : e ∉ (P ++ Q).map Prod.fst
  he0 : e ≠ 0
  hrootval : (s3.listOfData.elems 0).value = none
  hcv : ∀ p ∈ P ++ Q, (s3.listOfData.elems p.1).value = some (s3.nodeId p.1)
  hcn : ∀ p ∈ P ++ Q, s3.nodes (s3.nodeId p.1) = ⟨p.2.key, p.2.value, p.2.freq⟩
  hnidnd : ((P ++ Q).map (fun p => s3.nodeId p.1)).Nodup
  hnidlt : ∀ p ∈ P ++ Q, s3.nodeId p.1 < s3.nextNode
  hnidfresh : ∀ p ∈ P ++ Q, s3.nodeId p.1 ≠ s3.nodeId e
  hnidelt : s3.nodeId e < s3.nextNode
  hkeysnd : ((P ++ Q).map (fun p => p.2.key)).Nodup
  hkeysne : ∀ p ∈ P ++ Q, p.2.key ≠ k
  hkeymap : ∀ m, s3.keyToElement m = if m = k then some e else keyLookup m (P ++ Q)
  hfreqmap : ∀ g, s3.frequencyToRecentElement g = freqLookup g (P ++ Q)
  hsorted : (P ++ Q).Pairwise (fun p q => entGT p.2 q.2)
  hfreqpos : ∀ p ∈ P ++ Q, 1 ≤ p.2.freq
  hPf : ∀ p ∈ P, f' - 1 ≤ p.2.freq
  hQf : ∀ q ∈ Q, q.2.freq ≤ f' - 1
  hdangn : 1 < f' → s3.listOfData.nextOf e = some ((Q.map Prod.fst).headD 0)
  hdangp : 1 < f' → s3.listOfData.prevOf e = some ((P.map Prod.fst).getLastD 0)
  htlt : ∀ p ∈ P ++ Q, p.2.touch < clock
  hteq : ∀ p ∈ P ++ Q, t' p.2.key = some p.2.touch
  ht'k : t' k = some clock
  hids_lt : ∀ p ∈ P ++ Q, p.1 < s3.nextElem
  helt : e < s3.nextElem
  hnextpos : 0 < s3.nextElem
  henodeval : (s3.listOfData.elems e).value = some (s3.nodeId e)
  henode : s3.nodes (s3.nodeId e) = ⟨k, v, f'⟩
  hsize : ((P ++ Q).length + 1 : Int) ≤ s3.capacity
  hcap : 0 ≤ s3.capacity

/-- Rebuilding the invariant after an insertion: if the list-level write
produced the ring `Chi.ids ++ e :: Clo.ids` with values untouched, and the
split `P ++ Q = Chi ++ Clo` places the new frequency strictly below `Chi`
and at-or-above `Clo`, then the final two map writes of `addToList` yield
the invariant for the cells `Chi ++ (e, ⟨k, v, f', clock⟩) :: Clo`. -/
theorem mkCacheInv_insert {K V : Type} [DecidableEq K] {s3 : CacheImpl K V}
    {P Q Chi Clo : Cells K V} {e : Nat} {k : K} {v : V} {f' : Int}
    {t' : K → Option Nat} {clock : Nat} {L' : LList (Option Nat)}
    (h : PreInsert s3 P Q e k v f' t' clock)
    (hCC : P ++ Q = Chi ++ Clo)
    (hChiHi : ∀ x ∈ Chi, f' < x.2.freq)
    (hCloLe : ∀ x ∈ Clo, x.2.freq ≤ f')
    (hL'links : LList.Links L' 0 (Chi.map Prod.fst ++ e :: Clo.map Prod.fst) 0)
    (hL'len : L'.len = (P ++ Q).length + 1)
    (hL'vals : ∀ i, (L'.elems i).value = (s3.listOfData.elems i).value) :
    CacheInv
      ((CacheImpl.setFreqMap { s3 with listOfData := L' } f' (some e)).setKeyMap
        k (some e))
      t' (Chi ++ (e, ⟨k, v, f', clock⟩) :: Clo) (clock + 1) := by
  have hCCids : (P ++ Q).map Prod.fst = (Chi ++ Clo).map Prod.fst := by rw [hCC]
  have hmemCC : ∀ p, p ∈ Chi ++ Clo → p ∈ P ++ Q := fun p hp => hCC ▸ hp
  have hidsplit : (Chi ++ Clo).map Prod.fst = Chi.map Prod.fst ++ Clo.map Prod.fst := by
    simp
  have hnewids : (Chi ++ (e, AEntry.mk k v f' clock) :: Clo).map Prod.fst =
      Chi.map Prod.fst ++ e :: Clo.map Prod.fst := by
    simp
  have hnid3 : ∀ i, CacheImpl.nodeId { s3 with listOfData := L' } i = s3.nodeId i := by
    intro i
    simp [CacheImpl.nodeId, hL'vals]
  have hlenCC : (Chi ++ Clo).length = (P ++ Q).length := by rw [hCC]
  refine ⟨?_, ?_, ?_, ?_, ?_, ?_, ?_, ?_, ?_, ?_, ?_, ?_, ?_, ?_, ?_, ?_, ?_, ?_, ?_, ?_⟩
  · -- links
    rw [hnewids]
    exact hL'links
  · -- len_eq
    simp only [CacheImpl.setKeyMap, CacheImpl.setFreqMap]
    rw [hL'len]
    simp [hlenCC.symm]
    omega
  · -- ids_nodup
    rw [hnewids]
    rw [List.nodup_middle, List.nodup_cons]
    refine ⟨?_, ?_⟩
    · rw [← hidsplit, ← hCCids]
      exact h.he
    · rw [← hidsplit, ← hCCids]
      exact h.hnd
  · -- root_not_mem
    rw [hnewids]
    intro hmem
    rcases List.mem_append.mp hmem with hm | hm
    · exact h.h0 (by rw [hCCids, hidsplit]; exact List.mem_append_left _ hm)
    · rcases List.mem_cons.mp hm with hm | hm
      · exact h.he0 hm.symm
      · exact h.h0 (by rw [hCCids, hidsplit]; exact List.mem_append_right _ hm)
  · -- ids_lt
    intro p hp
    simp only [CacheImpl.setKeyMap_nextElem, CacheImpl.setFreqMap_nextElem]
    rcases List.mem_append.mp hp with hm | hm
    · exact h.hids_lt p (hmemCC p (List.mem_append_left _ hm))
    · rcases List.mem_cons.mp hm with hm | hm
      · rw [hm]
        exact h.helt
      · exact h.hids_lt p (hmemCC p (List.mem_append_right _ hm))
  · -- nextElem_pos
    exact h.hnextpos
  · -- root_val
    simp only [CacheImpl.setKeyMap_listOfData, CacheImpl.setFreqMap_listOfData]
    rw [hL'vals 0]
    exact h.hrootval
  · -- cell_val
    intro p hp
    simp only [CacheImpl.setKeyMap_listOfData, CacheImpl.setFreqMap_listOfData,
      CacheImpl.setKeyMap_nodeId, CacheImpl.setFreqMap_nodeId, hnid3]
    rw [hL'vals p.1]
    rcases List.mem_append.mp hp with hm | hm
    · exact h.hcv p (hmemCC p (List.mem_append_left _ hm))
    · rcases List.mem_cons.mp hm with hm | hm
      · rw [hm]
        exact h.henodeval
      · exact h.hcv p (hmemCC p (List.mem_append_right _ hm))
  · -- cell_node
    intro p hp
    simp only [CacheImpl.setKeyMap_nodes, CacheImpl.setFreqMap_nodes,
      CacheImpl.setKeyMap_nodeId, CacheImpl.setFreqMap_nodeId, hnid3]
    rcases List.mem_append.mp hp with hm | hm
    · exact h.hcn p (hmemCC p (List.mem_append_left _ hm))
    · rcases List.mem_cons.mp hm with hm | hm
      · rw [hm]
        exact h.henode
      · exact h.hcn p (hmemCC p (List.mem_append_right _ hm))
  · -- nids_nodup
    have hmap : (Chi ++ (e, AEntry.mk k v f' clock) :: Clo).map
        (fun p => CacheImpl.nodeId
          ((CacheImpl.setFreqMap { s3 with listOfData := L' } f' (some e)).setKeyMap
            k (some e)) p.1) =
        (Chi ++ (e, AEntry.mk k v f' clock) :: Clo).map (fun p => s3.nodeId p.1) := by
      refine List.map_congr_left ?_
      intro p hp
      simp [hnid3]
    rw [hmap, List.map_append, List.map_cons, List.nodup_middle, List.nodup_cons]
    constructor
    · intro hmem
      rw [← List.map_append] at hmem
      obtain ⟨q, hq, hqe⟩ := List.mem_map.mp hmem
      exact h.hnidfresh q (hmemCC q hq) hqe
    · rw [← List.map_append, ← hCC]
      exact h.hnidnd
  · -- nids_lt
    intro p hp
    simp only [CacheImpl.setKeyMap_nextNode, CacheImpl.setFreqMap_nextNode,
      CacheImpl.setKeyMap_nodeId, CacheImpl.setFreqMap_nodeId, hnid3]
    rcases List.mem_append.mp hp with hm | hm
    · exact h.hnidlt p (hmemCC p (List.mem_append_left _ hm))
    · rcases List.mem_cons.mp hm with hm | hm
      · rw [hm]
        exact h.hnidelt
      · exact h.hnidlt p (hmemCC p (List.mem_append_right _ hm))
  · -- keys_nodup
    rw [List.map_append, List.map_cons, List.nodup_middle, List.nodup_cons]
    constructor
    · intro hmem
      rw [← List.map_append] at hmem
      obtain ⟨q, hq, hqe⟩ := List.mem_map.mp hmem
      exact h.hkeysne q (hmemCC q hq) hqe
    · rw [← List.map_append, ← hCC]
      exact h.hkeysnd
  · -- key_map
    intro m
    rw [CacheImpl.setKeyMap_keyToElement]
    by_cases hm : m = k
    · rw [if_pos hm, hm]
      refine (keyLookup_middle_self (k := k) (e := e)
        (a := AEntry.mk k v f' clock) (X := Chi) (Y := Clo) ?_ rfl).symm
      intro p hp
      exact h.hkeysne p (hmemCC p (List.mem_append_left _ hp))
    · rw [if_neg hm, CacheImpl.setFreqMap_keyToElement, h.hkeymap m, if_neg hm]
      rw [keyLookup_middle_ne (fun hk => hm hk.symm), ← hCC]
  · -- freq_map
    intro g
    rw [show ((CacheImpl.setFreqMap { s3 with listOfData := L' } f' (some e)).setKeyMap
      k (some e)).frequencyToRecentElement g =
      if g = f' then some e else s3.frequencyToRecentElement g from rfl]
    by_cases hg : g = f'
    · rw [if_pos hg, hg]
      refine (freqLookup_middle_self (f := f') (e := e)
        (a := AEntry.mk k v f' clock) (X := Chi) (Y := Clo) ?_ rfl).symm
      intro p hp
      exact ne_of_gt (hChiHi p hp)
    · rw [if_neg hg, h.hfreqmap g]
      rw [freqLookup_middle_ne (fun hf => hg hf.symm), ← hCC]
  · -- sorted
    have hps : (Chi ++ Clo).Pairwise (fun p q => entGT p.2 q.2) := hCC ▸ h.hsorted
    rw [List.pairwise_append] at hps
    rw [List.pairwise_append]
    refine ⟨hps.1, ?_, ?_⟩
    · rw [List.pairwise_cons]
      refine ⟨?_, hps.2.1⟩
      intro q hq
      rcases lt_or_eq_of_le (hCloLe q hq) with hlt | heq
      · exact Or.inl hlt
      · exact Or.inr ⟨heq, h.htlt q (hmemCC q (List.mem_append_right _ hq))⟩
    · intro x hx b hb
      rcases List.mem_cons.mp hb with rfl | hb'
      · exact Or.inl (hChiHi x hx)
      · exact hps.2.2 x hx b hb'
  · -- freq_pos
    intro p hp
    rcases List.mem_append.mp hp with hm | hm
    · exact h.hfreqpos p (hmemCC p (List.mem_append_left _ hm))
    · rcases List.mem_cons.mp hm with hm | hm
      · rw [hm]
        exact h.hf'
      · exact h.hfreqpos p (hmemCC p (List.mem_append_right _ hm))
  · -- touch_lt
    intro p hp
    rcases List.mem_append.mp hp with hm | hm
    · exact Nat.lt_succ_of_lt (h.htlt p (hmemCC p (List.mem_append_left _ hm)))
    · rcases List.mem_cons.mp hm with hm | hm
      · rw [hm]
        exact Nat.lt_succ_self clock
      · exact Nat.lt_succ_of_lt (h.htlt p (hmemCC p (List.mem_append_right _ hm)))
  · -- touch_eq
    intro p hp
    rcases List.mem_append.mp hp with hm | hm
    · exact h.hteq p (hmemCC p (List.mem_append_left _ hm))
    · rcases List.mem_cons.mp hm with hm | hm
      · rw [hm]
        exact h.ht'k
      · exact h.hteq p (hmemCC p (List.mem_append_right _ hm))
  · -- size_le
    simp only [CacheImpl.setKeyMap_capacity, CacheImpl.setFreqMap_capacity]
    have : (Chi ++ (e, AEntry.mk k v f' clock) :: Clo).length = (P ++ Q).length + 1 := by
      simp only [List.length_append, List.length_cons]
      have := congrArg List.length hCC
      simp only [List.length_append] at this
      omega
    rw [this]
    exact_mod_cast h.hsize
  · -- cap_nonneg
    exact h.hcap

namespace CacheImpl

variable {K V : Type} [DecidableEq K]

theorem removeFreqLevel_eq_noop {s : CacheImpl K V} {link nxt : Nat}
    (hnx : s.listOfData.GetNext link = some nxt)
    (hne : s.frequencyToRecentElement (s.nodeOf link).freq ≠ some link) :
    s.removeFreqLevel link = s := by
  simp only [CacheImpl.removeFreqLevel, hnx]
  rw [if_neg hne]

theorem removeFreqLevel_eq_del_root {s : CacheImpl K V} {link nxt : Nat}
    (hnx : s.listOfData.GetNext link = some nxt)
    (hfr : s.frequencyToRecentElement (s.nodeOf link).freq = some link)
    (hpe : (s.listOfData.elems nxt).value = none) :
    s.removeFreqLevel link = s.setFreqMap (s.nodeOf link).freq none := by
  simp only [CacheImpl.removeFreqLevel, hnx, hpe]
  rw [if_pos hfr]

theorem removeFreqLevel_eq_shift {s : CacheImpl K V} {link nxt pid : Nat}
    (hnx : s.listOfData.GetNext link = some nxt)
    (hfr : s.frequencyToRecentElement (s.nodeOf link).freq = some link)
    (hpe : (s.listOfData.elems nxt).value = some pid)
    (hfeq : (s.nodes pid).freq = (s.nodeOf link).freq) :
    s.removeFreqLevel link = s.setFreqMap (s.nodeOf link).freq (some nxt) := by
  simp only [CacheImpl.removeFreqLevel, hnx, hpe]
  rw [if_pos hfr, if_pos hfeq]

theorem removeFreqLevel_eq_del {s : CacheImpl K V} {link nxt pid : Nat}
    (hnx : s.listOfData.GetNext link = some nxt)
    (hfr : s.frequencyToRecentElement (s.nodeOf link).freq = some link)
    (hpe : (s.listOfData.elems nxt).value = some pid)
    (hfne : ¬ (s.nodes pid).freq = (s.nodeOf link).freq) :
    s.removeFreqLevel link = s.setFreqMap (s.nodeOf link).freq none := by
  simp only [CacheImpl.removeFreqLevel, hnx, hpe]
  rw [if_pos hfr, if_neg hfne]

end CacheImpl

/-- A lookup hit names an id occurring in the cells. -/
theorem freqLookup_mem {K V : Type} {f : Int} {L : Cells K V} {w : Nat}
    (h : freqLookup f L = some w) : w ∈ L.map Prod.fst := by
  obtain ⟨X, a, Y, hdec, -, -⟩ := freqLookup_eq_some h
  rw [hdec]
  simp

/-- What detaching a live element does: the state after
`removeFromList` plus the second `removeFreqLevel` call performed by
`Get`/`Put` on a hit.  `P`/`Q` are the cells before/after the detached
element, whose dangling pointers still frame its former slot; the frequency
map has been retired to agree with `P ++ Q`; nothing else changed. -/
structure DetachedState {K V : Type} [DecidableEq K] (s2 s : CacheImpl K V)
    (P Q : Cells K V) (e : Nat) : Prop where
  hlinks : LList.Links s2.listOfData 0 ((P ++ Q).map Prod.fst) 0
  hlen : s2.listOfData.len = (P ++ Q).length
  hvals : ∀ i, (s2.listOfData.elems i).value = (s.listOfData.elems i).value
  hdn : s2.listOfData.nextOf e = some ((Q.map Prod.fst).headD 0)
  hdp : s2.listOfData.prevOf e = some ((P.map Prod.fst).getLastD 0)
  hnodes : s2.nodes = s.nodes
  hkey : s2.keyToElement = s.keyToElement
  hfrq : ∀ g, s2.frequencyToRecentElement g = freqLookup g (P ++ Q)
  hcap : s2.capacity = s.capacity
  hnxe : s2.nextElem = s.nextElem
  hnxn : s2.nextNode = s.nextNode

theorem detach_spec {K V : Type} [DecidableEq K] {s : CacheImpl K V}
    {t : K → Option Nat} {C : Cells K V} {clock : Nat} {k : K} {e : Nat}
    (h : CacheInv s t C clock) (hke : s.keyToElement k = some e) :
    ∃ P a Q, C = P ++ (e, a) :: Q ∧ a.key = k ∧ (∀ p ∈ P, p.2.key ≠ k) ∧
      DetachedState ((s.removeFromList e).removeFreqLevel e) s P Q e := by
  have hkl : keyLookup k C = some e := by rw [← h.key_map]; exact hke
  obtain ⟨P, a, Q, hdec, hak, hPk⟩ := keyLookup_eq_some hkl
  refine ⟨P, a, Q, hdec, hak, hPk, ?_⟩
  have hids : C.map Prod.fst = P.map Prod.fst ++ e :: Q.map Prod.fst := by
    rw [hdec]; simp
  have hmem_ea : (e, a) ∈ C := by rw [hdec]; simp
  have hlenC : s.listOfData.len ≠ 0 := by
    rw [h.len_eq, hdec]
    simp
  -- the list removal
  obtain ⟨hlinksR, hlenR, hvalsR, hdnR, hdpR⟩ :=
    LList.Remove_spec (l := s.listOfData) (A := P.map Prod.fst)
      (B := Q.map Prod.fst) (e := e)
      (hids ▸ h.links) (hids ▸ h.ids_nodup) (hids ▸ h.root_not_mem) hlenC
  have hnodeE : s.nodeOf e = Node.mk k a.value a.freq := by
    have := h.cell_node (e, a) hmem_ea
    rw [hak] at this
    exact this
  -- the state after Remove
  have hvalsR' : ∀ i, ((s.listOfData.Remove e).elems i).value =
      (s.listOfData.elems i).value := hvalsR
  have hnodeER : CacheImpl.nodeOf { s with listOfData := s.listOfData.Remove e } e =
      Node.mk k a.value a.freq := by
    rw [CacheImpl.nodeOf_listEq (hvalsR' e)]
    exact hnodeE
  have hfreqC : ∀ g, s.frequencyToRecentElement g = freqLookup g C := h.freq_map
  have hge : s.listOfData.GetNext e =
      s.listOfData.nextOf e := rfl
  have hgnR : (s.listOfData.Remove e).GetNext e =
      some ((Q.map Prod.fst).headD 0) := hdnR
  -- all cells of Q have frequency at most a.freq, and all of P at least
  have hsortC : (P ++ (e, a) :: Q).Pairwise (fun p q => entGT p.2 q.2) :=
    hdec ▸ h.sorted
  have hQle : ∀ q ∈ Q, q.2.freq ≤ a.freq := by
    intro q hq
    rw [List.pairwise_append, List.pairwise_cons] at hsortC
    rcases hsortC.2.1.1 q hq with hlt | heq
    · exact le_of_lt hlt
    · exact le_of_eq heq.1
  have hQsorted : Q.Pairwise (fun p q => entGT p.2 q.2) := by
    rw [List.pairwise_append, List.pairwise_cons] at hsortC
    exact hsortC.2.1.2
  have hePQ : e ∉ (P ++ Q).map Prod.fst := by
    have hnd := hids ▸ h.ids_nodup
    rw [List.nodup_middle, List.nodup_cons] at hnd
    simpa using hnd.1
  -- compute the frequency-map retirement (first removeFreqLevel call)
  -- and show the second call is a no-op; bundle the common conclusion
  have main : ∀ s1 : CacheImpl K V,
      s1.listOfData = s.listOfData.Remove e →
      s1.nodes = s.nodes →
      s1.keyToElement = s.keyToElement →
      (∀ g, s1.frequencyToRecentElement g = freqLookup g (P ++ Q)) →
      s1.capacity = s.capacity → s1.nextElem = s.nextElem →
      s1.nextNode = s.nextNode →
      DetachedState (s1.removeFreqLevel e) s P Q e := by
    intro s1 hl1 hn1 hk1 hf1 hc1 he1 hnn1
    have hnodeE1 : s1.nodeOf e = Node.mk k a.value a.freq := by
      rw [show s1.nodeOf e = s1.nodes (s1.nodeId e) from rfl, hn1]
      rw [show s1.nodeId e = ((s1.listOfData.elems e).value).getD 0 from rfl, hl1]
      rw [hvalsR' e]
      exact hnodeE
    have hgn1 : s1.listOfData.GetNext e = some ((Q.map Prod.fst).headD 0) := by
      rw [hl1]; exact hgnR
    have hnoop : s1.removeFreqLevel e = s1 := by
      refine CacheImpl.removeFreqLevel_eq_noop hgn1 ?_
      rw [hnodeE1]
      show s1.frequencyToRecentElement a.freq ≠ some e
      rw [hf1 a.freq]
      cases hfl : freqLookup a.freq (P ++ Q) with
      | none => simp
      | some w =>
        have hw : w ∈ (P ++ Q).map Prod.fst := freqLookup_mem hfl
        intro hcon
        obtain rfl : w = e := Option.some.inj hcon
        exact hePQ hw
    rw [hnoop]
    refine ⟨?_, by rw [hl1, hlenR, h.len_eq, hdec]; simp,
      fun i => by rw [hl1]; exact hvalsR' i,
      by rw [hl1]; exact hdnR, by rw [hl1]; exact hdpR,
      hn1, hk1, hf1, hc1, he1, hnn1⟩
    rw [List.map_append, hl1]
    exact hlinksR
  -- now analyse the first removeFreqLevel (inside removeFromList)
  show DetachedState
    ((CacheImpl.removeFreqLevel { s with listOfData := s.listOfData.Remove e }
      e).removeFreqLevel e) s P Q e
  cases hfP : freqLookup a.freq P with
  | some w =>
    -- e is not the front of its run: the map is untouched by the retirement
    have hwC : freqLookup a.freq C = some w := by
      rw [hdec]
      exact freqLookup_append_of_some hfP
    have hwe : w ≠ e := by
      have hwP : w ∈ P.map Prod.fst := freqLookup_mem hfP
      intro hcon
      exact hePQ (by rw [← hcon, List.map_append]; exact List.mem_append_left _ hwP)
    have hnoop1 : CacheImpl.removeFreqLevel
        { s with listOfData := s.listOfData.Remove e } e =
        { s with listOfData := s.listOfData.Remove e } := by
      refine CacheImpl.removeFreqLevel_eq_noop hgnR ?_
      rw [hnodeER]
      show s.frequencyToRecentElement a.freq ≠ some e
      rw [hfreqC a.freq, hwC]
      exact fun hcon => hwe (Option.some.inj hcon)
    rw [hnoop1]
    refine main _ rfl rfl rfl ?_ rfl rfl rfl
    intro g
    show s.frequencyToRecentElement g = freqLookup g (P ++ Q)
    rw [hfreqC g, hdec]
    by_cases hg : a.freq = g
    · rw [← hg, freqLookup_append_of_some hfP, freqLookup_append_of_some hfP]
    · exact freqLookup_middle_ne hg
  | none =>
    -- e is the front of its run
    have hfrCe : s.frequencyToRecentElement a.freq = some e := by
      rw [hfreqC a.freq, hdec, freqLookup_append_of_none hfP]
      simp
    have hfrER : CacheImpl.nodeOf { s with listOfData := s.listOfData.Remove e } e =
        Node.mk k a.value a.freq := hnodeER
    rcases Q with _ | ⟨⟨bid, ab⟩, Q'⟩
    · -- no successor cell: the successor is the root and the level is deleted
      have hgn0 : (s.listOfData.Remove e).GetNext e = some 0 := hgnR
      have hpe : ((s.listOfData.Remove e).elems 0).value = none := by
        rw [hvalsR' 0]
        exact h.root_val
      have hs1 : CacheImpl.removeFreqLevel
          { s with listOfData := s.listOfData.Remove e } e =
          CacheImpl.setFreqMap { s with listOfData := s.listOfData.Remove e }
            (CacheImpl.nodeOf { s with listOfData := s.listOfData.Remove e } e).freq
            none :=
        CacheImpl.removeFreqLevel_eq_del_root hgn0
          (by rw [hfrER]; exact hfrCe) hpe
      rw [hs1]
      refine main _ rfl rfl rfl ?_ rfl rfl rfl
      intro g
      rw [CacheImpl.setFreqMap_freqMap,
        show (CacheImpl.nodeOf { s with listOfData := s.listOfData.Remove e } e).freq =
          a.freq from by rw [hfrER]]
      by_cases hg : g = a.freq
      · rw [if_pos hg, hg, List.append_nil]
        exact hfP.symm
      · rw [if_neg hg]
        show s.frequencyToRecentElement g = freqLookup g (P ++ [])
        rw [hfreqC g, hdec]
        exact freqLookup_middle_ne (fun hc => hg hc.symm)
    · -- a successor cell exists
      have hmem_b : ((bid, ab) : Nat × AEntry K V) ∈ C := by rw [hdec]; simp
      have hgnb : (s.listOfData.Remove e).GetNext e = some bid := hgnR
      have hpe : ((s.listOfData.Remove e).elems bid).value = some (s.nodeId bid) := by
        rw [hvalsR' bid]
        exact h.cell_val _ hmem_b
      have hnfb : (s.nodes (s.nodeId bid)).freq = ab.freq := by
        rw [h.cell_node _ hmem_b]
      by_cases hab : ab.freq = a.freq
      · -- the run survives with the successor as new front
        have hs1 : CacheImpl.removeFreqLevel
            { s with listOfData := s.listOfData.Remove e } e =
            CacheImpl.setFreqMap { s with listOfData := s.listOfData.Remove e }
              (CacheImpl.nodeOf { s with listOfData := s.listOfData.Remove e } e).freq
              (some bid) :=
          CacheImpl.removeFreqLevel_eq_shift hgnb (by rw [hfrER]; exact hfrCe) hpe
            (by
              rw [hfrER]
              show (s.nodes (s.nodeId bid)).freq = a.freq
              rw [hnfb]
              exact hab)
        rw [hs1]
        refine main _ rfl rfl rfl ?_ rfl rfl rfl
        intro g
        rw [CacheImpl.setFreqMap_freqMap,
          show (CacheImpl.nodeOf { s with listOfData := s.listOfData.Remove e } e).freq =
            a.freq from by rw [hfrER]]
        by_cases hg : g = a.freq
        · rw [if_pos hg, hg, freqLookup_append_of_none hfP]
          simp [hab]
        · rw [if_neg hg]
          show s.frequencyToRecentElement g = freqLookup g (P ++ (bid, ab) :: Q')
          rw [hfreqC g, hdec]
          exact freqLookup_middle_ne (fun hc => hg hc.symm)
      · -- the successor has a different frequency: the level is deleted
        have hs1 : CacheImpl.removeFreqLevel
            { s with listOfData := s.listOfData.Remove e } e =
            CacheImpl.setFreqMap { s with listOfData := s.listOfData.Remove e }
              (CacheImpl.nodeOf { s with listOfData := s.listOfData.Remove e } e).freq
              none :=
          CacheImpl.removeFreqLevel_eq_del hgnb (by rw [hfrER]; exact hfrCe) hpe
            (by
              rw [hfrER]
              show ¬ (s.nodes (s.nodeId bid)).freq = a.freq
              rw [hnfb]
              exact hab)
        rw [hs1]
        refine main _ rfl rfl rfl ?_ rfl rfl rfl
        intro g
        rw [CacheImpl.setFreqMap_freqMap,
          show (CacheImpl.nodeOf { s with listOfData := s.listOfData.Remove e } e).freq =
            a.freq from by rw [hfrER]]
        by_cases hg : g = a.freq
        · rw [if_pos hg, hg, freqLookup_append_of_none hfP]
          refine (freqLookup_eq_none.mpr ?_).symm
          intro q hq
          rcases List.mem_cons.mp hq with rfl | hq'
          · exact hab
          · have habq := hQsorted
            rw [List.pairwise_cons] at habq
            have h1 := habq.1 q hq'
            have h2 : ab.freq ≤ a.freq := hQle (bid, ab) (List.mem_cons_self _ _)
            rcases h1 with hlt | heq
            · intro hcon
              have hlt2 : q.2.freq < ab.freq := hlt
              omega
            · intro hcon
              rw [heq.1] at hcon
              exact hab hcon
        · rw [if_neg hg]
          show s.frequencyToRecentElement g = freqLookup g (P ++ (bid, ab) :: Q')
          rw [hfreqC g, hdec]
          exact freqLookup_middle_ne (fun hc => hg hc.symm)

section Observation

variable {K V : Type} [DecidableEq K] {s : CacheImpl K V} {t : K → Option Nat}
  {C : Cells K V} {clock : Nat}

theorem CacheInv.size_eq (h : CacheInv s t C clock) :
    CacheImpl.Size s = (C.length : Int) := by
  rw [CacheImpl.Size, h.len_eq]

theorem CacheInv.key_some_of_mem (h : CacheInv s t C clock) {e : Nat}
    {a : AEntry K V} (hm : (e, a) ∈ C) : s.keyToElement a.key = some e := by
  rw [h.key_map]
  exact keyLookup_of_mem h.keys_nodup hm

theorem CacheInv.mem_of_key_some (h : CacheInv s t C clock) {k : K} {e : Nat}
    (hk : s.keyToElement k = some e) : ∃ a, (e, a) ∈ C ∧ a.key = k := by
  rw [h.key_map] at hk
  obtain ⟨X, a, Y, hC, hak, -⟩ := keyLookup_eq_some hk
  exact ⟨a, by rw [hC]; simp, hak⟩

theorem CacheInv.live_iff (h : CacheInv s t C clock) {k : K} :
    (s.keyToElement k).isSome ↔ ∃ p ∈ C, p.2.key = k := by
  constructor
  · intro hs
    obtain ⟨e, he⟩ := Option.isSome_iff_exists.mp hs
    obtain ⟨a, hm, hak⟩ := h.mem_of_key_some he
    exact ⟨(e, a), hm, hak⟩
  · rintro ⟨⟨e, a⟩, hm, hak⟩
    rw [← hak, h.key_some_of_mem hm]
    rfl

theorem CacheInv.getKeyFrequency_eq (h : CacheInv s t C clock) {e : Nat}
    {a : AEntry K V} (hm : (e, a) ∈ C) :
    CacheImpl.GetKeyFrequency s a.key = (a.freq, none) := by
  rw [CacheImpl.GetKeyFrequency, h.key_some_of_mem hm]
  show ((s.nodeOf e).freq, none) = (a.freq, none)
  have hn : s.nodeOf e = Node.mk a.key a.value a.freq := h.cell_node (e, a) hm
  rw [hn]

theorem CacheInv.all_eq (h : CacheInv s t C clock) :
    CacheImpl.All s = C.map (fun p => (p.2.key, p.2.value)) := by
  rw [CacheImpl.All,
    LList.Iterator_spec h.links h.root_not_mem (by rw [h.len_eq]; simp),
    List.map_map, List.map_map]
  refine List.map_congr_left ?_
  intro p hp
  have hv : (s.listOfData.elems p.1).value = some (s.nodeId p.1) := h.cell_val p hp
  have hn : s.nodes (s.nodeId p.1) = Node.mk p.2.key p.2.value p.2.freq :=
    h.cell_node p hp
  simp [Function.comp, LList.valueOf, hv, hn]

end Observation

namespace CacheImpl

variable {K V : Type} [DecidableEq K]

theorem Get_eq_hit {s : CacheImpl K V} {k : K} {e : Nat}
    (hke : s.keyToElement k = some e) :
    CacheImpl.Get s k =
      (((((((s.removeFromList e).removeFreqLevel e).updNode e
            (fun n => { n with freq := n.freq + 1 })).addToList e).nodeOf e).value,
        none),
        (((s.removeFromList e).removeFreqLevel e).updNode e
          (fun n => { n with freq := n.freq + 1 })).addToList e) := by
  simp only [CacheImpl.Get, hke]

theorem Put_eq_hit {s : CacheImpl K V} {k : K} {v : V} {e : Nat}
    (hke : s.keyToElement k = some e) :
    CacheImpl.Put s k v = some
      (((((s.removeFromList e).removeFreqLevel e).updNode e
          (fun n => { n with value := v })).updNode e
          (fun n => { n with freq := n.freq + 1 })).addToList e) := by
  simp only [CacheImpl.Put, hke]

end CacheImpl

/-- After detaching a live element and updating its node to the bumped
frequency (and possibly a new value), the `PreInsert` bundle holds with the
new frequency `a.freq + 1`. -/
theorem preinsert_of_detach {K V : Type} [DecidableEq K] {s s2 s3 : CacheImpl K V}
    {t : K → Option Nat} {C P Q : Cells K V} {clock : Nat} {k : K} {v : V}
    {e : Nat} {a : AEntry K V}
    (h : CacheInv s t C clock)
    (hdec : C = P ++ (e, a) :: Q) (hak : a.key = k)
    (d : DetachedState s2 s P Q e)
    (hs3list : s3.listOfData = s2.listOfData)
    (hs3nodes : ∀ j, j ≠ s.nodeId e → s3.nodes j = s.nodes j)
    (hs3nodeE : s3.nodes (s.nodeId e) = ⟨k, v, a.freq + 1⟩)
    (hs3key : s3.keyToElement = s.keyToElement)
    (hs3freq : ∀ g, s3.frequencyToRecentElement g = s2.frequencyToRecentElement g)
    (hs3cap : s3.capacity = s.capacity)
    (hs3ne : s3.nextElem = s.nextElem)
    (hs3nn : s3.nextNode = s.nextNode) :
    PreInsert s3 P Q e k v (a.freq + 1)
      (fun j => if j = k then some clock else t j) clock := by
  have hmem_ea : (e, a) ∈ C := by rw [hdec]; simp
  have hmemC : ∀ p ∈ P ++ Q, p ∈ C := by
    intro p hp
    rw [hdec]
    rcases List.mem_append.mp hp with hm | hm
    · exact List.mem_append_left _ hm
    · exact List.mem_append_right _ (List.mem_cons_of_mem _ hm)
  have hids : C.map Prod.fst = P.map Prod.fst ++ e :: Q.map Prod.fst := by
    rw [hdec]; simp
  have hndC := hids ▸ h.ids_nodup
  have hePQ : e ∉ (P ++ Q).map Prod.fst := by
    rw [List.nodup_middle, List.nodup_cons] at hndC
    simpa using hndC.1
  have hndPQ : ((P ++ Q).map Prod.fst).Nodup := by
    rw [List.nodup_middle, List.nodup_cons] at hndC
    simpa using hndC.2
  have hnid : ∀ i, s3.nodeId i = s.nodeId i := by
    intro i
    show ((s3.listOfData.elems i).value).getD 0 = s.nodeId i
    rw [hs3list, d.hvals i]
    rfl
  have hnidsC : C.map (fun p => s.nodeId p.1) =
      P.map (fun p => s.nodeId p.1) ++ s.nodeId e :: Q.map (fun p => s.nodeId p.1) := by
    rw [hdec]; simp
  have hnidndC := hnidsC ▸ h.nids_nodup
  have hnidne : ∀ p ∈ P ++ Q, s.nodeId p.1 ≠ s.nodeId e := by
    rw [List.nodup_middle, List.nodup_cons] at hnidndC
    intro p hp hcon
    refine hnidndC.1 ?_
    rw [← hcon, ← List.map_append]
    exact List.mem_map.mpr ⟨p, hp, rfl⟩
  have hkeysC : C.map (fun p => p.2.key) =
      P.map (fun p => p.2.key) ++ a.key :: Q.map (fun p => p.2.key) := by
    rw [hdec]; simp
  have hkeysndC := hkeysC ▸ h.keys_nodup
  have hkeysne' : ∀ p ∈ P ++ Q, p.2.key ≠ k := by
    rw [List.nodup_middle, List.nodup_cons] at hkeysndC
    intro p hp hcon
    refine hkeysndC.1 ?_
    have hpk : a.key = p.2.key := by rw [hak, ← hcon]
    rw [hpk, ← List.map_append]
    exact List.mem_map.mpr ⟨p, hp, rfl⟩
  have hke : s.keyToElement k = some e := by
    rw [← hak]
    exact h.key_some_of_mem hmem_ea
  have hfpos_ea : 1 ≤ a.freq := h.freq_pos (e, a) hmem_ea
  have hsortC : (P ++ (e, a) :: Q).Pairwise (fun p q => entGT p.2 q.2) :=
    hdec ▸ h.sorted
  refine ⟨by omega, ?_, ?_, hndPQ, ?_, hePQ, ?_, ?_, ?_, ?_, ?_, ?_, ?_, ?_, ?_,
    hkeysne', ?_, ?_, ?_, ?_, ?_, ?_, ?_, ?_, ?_, ?_, ?_, ?_, ?_, ?_, ?_, ?_, ?_, ?_⟩
  · -- hlinks
    rw [hs3list]
    exact d.hlinks
  · -- hlen
    rw [hs3list]
    exact d.hlen
  · -- h0
    intro hcon
    refine (hids ▸ h.root_not_mem) ?_
    rw [List.map_append] at hcon
    rcases List.mem_append.mp hcon with hm | hm
    · exact List.mem_append_left _ hm
    · exact List.mem_append_right _ (List.mem_cons_of_mem _ hm)
  · -- he0
    intro hcon
    exact (hids ▸ h.root_not_mem)
      (by rw [← hcon]; exact List.mem_append_right _ (List.mem_cons_self _ _))
  · -- hrootval
    rw [hs3list, d.hvals 0]
    exact h.root_val
  · -- hcv
    intro p hp
    rw [hs3list, d.hvals p.1, hnid p.1]
    exact h.cell_val p (hmemC p hp)
  · -- hcn
    intro p hp
    rw [hnid p.1, hs3nodes _ (hnidne p hp)]
    exact h.cell_node p (hmemC p hp)
  · -- hnidnd
    have hcongr : (P ++ Q).map (fun p => s3.nodeId p.1) =
        (P ++ Q).map (fun p => s.nodeId p.1) :=
      List.map_congr_left (fun p _ => hnid p.1)
    rw [hcongr]
    rw [List.nodup_middle, List.nodup_cons] at hnidndC
    simpa using hnidndC.2
  · -- hnidlt
    intro p hp
    rw [hnid p.1, hs3nn]
    exact h.nids_lt p (hmemC p hp)
  · -- hnidfresh
    intro p hp
    rw [hnid p.1, hnid e]
    exact hnidne p hp
  · -- hnidelt
    rw [hnid e, hs3nn]
    exact h.nids_lt (e, a) hmem_ea
  · -- hkeysnd
    rw [List.nodup_middle, List.nodup_cons] at hkeysndC
    simpa using hkeysndC.2
  · -- hkeymap
    intro m
    rw [hs3key]
    by_cases hm : m = k
    · rw [if_pos hm, hm]
      exact hke
    · rw [if_neg hm, h.key_map m, hdec]
      exact keyLookup_middle_ne (fun hc => hm (hak ▸ hc).symm)
  · -- hfreqmap
    intro g
    exact (hs3freq g).trans (d.hfrq g)
  · -- hsorted
    exact hsortC.sublist ((List.sublist_cons_self (e, a) Q).append_left P)
  · -- hfreqpos
    intro p hp
    exact h.freq_pos p (hmemC p hp)
  · -- hPf
    intro p hp
    rw [List.pairwise_append] at hsortC
    rcases hsortC.2.2 p hp (e, a) (List.mem_cons_self _ _) with hlt | heq
    · have : a.freq < p.2.freq := hlt
      omega
    · have : a.freq = p.2.freq := heq.1
      omega
  · -- hQf
    intro q hq
    rw [List.pairwise_append, List.pairwise_cons] at hsortC
    rcases hsortC.2.1.1 q hq with hlt | heq
    · have : q.2.freq < a.freq := hlt
      omega
    · have : q.2.freq = a.freq := heq.1
      omega
  · -- hdangn
    intro _
    rw [show s3.listOfData.nextOf e = s2.listOfData.nextOf e from by rw [hs3list]]
    exact d.hdn
  · -- hdangp
    intro _
    rw [show s3.listOfData.prevOf e = s2.listOfData.prevOf e from by rw [hs3list]]
    exact d.hdp
  · -- htlt
    intro p hp
    exact h.touch_lt p (hmemC p hp)
  · -- hteq
    intro p hp
    rw [if_neg (hkeysne' p hp)]
    exact h.touch_eq p (hmemC p hp)
  · -- ht'k
    simp
  · -- hids_lt
    intro p hp
    rw [hs3ne]
    exact h.ids_lt p (hmemC p hp)
  · -- helt
    rw [hs3ne]
    exact h.ids_lt (e, a) hmem_ea
  · -- hnextpos
    rw [hs3ne]
    exact h.nextElem_pos
  · -- henodeval
    rw [hs3list, d.hvals e, hnid e]
    exact h.cell_val (e, a) hmem_ea
  · -- henode
    rw [hnid e]
    exact hs3nodeE
  · -- hsize
    rw [hs3cap]
    have hlenC : C.length = (P ++ Q).length + 1 := by
      rw [hdec]
      simp only [List.length_append, List.length_cons]
      omega
    have := h.size_le
    rw [hlenC] at this
    exact_mod_cast this
  · -- hcap
    rw [hs3cap]
    exact h.cap_nonneg

/-- The effect of `addToList` under a `PreInsert` bundle: the element lands
exactly at the boundary between the cells with frequency above `f'` and the
rest, and the invariant holds for the new cell list.  This covers all four
branches of `addToNotEmptyList` plus the empty-list `Add`. -/
theorem addToList_insert_spec {K V : Type} [DecidableEq K] {s3 : CacheImpl K V}
    {P Q : Cells K V} {e : Nat} {k : K} {v : V} {f' : Int}
    {t' : K → Option Nat} {clock : Nat}
    (h : PreInsert s3 P Q e k v f' t' clock) :
    ∃ Chi Clo, P ++ Q = Chi ++ Clo ∧ (∀ x ∈ Chi, f' < x.2.freq) ∧
      (∀ x ∈ Clo, x.2.freq ≤ f') ∧
      CacheInv (s3.addToList e) t' (Chi ++ (e, ⟨k, v, f', clock⟩) :: Clo)
        (clock + 1) := by
  have hn3 : s3.nodeOf e = Node.mk k v f' := h.henode
  by_cases hlen0 : s3.listOfData.len = 0
  · -- the list is empty: P ++ Q = [] and addToList runs plain Add
    have hPQnil : P ++ Q = [] := by
      refine List.eq_nil_of_length_eq_zero ?_
      have := h.hlen
      rw [hlen0] at this
      exact this.symm
    obtain ⟨hlinks', hlen', hvals'⟩ :=
      LList.Add_spec h.hlinks h.hnd h.h0 h.he h.he0
    have heq := CacheImpl.addToList_eq_of_len_zero (s := s3) (e := e) hlen0
    have hval_e : ((s3.listOfData.Add e).elems e).value =
        (s3.listOfData.elems e).value := hvals' e
    have hnode' : CacheImpl.nodeOf { s3 with listOfData := s3.listOfData.Add e } e =
        Node.mk k v f' := by
      rw [CacheImpl.nodeOf_listEq hval_e]
      exact hn3
    rw [hnode'] at heq
    refine ⟨[], [], by simp [hPQnil], by simp, by simp, ?_⟩
    rw [heq]
    exact mkCacheInv_insert h (by simp [hPQnil]) (by simp) (by simp)
      (by simpa [hPQnil] using hlinks') (by rw [hlen', h.hlen]) hvals'
  · -- non-empty list: addToNotEmptyList
    have hPQne : P ++ Q ≠ [] := by
      intro hnil
      exact hlen0 (by rw [h.hlen, hnil]; rfl)
    have heq0 := CacheImpl.addToList_eq_of_len_ne (s := s3) (e := e) hlen0
    have hfrs3 : s3.frequencyToRecentElement (s3.nodeOf e).freq =
        freqLookup f' (P ++ Q) := by
      rw [hn3]
      exact h.hfreqmap f'
    cases hB1 : freqLookup f' (P ++ Q) with
    | some r =>
      -- a run of frequency f' exists: AddBefore its front
      obtain ⟨X, ra, Y, hdec, hraf, hXf⟩ := freqLookup_eq_some hB1
      have hids : (P ++ Q).map Prod.fst = X.map Prod.fst ++ r :: Y.map Prod.fst := by
        rw [hdec]; simp
      obtain ⟨hlinks', hlen', hvals'⟩ :=
        LList.AddBefore_spec (l := s3.listOfData) (A := X.map Prod.fst)
          (B := Y.map Prod.fst) (e := e) (r := r)
          (hids ▸ h.hlinks) (hids ▸ h.hnd) (hids ▸ h.h0) (hids ▸ h.he) h.he0
      have hanel : s3.addToNotEmptyList e =
          { s3 with listOfData := s3.listOfData.AddBefore e r } :=
        CacheImpl.addToNotEmptyList_eq_found (by rw [hfrs3, hB1])
      rw [hanel] at heq0
      have hval_e : ((s3.listOfData.AddBefore e r).elems e).value =
          (s3.listOfData.elems e).value := hvals' e
      have hnode' : CacheImpl.nodeOf
          { s3 with listOfData := s3.listOfData.AddBefore e r } e =
          Node.mk k v f' := by
        rw [CacheImpl.nodeOf_listEq hval_e]
        exact hn3
      rw [hnode'] at heq0
      have hsortdec : (X ++ (r, ra) :: Y).Pairwise (fun p q => entGT p.2 q.2) :=
        hdec ▸ h.hsorted
      have hXgt : ∀ x ∈ X, f' < x.2.freq := by
        intro x hx
        rw [List.pairwise_append] at hsortdec
        have hcross := hsortdec.2.2 x hx (r, ra) (by simp)
        rcases hcross with hlt2 | heq2
        · rw [hraf] at hlt2
          exact hlt2
        · exfalso
          exact hXf x hx (heq2.1.symm.trans hraf)
      have hCloLe : ∀ q ∈ (r, ra) :: Y, q.2.freq ≤ f' := by
        intro q hq
        rcases List.mem_cons.mp hq with rfl | hy
        · exact le_of_eq hraf
        · rw [List.pairwise_append, List.pairwise_cons] at hsortdec
          have := hsortdec.2.1.1 q hy
          rcases this with hlt2 | heq2
          · exact le_of_lt (hraf ▸ hlt2)
          · exact le_of_eq (heq2.1.trans hraf)
      refine ⟨X, (r, ra) :: Y, hdec, hXgt, hCloLe, ?_⟩
      rw [heq0]
      exact mkCacheInv_insert h hdec hXgt hCloLe (by simpa using hlinks')
        (by rw [hlen', h.hlen]) hvals'
    | none =>
      have hnof' : ∀ p ∈ P ++ Q, p.2.freq ≠ f' := freqLookup_eq_none.mp hB1
      have hzmem : (P ++ Q).getLast hPQne ∈ P ++ Q := List.getLast_mem hPQne
      have hback : s3.listOfData.Back =
          some (((P ++ Q).map Prod.fst).getLastD 0) :=
        LList.Back_spec h.hlinks (by rw [h.hlen]; simp) (by simpa using hPQne)
      have hderef : LList.deref s3.listOfData.Back = ((P ++ Q).getLast hPQne).1 := by
        rw [hback, map_fst_getLastD hPQne]
        rfl
      have hbackfreq : (s3.nodeOf (LList.deref s3.listOfData.Back)).freq =
          ((P ++ Q).getLast hPQne).2.freq := by
        rw [hderef]
        rw [show s3.nodeOf ((P ++ Q).getLast hPQne).1 =
          Node.mk ((P ++ Q).getLast hPQne).2.key ((P ++ Q).getLast hPQne).2.value
            ((P ++ Q).getLast hPQne).2.freq from h.hcn _ hzmem]
      have hzfne : ((P ++ Q).getLast hPQne).2.freq ≠ f' := hnof' _ hzmem
      by_cases hlt : f' < ((P ++ Q).getLast hPQne).2.freq
      · -- new global maximum-depth: append at the back
        have hanel : s3.addToNotEmptyList e =
            { s3 with listOfData := s3.listOfData.Add e } := by
          refine CacheImpl.addToNotEmptyList_eq_min (by rw [hfrs3, hB1]) ?_
          rw [hn3, hbackfreq]
          exact hlt
        have hallgt : ∀ x ∈ P ++ Q, f' < x.2.freq := by
          intro x hx
          exact lt_of_lt_of_le hlt (sorted_getLast_le h.hsorted hPQne x hx)
        obtain ⟨hlinks', hlen', hvals'⟩ :=
          LList.Add_spec h.hlinks h.hnd h.h0 h.he h.he0
        rw [hanel] at heq0
        have hval_e : ((s3.listOfData.Add e).elems e).value =
            (s3.listOfData.elems e).value := hvals' e
        have hnode' : CacheImpl.nodeOf { s3 with listOfData := s3.listOfData.Add e } e =
            Node.mk k v f' := by
          rw [CacheImpl.nodeOf_listEq hval_e]
          exact hn3
        rw [hnode'] at heq0
        refine ⟨P ++ Q, [], by simp, hallgt, by simp, ?_⟩
        rw [heq0]
        exact mkCacheInv_insert h (by simp) hallgt (by simp)
          (by simpa using hlinks') (by rw [hlen', h.hlen]) hvals'
      · -- the back has smaller frequency than f' is false: f' - 1 at the back
        have hzlt : ((P ++ Q).getLast hPQne).2.freq < f' :=
          lt_of_le_of_ne (not_lt.mp hlt) hzfne
        have hf2 : 1 < f' := by
          have hz1 : 1 ≤ ((P ++ Q).getLast hPQne).2.freq := h.hfreqpos _ hzmem
          omega
        have hne1 : (s3.nodeOf e).freq ≠ 1 := by
          rw [hn3]
          show f' ≠ 1
          omega
        have hnlt : ¬ (s3.nodeOf e).freq <
            (s3.nodeOf (LList.deref s3.listOfData.Back)).freq := by
          rw [hn3, hbackfreq]
          show ¬ f' < ((P ++ Q).getLast hPQne).2.freq
          exact hlt
        have hfrs3' : s3.frequencyToRecentElement ((s3.nodeOf e).freq - 1) =
            freqLookup (f' - 1) (P ++ Q) := by
          rw [hn3]
          exact h.hfreqmap (f' - 1)
        cases hB3 : freqLookup (f' - 1) (P ++ Q) with
        | some r' =>
          -- a run of f' - 1 exists: AddBefore its front
          obtain ⟨X, ra, Y, hdec, hraf, hXf⟩ := freqLookup_eq_some hB3
          have hids : (P ++ Q).map Prod.fst =
              X.map Prod.fst ++ r' :: Y.map Prod.fst := by
            rw [hdec]; simp
          obtain ⟨hlinks', hlen', hvals'⟩ :=
            LList.AddBefore_spec (l := s3.listOfData) (A := X.map Prod.fst)
              (B := Y.map Prod.fst) (e := e) (r := r')
              (hids ▸ h.hlinks) (hids ▸ h.hnd) (hids ▸ h.h0) (hids ▸ h.he) h.he0
          have hanel : s3.addToNotEmptyList e =
              { s3 with listOfData := s3.listOfData.AddBefore e r' } :=
            CacheImpl.addToNotEmptyList_eq_prev (by rw [hfrs3, hB1]) hnlt hne1
              (by rw [hfrs3', hB3])
          rw [hanel] at heq0
          have hval_e : ((s3.listOfData.AddBefore e r').elems e).value =
              (s3.listOfData.elems e).value := hvals' e
          have hnode' : CacheImpl.nodeOf
              { s3 with listOfData := s3.listOfData.AddBefore e r' } e =
              Node.mk k v f' := by
            rw [CacheImpl.nodeOf_listEq hval_e]
            exact hn3
          rw [hnode'] at heq0
          have hsortdec : (X ++ (r', ra) :: Y).Pairwise (fun p q => entGT p.2 q.2) :=
            hdec ▸ h.hsorted
          have hXgt : ∀ x ∈ X, f' < x.2.freq := by
            intro x hx
            have hxne' : x.2.freq ≠ f' - 1 := hXf x hx
            have hxnef : x.2.freq ≠ f' :=
              hnof' x (by rw [hdec]; exact List.mem_append_left _ hx)
            rw [List.pairwise_append] at hsortdec
            have hcross := hsortdec.2.2 x hx (r', ra) (by simp)
            rcases hcross with hlt2 | heq2
            · rw [hraf] at hlt2
              omega
            · exact absurd (heq2.1.symm.trans hraf) hxne'
          have hCloLe : ∀ q ∈ (r', ra) :: Y, q.2.freq ≤ f' := by
            intro q hq
            rcases List.mem_cons.mp hq with rfl | hy
            · rw [hraf]
              omega
            · rw [List.pairwise_append, List.pairwise_cons] at hsortdec
              have := hsortdec.2.1.1 q hy
              rcases this with hlt2 | heq2
              · have hq2 : q.2.freq < f' - 1 := hraf ▸ hlt2
                omega
              · have hq2 : q.2.freq = f' - 1 := heq2.1.trans hraf
                omega
          refine ⟨X, (r', ra) :: Y, hdec, hXgt, hCloLe, ?_⟩
          rw [heq0]
          exact mkCacheInv_insert h hdec hXgt hCloLe (by simpa using hlinks')
            (by rw [hlen', h.hlen]) hvals'
        | none =>
          -- the element was the sole f' - 1 cell: replace it in place
          have hnof'1 : ∀ p ∈ P ++ Q, p.2.freq ≠ f' - 1 := freqLookup_eq_none.mp hB3
          have hPgt : ∀ p ∈ P, f' < p.2.freq := by
            intro p hp
            have h1 := h.hPf p hp
            have h2 := hnof'1 p (List.mem_append_left _ hp)
            have h3 := hnof' p (List.mem_append_left _ hp)
            omega
          have hQle : ∀ q ∈ Q, q.2.freq ≤ f' := by
            intro q hq
            have := h.hQf q hq
            omega
          have hidsPQ : (P ++ Q).map Prod.fst =
              P.map Prod.fst ++ Q.map Prod.fst := by simp
          obtain ⟨hlinks', hlen', hvals'⟩ :=
            LList.Replace_spec (l := s3.listOfData) (A := P.map Prod.fst)
              (B := Q.map Prod.fst) (e := e)
              (hidsPQ ▸ h.hlinks) (hidsPQ ▸ h.hnd) (hidsPQ ▸ h.h0)
              (hidsPQ ▸ h.he) h.he0 (h.hdangn hf2) (h.hdangp hf2) hlen0
          have hanel : s3.addToNotEmptyList e =
              { s3 with listOfData := s3.listOfData.ReplaceDeletedElement e e } :=
            CacheImpl.addToNotEmptyList_eq_replace (by rw [hfrs3, hB1]) hnlt hne1
              (by rw [hfrs3', hB3])
          rw [hanel] at heq0
          have hval_e : ((s3.listOfData.ReplaceDeletedElement e e).elems e).value =
              (s3.listOfData.elems e).value := hvals' e
          have hnode' : CacheImpl.nodeOf
              { s3 with listOfData := s3.listOfData.ReplaceDeletedElement e e } e =
              Node.mk k v f' := by
            rw [CacheImpl.nodeOf_listEq hval_e]
            exact hn3
          rw [hnode'] at heq0
          refine ⟨P, Q, rfl, hPgt, hQle, ?_⟩
          rw [heq0]
          exact mkCacheInv_insert h rfl hPgt hQle (by simpa using hlinks')
            (by rw [hlen', h.hlen]) hvals'

/-- What `Get` does on a hit: it returns the stored value with no error, and
the invariant is re-established with the key's cell moved to the front of
its new (incremented) frequency run; all other cells survive verbatim. -/
theorem get_hit_spec {K V : Type} [DecidableEq K] {s : CacheImpl K V}
    {t : K → Option Nat} {C : Cells K V} {clock : Nat} {k : K} {e : Nat}
    (h : CacheInv s t C clock) (hke : s.keyToElement k = some e) :
    ∃ P a Q Chi Clo s4, C = P ++ ((e, a) : Nat × AEntry K V) :: Q ∧ a.key = k ∧
      P ++ Q = Chi ++ Clo ∧
      CacheImpl.Get s k = ((a.value, none), s4) ∧
      CacheInv s4 (fun j => if j = k then some clock else t j)
        (Chi ++ (e, ⟨k, a.value, a.freq + 1, clock⟩) :: Clo) (clock + 1) := by
  obtain ⟨P, a, Q, hdec, hak, hPk, d⟩ := detach_spec h hke
  have hmem_ea : (e, a) ∈ C := by rw [hdec]; simp
  have hnodeE : s.nodes (s.nodeId e) = Node.mk k a.value a.freq := by
    have := h.cell_node (e, a) hmem_ea
    rw [hak] at this
    exact this
  have hnid2 : CacheImpl.nodeId ((s.removeFromList e).removeFreqLevel e) e =
      s.nodeId e := by
    show (((((s.removeFromList e).removeFreqLevel e)).listOfData.elems e).value).getD 0 =
      s.nodeId e
    rw [d.hvals e]
    rfl
  have hpre : PreInsert
      (((s.removeFromList e).removeFreqLevel e).updNode e
        (fun n => { n with freq := n.freq + 1 }))
      P Q e k a.value (a.freq + 1)
      (fun j => if j = k then some clock else t j) clock := by
    refine preinsert_of_detach h hdec hak d rfl ?_ ?_ d.hkey (fun g => rfl)
      d.hcap d.hnxe d.hnxn
    · intro j hj
      rw [CacheImpl.updNode_nodes]
      rw [if_neg (by rw [hnid2]; exact hj)]
      exact congrFun d.hnodes j
    · rw [CacheImpl.updNode_nodes, if_pos (by rw [hnid2]),
        congrFun d.hnodes (s.nodeId e), hnodeE]
  obtain ⟨Chi, Clo, hCC, hChiHi, hCloLe, hinv⟩ := addToList_insert_spec hpre
  have hmem_new : ((e, AEntry.mk k a.value (a.freq + 1) clock) : Nat × AEntry K V) ∈
      Chi ++ (e, AEntry.mk k a.value (a.freq + 1) clock) :: Clo := by simp
  have hval4 :
      ((((((s.removeFromList e).removeFreqLevel e).updNode e
        (fun n => { n with freq := n.freq + 1 })).addToList e)).nodeOf e).value =
        a.value := by
    have h4 := hinv.cell_node _ hmem_new
    have h4' : ((((s.removeFromList e).removeFreqLevel e).updNode e
        (fun n => { n with freq := n.freq + 1 })).addToList e).nodeOf e =
        Node.mk k a.value (a.freq + 1) := h4
    rw [h4']
  refine ⟨P, a, Q, Chi, Clo, _, hdec, hak, hCC, ?_, hinv⟩
  rw [CacheImpl.Get_eq_hit hke, hval4]

/-- What `Put` does on a present key: no eviction, the value is replaced and
the frequency incremented, the cell moves to the front of its new run, and
all other cells survive verbatim. -/
theorem put_hit_spec {K V : Type} [DecidableEq K] {s : CacheImpl K V}
    {t : K → Option Nat} {C : Cells K V} {clock : Nat} {k : K} {v : V} {e : Nat}
    (h : CacheInv s t C clock) (hke : s.keyToElement k = some e) :
    ∃ P a Q Chi Clo s4, C = P ++ ((e, a) : Nat × AEntry K V) :: Q ∧ a.key = k ∧
      P ++ Q = Chi ++ Clo ∧
      CacheImpl.Put s k v = some s4 ∧
      CacheInv s4 (fun j => if j = k then some clock else t j)
        (Chi ++ (e, ⟨k, v, a.freq + 1, clock⟩) :: Clo) (clock + 1) := by
  obtain ⟨P, a, Q, hdec, hak, hPk, d⟩ := detach_spec h hke
  have hmem_ea : (e, a) ∈ C := by rw [hdec]; simp
  have hnodeE : s.nodes (s.nodeId e) = Node.mk k a.value a.freq := by
    have := h.cell_node (e, a) hmem_ea
    rw [hak] at this
    exact this
  have hnid2 : CacheImpl.nodeId ((s.removeFromList e).removeFreqLevel e) e =
      s.nodeId e := by
    show (((((s.removeFromList e).removeFreqLevel e)).listOfData.elems e).value).getD 0 =
      s.nodeId e
    rw [d.hvals e]
    rfl
  have hnid2' : CacheImpl.nodeId (((s.removeFromList e).removeFreqLevel e).updNode e
      (fun n => { n with value := v })) e = s.nodeId e := by
    rw [CacheImpl.updNode_nodeId]
    exact hnid2
  have hpre : PreInsert
      ((((s.removeFromList e).removeFreqLevel e).updNode e
        (fun n => { n with value := v })).updNode e
        (fun n => { n with freq := n.freq + 1 }))
      P Q e k v (a.freq + 1)
      (fun j => if j = k then some clock else t j) clock := by
    refine preinsert_of_detach h hdec hak d rfl ?_ ?_ d.hkey (fun g => rfl)
      d.hcap d.hnxe d.hnxn
    · intro j hj
      rw [CacheImpl.updNode_nodes, if_neg (by rw [hnid2']; exact hj),
        CacheImpl.updNode_nodes, if_neg (by rw [hnid2]; exact hj)]
      exact congrFun d.hnodes j
    · rw [CacheImpl.updNode_nodes, if_pos (by rw [hnid2']), CacheImpl.updNode_nodes,
        if_pos (by rw [hnid2]), congrFun d.hnodes (s.nodeId e), hnodeE]
  obtain ⟨Chi, Clo, hCC, hChiHi, hCloLe, hinv⟩ := addToList_insert_spec hpre
  refine ⟨P, a, Q, Chi, Clo, _, hdec, hak, hCC, ?_, hinv⟩
  rw [CacheImpl.Put_eq_hit hke]

namespace CacheImpl

variable {K V : Type} [DecidableEq K]

theorem extractLatest_eq_del {s : CacheImpl K V} {z1 : Nat} {lst : LList (Option Nat)}
    (hPB : s.listOfData.PopBack = (some z1, lst))
    (hfr : s.frequencyToRecentElement
        ((CacheImpl.nodeOf { s with listOfData := lst } z1).freq) = some z1) :
    s.extractLatest = some
      ((CacheImpl.setFreqMap { s with listOfData := lst }
        (CacheImpl.nodeOf { s with listOfData := lst } z1).freq none).setKeyMap
        (CacheImpl.nodeOf { s with listOfData := lst } z1).key none) := by
  simp only [CacheImpl.extractLatest, hPB]
  rw [if_pos hfr]

theorem extractLatest_eq_keep {s : CacheImpl K V} {z1 : Nat} {lst : LList (Option Nat)}
    (hPB : s.listOfData.PopBack = (some z1, lst))
    (hfr : ¬ s.frequencyToRecentElement
        ((CacheImpl.nodeOf { s with listOfData := lst } z1).freq) = some z1) :
    s.extractLatest = some
      (CacheImpl.setKeyMap { s with listOfData := lst }
        (CacheImpl.nodeOf { s with listOfData := lst } z1).key none) := by
  simp only [CacheImpl.extractLatest, hPB]
  rw [if_neg hfr]

theorem extractLatest_eq_crash {s : CacheImpl K V}
    (hPB : s.listOfData.PopBack = (none, s.listOfData)) :
    s.extractLatest = none := by
  simp only [CacheImpl.extractLatest, hPB]

end CacheImpl

/-- What `extractLatest` does on a state holding at least one cell: the back
cell `z` is evicted, its key is unmapped, and the invariant holds for the
remaining cells. -/
theorem extract_spec {K V : Type} [DecidableEq K] {s : CacheImpl K V}
    {t : K → Option Nat} {D : Cells K V} {z : Nat × AEntry K V} {clock : Nat}
    (h : CacheInv s t (D ++ [z]) clock) :
    ∃ s', CacheImpl.extractLatest s = some s' ∧ CacheInv s' t D clock ∧
      s'.capacity = s.capacity ∧ s'.nextElem = s.nextElem ∧
      s'.nextNode = s.nextNode ∧ s'.keyToElement z.2.key = none := by
  have hids : (D ++ [z]).map Prod.fst = D.map Prod.fst ++ [z.1] := by simp
  have hlen : s.listOfData.len ≠ 0 := by
    rw [h.len_eq]
    simp
  obtain ⟨lst, hPB, hlinks', hlen', hvals'⟩ :=
    LList.PopBack_spec (hids ▸ h.links) (hids ▸ h.ids_nodup)
      (hids ▸ h.root_not_mem) hlen
  have hmem_z : z ∈ D ++ [z] := by simp
  have hmemD : ∀ p ∈ D, p ∈ D ++ [z] := fun p hp => List.mem_append_left _ hp
  have hnodeZ : s.nodeOf z.1 = Node.mk z.2.key z.2.value z.2.freq :=
    h.cell_node z hmem_z
  have hnodeZ' : CacheImpl.nodeOf { s with listOfData := lst } z.1 =
      Node.mk z.2.key z.2.value z.2.freq := by
    rw [CacheImpl.nodeOf_listEq (hvals' z.1)]
    exact hnodeZ
  have hkeysD : z.2.key ∉ D.map (fun p => p.2.key) := by
    have hkeys := h.keys_nodup
    rw [show (D ++ [z]).map (fun p => p.2.key) =
      D.map (fun p => p.2.key) ++ [z.2.key] from by simp] at hkeys
    rw [List.nodup_append] at hkeys
    intro hcon
    exact (hkeys.2.2 hcon) (List.mem_singleton.mpr rfl)
  have hz1D : z.1 ∉ D.map Prod.fst := by
    have hnd := hids ▸ h.ids_nodup
    rw [List.nodup_append] at hnd
    intro hcon
    exact (hnd.2.2 hcon) (List.mem_singleton.mpr rfl)
  -- common invariant-rebuild for the two branches
  have main : ∀ s' : CacheImpl K V,
      s'.listOfData = lst →
      s'.nodes = s.nodes →
      (∀ m, s'.keyToElement m =
        if m = z.2.key then none else s.keyToElement m) →
      (∀ g, s'.frequencyToRecentElement g = freqLookup g D) →
      s'.capacity = s.capacity → s'.nextElem = s.nextElem →
      s'.nextNode = s.nextNode →
      CacheInv s' t D clock ∧ s'.keyToElement z.2.key = none := by
    intro s' hl hn hk hf hc he hnn
    have hnid : ∀ i, s'.nodeId i = s.nodeId i := by
      intro i
      show (s'.listOfData.valueOf i).getD 0 = s.nodeId i
      rw [hl, hvals' i]
      rfl
    refine ⟨⟨?_, ?_, ?_, ?_, ?_, ?_, ?_, ?_, ?_, ?_, ?_, ?_, ?_, ?_, ?_, ?_, ?_,
      ?_, ?_, ?_⟩, by rw [hk z.2.key, if_pos rfl]⟩
    · rw [hl]; exact hlinks'
    · rw [hl, hlen', h.len_eq]; simp
    · have := hids ▸ h.ids_nodup
      rw [List.nodup_append] at this
      exact this.1
    · intro hcon
      exact (hids ▸ h.root_not_mem) (List.mem_append_left _ hcon)
    · intro p hp
      rw [he]
      exact h.ids_lt p (hmemD p hp)
    · rw [he]; exact h.nextElem_pos
    · show s'.listOfData.valueOf 0 = none
      rw [hl, hvals' 0]
      exact h.root_val
    · intro p hp
      show s'.listOfData.valueOf p.1 = some (s'.nodeId p.1)
      rw [hl, hvals' p.1, hnid p.1]
      exact h.cell_val p (hmemD p hp)
    · intro p hp
      rw [hnid p.1, hn]
      exact h.cell_node p (hmemD p hp)
    · have hcongr : D.map (fun p => s'.nodeId p.1) = D.map (fun p => s.nodeId p.1) :=
        List.map_congr_left (fun p _ => hnid p.1)
      rw [hcongr]
      have := h.nids_nodup
      rw [show (D ++ [z]).map (fun p => s.nodeId p.1) =
        D.map (fun p => s.nodeId p.1) ++ [s.nodeId z.1] from by simp] at this
      rw [List.nodup_append] at this
      exact this.1
    · intro p hp
      rw [hnid p.1, hnn]
      exact h.nids_lt p (hmemD p hp)
    · have := h.keys_nodup
      rw [show (D ++ [z]).map (fun p => p.2.key) =
        D.map (fun p => p.2.key) ++ [z.2.key] from by simp] at this
      rw [List.nodup_append] at this
      exact this.1
    · intro m
      rw [hk m]
      by_cases hm : m = z.2.key
      · rw [if_pos hm]
        refine (keyLookup_eq_none.mpr ?_).symm
        intro p hp hcon
        exact hkeysD (by rw [← hm, ← hcon]; exact List.mem_map.mpr ⟨p, hp, rfl⟩)
      · rw [if_neg hm, h.key_map m]
        have : keyLookup m (D ++ z :: []) = keyLookup m (D ++ []) :=
          keyLookup_middle_ne (a := z.2) (fun hc => hm hc.symm)
        rw [show (D ++ [z] : Cells K V) = D ++ z :: [] from rfl, this,
          List.append_nil]
    · exact hf
    · exact h.sorted.sublist (List.sublist_append_left D [z])
    · intro p hp
      exact h.freq_pos p (hmemD p hp)
    · intro p hp
      exact h.touch_lt p (hmemD p hp)
    · intro p hp
      exact h.touch_eq p (hmemD p hp)
    · rw [hc]
      have := h.size_le
      simp only [List.length_append, List.length_singleton] at this
      omega
    · rw [hc]; exact h.cap_nonneg
  -- branch on whether the frequency map points at the popped element
  cases hfl : freqLookup z.2.freq D with
  | some w =>
    -- the run of z survives: the frequency map is untouched
    have hwz : w ≠ z.1 := by
      have := freqLookup_mem hfl
      intro hcon
      exact hz1D (hcon ▸ this)
    have hfrC : s.frequencyToRecentElement z.2.freq = some w := by
      rw [h.freq_map, show (D ++ [z] : Cells K V) = D ++ z :: [] from rfl]
      exact freqLookup_append_of_some hfl
    have hcond : ¬ s.frequencyToRecentElement
        ((CacheImpl.nodeOf { s with listOfData := lst } z.1).freq) = some z.1 := by
      rw [hnodeZ']
      show ¬ s.frequencyToRecentElement z.2.freq = some z.1
      rw [hfrC]
      exact fun hcon => hwz (Option.some.inj hcon)
    have hext := CacheImpl.extractLatest_eq_keep hPB hcond
    refine ⟨_, hext, ?_⟩
    have hres := main (CacheImpl.setKeyMap { s with listOfData := lst }
        (CacheImpl.nodeOf { s with listOfData := lst } z.1).key none)
      rfl rfl ?_ ?_ rfl rfl rfl
    · exact ⟨hres.1, rfl, rfl, rfl, hres.2⟩
    · intro m
      rw [CacheImpl.setKeyMap_keyToElement, hnodeZ']
    · intro g
      show s.frequencyToRecentElement g = freqLookup g D
      rw [h.freq_map g]
      by_cases hg : g = z.2.freq
      · rw [hg, show (D ++ [z] : Cells K V) = D ++ z :: [] from rfl,
          freqLookup_append_of_some hfl, hfl]
      · rw [show (D ++ [z] : Cells K V) = D ++ z :: [] from rfl,
          freqLookup_middle_ne (a := z.2) (fun hc => hg hc.symm), List.append_nil]
  | none =>
    -- z was the sole cell of its run: the level is deleted
    have hfrC : s.frequencyToRecentElement z.2.freq = some z.1 := by
      rw [h.freq_map, show (D ++ [z] : Cells K V) = D ++ z :: [] from rfl,
        freqLookup_append_of_none hfl]
      simp
    have hcond : s.frequencyToRecentElement
        ((CacheImpl.nodeOf { s with listOfData := lst } z.1).freq) = some z.1 := by
      rw [hnodeZ']
      exact hfrC
    have hext := CacheImpl.extractLatest_eq_del hPB hcond
    refine ⟨_, hext, ?_⟩
    have hres := main ((CacheImpl.setFreqMap { s with listOfData := lst }
        (CacheImpl.nodeOf { s with listOfData := lst } z.1).freq none).setKeyMap
        (CacheImpl.nodeOf { s with listOfData := lst } z.1).key none)
      rfl rfl ?_ ?_ rfl rfl rfl
    · exact ⟨hres.1, rfl, rfl, rfl, hres.2⟩
    · intro m
      rw [CacheImpl.setKeyMap_keyToElement, hnodeZ']
      rfl
    · intro g
      rw [show ((CacheImpl.setFreqMap { s with listOfData := lst }
        (CacheImpl.nodeOf { s with listOfData := lst } z.1).freq none).setKeyMap
        (CacheImpl.nodeOf { s with listOfData := lst } z.1).key
          none).frequencyToRecentElement g =
        if g = (CacheImpl.nodeOf { s with listOfData := lst } z.1).freq then none
        else s.frequencyToRecentElement g from rfl, hnodeZ']
      by_cases hg : g = z.2.freq
      · show (if g = z.2.freq then none else s.frequencyToRecentElement g) = _
        rw [if_pos hg, hg, hfl]
      · show (if g = z.2.freq then none else s.frequencyToRecentElement g) = _
        rw [if_neg hg, h.freq_map g,
          show (D ++ [z] : Cells K V) = D ++ z :: [] from rfl,
          freqLookup_middle_ne (a := z.2) (fun hc => hg hc.symm), List.append_nil]


/-- Equation for `Put` on an absent key, once the eviction step has produced
`s1`: the node and element are allocated at the fresh ids, the key map is
written, and the element is inserted. -/
theorem CacheImpl.Put_eq_miss {K V : Type} [DecidableEq K] {s : CacheImpl K V}
    {key : K} {value : V} {s1 : CacheImpl K V}
    (hke : s.keyToElement key = none)
    (hstep : (if s.Size = s.capacity then s.extractLatest else some s) = some s1) :
    CacheImpl.Put s key value = some
      (CacheImpl.addToList
        { s1 with
          nodes := fun j =>
            if j = s1.nextNode then ⟨key, value, 1⟩ else s1.nodes j,
          nextNode := s1.nextNode + 1,
          listOfData :=
            { s1.listOfData with
              elems := fun j =>
                if j = s1.nextElem then ⟨none, none, some s1.nextNode⟩
                else s1.listOfData.elems j },
          nextElem := s1.nextElem + 1,
          keyToElement := fun m =>
            if m = key then some s1.nextElem else s1.keyToElement m }
        s1.nextElem) := by
  simp only [CacheImpl.Put, hke, hstep]

/-- A state satisfying the invariant with room left, extended with a freshly
allocated node and element for an absent key, is a valid pre-insertion state
at frequency 1. -/
theorem preinsert_alloc {K V : Type} [DecidableEq K] {s1 s3 : CacheImpl K V}
    {t : K → Option Nat} {C1 : Cells K V} {clock : Nat} {k : K} {v : V}
    (h : CacheInv s1 t C1 clock)
    (hk1 : s1.keyToElement k = none)
    (hl : ∀ i, i ≠ s1.nextElem → s3.listOfData.elems i = s1.listOfData.elems i)
    (hle : s3.listOfData.elems s1.nextElem = ⟨none, none, some s1.nextNode⟩)
    (hlen3 : s3.listOfData.len = s1.listOfData.len)
    (hn : ∀ j, j ≠ s1.nextNode → s3.nodes j = s1.nodes j)
    (hnn : s3.nodes s1.nextNode = ⟨k, v, 1⟩)
    (hk3 : ∀ m, s3.keyToElement m =
      if m = k then some s1.nextElem else s1.keyToElement m)
    (hf3 : ∀ g, s3.frequencyToRecentElement g = s1.frequencyToRecentElement g)
    (hcap3 : s3.capacity = s1.capacity)
    (hne3 : s3.nextElem = s1.nextElem + 1)
    (hnn3 : s3.nextNode = s1.nextNode + 1)
    (hsz : ((C1.length : Int) + 1) ≤ s1.capacity) :
    PreInsert s3 C1 [] s1.nextElem k v 1
      (fun m => if m = k then some clock else t m) clock := by
  have hidne : ∀ p ∈ C1, p.1 ≠ s1.nextElem := by
    intro p hp hcon
    have := h.ids_lt p hp
    omega
  have hidne' : ∀ i ∈ C1.map Prod.fst, i ≠ s1.nextElem := by
    intro i hi
    obtain ⟨p, hp, hpe⟩ := List.mem_map.mp hi
    exact hpe ▸ hidne p hp
  have hnid : ∀ p ∈ C1, s3.nodeId p.1 = s1.nodeId p.1 := by
    intro p hp
    show ((s3.listOfData.elems p.1).value).getD 0 = s1.nodeId p.1
    rw [hl p.1 (hidne p hp)]
    rfl
  have hnidE : s3.nodeId s1.nextElem = s1.nextNode := by
    show ((s3.listOfData.elems s1.nextElem).value).getD 0 = s1.nextNode
    rw [hle]
    rfl
  have hkeysne : ∀ p ∈ C1, p.2.key ≠ k := by
    have hkl : keyLookup k C1 = none := by rw [← h.key_map]; exact hk1
    exact keyLookup_eq_none.mp hkl
  have hE0 : s1.nextElem ≠ 0 := by
    have := h.nextElem_pos
    omega
  refine ⟨le_refl 1, ?_, ?_, ?_, ?_, ?_, ?_, ?_, ?_, ?_, ?_, ?_, ?_, ?_, ?_, ?_,
    ?_, ?_, ?_, ?_, ?_, ?_, ?_, ?_, ?_, ?_, ?_, ?_, ?_, ?_, ?_, ?_, ?_, ?_⟩
  · -- hlinks
    rw [List.append_nil]
    refine LList.links_congr ?_ ?_ h.links
    · intro i hi
      show (s3.listOfData.elems i).next = (s1.listOfData.elems i).next
      rcases List.mem_cons.mp hi with hi0 | him
      · rw [hl i (by rw [hi0]; exact (Ne.symm hE0))]
      · rw [hl i (hidne' i him)]
    · intro i hi
      show (s3.listOfData.elems i).prev = (s1.listOfData.elems i).prev
      rcases List.mem_append.mp hi with him | hi0
      · rw [hl i (hidne' i him)]
      · rw [hl i (by
          rw [List.mem_singleton.mp hi0]
          exact (Ne.symm hE0))]
  · -- hlen
    rw [List.append_nil, hlen3, h.len_eq]
  · -- hnd
    rw [List.append_nil]
    exact h.ids_nodup
  · -- h0
    rw [List.append_nil]
    exact h.root_not_mem
  · -- he
    rw [List.append_nil]
    intro hcon
    exact hidne' _ hcon rfl
  · -- he0
    exact hE0
  · -- hrootval
    rw [hl 0 (Ne.symm hE0)]
    exact h.root_val
  · -- hcv
    intro p hp
    rw [List.append_nil] at hp
    rw [hl p.1 (hidne p hp), hnid p hp]
    exact h.cell_val p hp
  · -- hcn
    intro p hp
    rw [List.append_nil] at hp
    rw [hnid p hp, hn (s1.nodeId p.1) (by
      have := h.nids_lt p hp
      omega)]
    exact h.cell_node p hp
  · -- hnidnd
    rw [List.append_nil]
    rw [List.map_congr_left hnid]
    exact h.nids_nodup
  · -- hnidlt
    intro p hp
    rw [List.append_nil] at hp
    rw [hnid p hp, hnn3]
    have := h.nids_lt p hp
    omega
  · -- hnidfresh
    intro p hp
    rw [List.append_nil] at hp
    rw [hnid p hp, hnidE]
    have := h.nids_lt p hp
    omega
  · -- hnidelt
    rw [hnidE, hnn3]
    omega
  · -- hkeysnd
    rw [List.append_nil]
    exact h.keys_nodup
  · -- hkeysne
    intro p hp
    rw [List.append_nil] at hp
    exact hkeysne p hp
  · -- hkeymap
    intro m
    rw [hk3 m, List.append_nil]
    by_cases hm : m = k
    · rw [if_pos hm, if_pos hm]
    · rw [if_neg hm, if_neg hm, h.key_map m]
  · -- hfreqmap
    intro g
    rw [hf3 g, List.append_nil, h.freq_map g]
  · -- hsorted
    rw [List.append_nil]
    exact h.sorted
  · -- hfreqpos
    intro p hp
    rw [List.append_nil] at hp
    exact h.freq_pos p hp
  · -- hPf
    intro p hp
    have := h.freq_pos p hp
    omega
  · -- hQf
    intro q hq
    exact absurd hq (List.not_mem_nil q)
  · -- hdangn
    intro hcon
    exact absurd hcon (by omega)
  · -- hdangp
    intro hcon
    exact absurd hcon (by omega)
  · -- htlt
    intro p hp
    rw [List.append_nil] at hp
    exact h.touch_lt p hp
  · -- hteq
    intro p hp
    rw [List.append_nil] at hp
    rw [if_neg (hkeysne p hp)]
    exact h.touch_eq p hp
  · -- ht'k
    rw [if_pos rfl]
  · -- hids_lt
    intro p hp
    rw [List.append_nil] at hp
    rw [hne3]
    have := h.ids_lt p hp
    omega
  · -- helt
    rw [hne3]
    omega
  · -- hnextpos
    rw [hne3]
    omega
  · -- henodeval
    rw [hle, hnidE]
  · -- henode
    rw [hnidE]
    exact hnn
  · -- hsize
    rw [List.append_nil, hcap3]
    exact hsz
  · -- hcap
    rw [hcap3]
    exact h.cap_nonneg

/-- `Put` of an absent key, after the eviction step has produced an invariant
state `s1` with room: the new record enters at frequency 1 at the recency
boundary of the frequency-1 run, and the invariant is rebuilt. -/
theorem put_fresh_core {K V : Type} [DecidableEq K] {s s1 : CacheImpl K V}
    {t : K → Option Nat} {C1 : Cells K V} {clock : Nat} {k : K} {v : V}
    (hke : s.keyToElement k = none)
    (hstep : (if s.Size = s.capacity then s.extractLatest else some s) = some s1)
    (h1 : CacheInv s1 t C1 clock)
    (hk1 : s1.keyToElement k = none)
    (hsz : ((C1.length : Int) + 1) ≤ s1.capacity) :
    ∃ Chi Clo s4, C1 = Chi ++ Clo ∧ (∀ x ∈ Chi, 1 < x.2.freq) ∧
      (∀ x ∈ Clo, x.2.freq ≤ 1) ∧
      CacheImpl.Put s k v = some s4 ∧
      CacheInv s4 (fun m => if m = k then some clock else t m)
        (Chi ++ (s1.nextElem, ⟨k, v, 1, clock⟩) :: Clo) (clock + 1) := by
  have hpre : PreInsert
      ({ s1 with
        nodes := fun j =>
          if j = s1.nextNode then ⟨k, v, 1⟩ else s1.nodes j,
        nextNode := s1.nextNode + 1,
        listOfData :=
          { s1.listOfData with
            elems := fun j =>
              if j = s1.nextElem then ⟨none, none, some s1.nextNode⟩
              else s1.listOfData.elems j },
        nextElem := s1.nextElem + 1,
        keyToElement := fun m =>
          if m = k then some s1.nextElem else s1.keyToElement m } : CacheImpl K V)
      C1 [] s1.nextElem k v 1
      (fun m => if m = k then some clock else t m) clock := preinsert_alloc
    h1 hk1
    (by
      intro i hi
      show (if i = s1.nextElem then Elem.mk none none (some s1.nextNode)
        else s1.listOfData.elems i) = s1.listOfData.elems i
      rw [if_neg hi])
    (by
      show (if s1.nextElem = s1.nextElem then Elem.mk none none (some s1.nextNode)
        else s1.listOfData.elems s1.nextElem) = Elem.mk none none (some s1.nextNode)
      rw [if_pos rfl])
    rfl
    (by
      intro j hj
      show (if j = s1.nextNode then Node.mk k v 1 else s1.nodes j) = s1.nodes j
      rw [if_neg hj])
    (by
      show (if s1.nextNode = s1.nextNode then Node.mk k v 1
        else s1.nodes s1.nextNode) = Node.mk k v 1
      rw [if_pos rfl])
    (fun m => rfl) (fun g => rfl) rfl rfl rfl hsz
  obtain ⟨Chi, Clo, hCC, hhi, hlo, hinv⟩ := addToList_insert_spec hpre
  rw [List.append_nil] at hCC
  exact ⟨Chi, Clo, _, hCC, hhi, hlo, CacheImpl.Put_eq_miss hke hstep, hinv⟩

/-- `Put` of an absent key when the cache is not full: no eviction, the new
record enters at frequency 1. -/
theorem put_miss_room_spec {K V : Type} [DecidableEq K] {s : CacheImpl K V}
    {t : K → Option Nat} {C : Cells K V} {clock : Nat} {k : K} {v : V}
    (h : CacheInv s t C clock)
    (hke : s.keyToElement k = none)
    (hne : (C.length : Int) ≠ s.capacity) :
    ∃ Chi Clo s4, C = Chi ++ Clo ∧ (∀ x ∈ Chi, 1 < x.2.freq) ∧
      (∀ x ∈ Clo, x.2.freq ≤ 1) ∧
      CacheImpl.Put s k v = some s4 ∧
      CacheInv s4 (fun m => if m = k then some clock else t m)
        (Chi ++ (s.nextElem, ⟨k, v, 1, clock⟩) :: Clo) (clock + 1) := by
  have hsize : s.Size = (C.length : Int) := by
    show (s.listOfData.len : Int) = (C.length : Int)
    rw [h.len_eq]
  have hstep : (if s.Size = s.capacity then s.extractLatest else some s) = some s := by
    rw [if_neg (by rw [hsize]; exact hne)]
  have hsz : ((C.length : Int) + 1) ≤ s.capacity := by
    have := h.size_le
    omega
  exact put_fresh_core hke hstep h hke hsz

/-- `Put` of an absent key when the cache is full: the back cell `z` (the
least-frequent, least-recent record) is evicted first, then the new record
enters at frequency 1. -/
theorem put_miss_evict_spec {K V : Type} [DecidableEq K] {s : CacheImpl K V}
    {t : K → Option Nat} {D : Cells K V} {z : Nat × AEntry K V} {clock : Nat}
    {k : K} {v : V}
    (h : CacheInv s t (D ++ [z]) clock)
    (hke : s.keyToElement k = none)
    (hfull : ((D.length : Int) + 1) = s.capacity) :
    ∃ s' Chi Clo s4, CacheImpl.extractLatest s = some s' ∧
      s'.keyToElement z.2.key = none ∧
      D = Chi ++ Clo ∧ (∀ x ∈ Chi, 1 < x.2.freq) ∧
      (∀ x ∈ Clo, x.2.freq ≤ 1) ∧
      CacheImpl.Put s k v = some s4 ∧
      CacheInv s4 (fun m => if m = k then some clock else t m)
        (Chi ++ (s'.nextElem, ⟨k, v, 1, clock⟩) :: Clo) (clock + 1) := by
  obtain ⟨s', hext, h', hcap', hne', hnn', hkz⟩ := extract_spec h
  have hsize : s.Size = ((D.length : Int) + 1) := by
    show (s.listOfData.len : Int) = _
    rw [h.len_eq]
    simp
  have hstep : (if s.Size = s.capacity then s.extractLatest else some s) = some s' := by
    rw [if_pos (by rw [hsize]; exact hfull)]
    exact hext
  have hk1 : s'.keyToElement k = none := by
    rw [h'.key_map]
    refine keyLookup_eq_none.mpr ?_
    intro p hp
    have hall : keyLookup k (D ++ [z]) = none := by
      rw [← h.key_map]
      exact hke
    exact keyLookup_eq_none.mp hall p (List.mem_append_left _ hp)
  have hsz : ((D.length : Int) + 1) ≤ s'.capacity := by
    rw [hcap', ← hfull]
  obtain ⟨Chi, Clo, s4, hCC, hhi, hlo, hput, hinv⟩ :=
    put_fresh_core hke hstep h' hk1 hsz
  exact ⟨s', Chi, Clo, s4, hext, hkz, hCC, hhi, hlo, hput, hinv⟩

namespace CacheImpl

variable {K V : Type} [DecidableEq K]

theorem removeFreqLevel_capacity (s : CacheImpl K V) (e : Nat) :
    (s.removeFreqLevel e).capacity = s.capacity := by
  unfold CacheImpl.removeFreqLevel
  dsimp only
  split
  · rfl
  · split
    · split
      · split <;> rfl
      · rfl
    · rfl

theorem removeFromList_capacity (s : CacheImpl K V) (e : Nat) :
    (s.removeFromList e).capacity = s.capacity := by
  unfold CacheImpl.removeFromList
  rw [CacheImpl.removeFreqLevel_capacity]

theorem addToNotEmptyList_capacity (s : CacheImpl K V) (e : Nat) :
    (s.addToNotEmptyList e).capacity = s.capacity := by
  unfold CacheImpl.addToNotEmptyList
  dsimp only
  split
  · rfl
  · split
    · rfl
    · split
      · split <;> rfl
      · rfl

theorem addToList_capacity (s : CacheImpl K V) (e : Nat) :
    (s.addToList e).capacity = s.capacity := by
  unfold CacheImpl.addToList
  simp only [CacheImpl.setKeyMap_capacity, CacheImpl.setFreqMap_capacity]
  split
  · rfl
  · exact CacheImpl.addToNotEmptyList_capacity s e

theorem extractLatest_eq_none {s : CacheImpl K V} {l : LList (Option Nat)}
    (hPB : s.listOfData.PopBack = (none, l)) :
    s.extractLatest = none := by
  simp only [CacheImpl.extractLatest, hPB]

theorem extractLatest_capacity {s s1 : CacheImpl K V}
    (h : s.extractLatest = some s1) : s1.capacity = s.capacity := by
  rcases hPB : s.listOfData.PopBack with ⟨fst, lst⟩
  cases fst with
  | none =>
    rw [CacheImpl.extractLatest_eq_none hPB] at h
    exact absurd h (by simp)
  | some del =>
    by_cases hfr : s.frequencyToRecentElement
        ((CacheImpl.nodeOf { s with listOfData := lst } del).freq) = some del
    · rw [CacheImpl.extractLatest_eq_del hPB hfr] at h
      rw [← Option.some.inj h]
      rfl
    · rw [CacheImpl.extractLatest_eq_keep hPB hfr] at h
      rw [← Option.some.inj h]
      rfl

theorem Put_eq_none {s : CacheImpl K V} {key : K} {value : V}
    (hke : s.keyToElement key = none)
    (hstep : (if s.Size = s.capacity then s.extractLatest else some s) = none) :
    CacheImpl.Put s key value = none := by
  simp only [CacheImpl.Put, hke, hstep]

theorem Put_capacity {s s4 : CacheImpl K V} {k : K} {v : V}
    (h : CacheImpl.Put s k v = some s4) : s4.capacity = s.capacity := by
  cases hke : s.keyToElement k with
  | some e =>
    rw [CacheImpl.Put_eq_hit hke] at h
    rw [← Option.some.inj h, CacheImpl.addToList_capacity,
      CacheImpl.updNode_capacity, CacheImpl.updNode_capacity,
      CacheImpl.removeFreqLevel_capacity, CacheImpl.removeFromList_capacity]
  | none =>
    cases hstep : (if s.Size = s.capacity then s.extractLatest else some s) with
    | none =>
      rw [CacheImpl.Put_eq_none hke hstep] at h
      exact absurd h (by simp)
    | some s1 =>
      rw [CacheImpl.Put_eq_miss hke hstep] at h
      have hs1 : s1.capacity = s.capacity := by
        by_cases hc : s.Size = s.capacity
        · rw [if_pos hc] at hstep
          exact CacheImpl.extractLatest_capacity hstep
        · rw [if_neg hc] at hstep
          rw [← Option.some.inj hstep]
      rw [← Option.some.inj h, CacheImpl.addToList_capacity]
      exact hs1

theorem Get_capacity (s : CacheImpl K V) (k : K) :
    (CacheImpl.Get s k).2.capacity = s.capacity := by
  cases hke : s.keyToElement k with
  | some e =>
    rw [CacheImpl.Get_eq_hit hke]
    show (CacheImpl.addToList _ e).capacity = s.capacity
    rw [CacheImpl.addToList_capacity, CacheImpl.updNode_capacity,
      CacheImpl.removeFreqLevel_capacity, CacheImpl.removeFromList_capacity]
  | none =>
    simp only [CacheImpl.Get, hke]

theorem Get_eq_miss {s : CacheImpl K V} {k : K}
    (hke : s.keyToElement k = none) :
    CacheImpl.Get s k = ((s.defaultValue, some GoErr.keyNotFound), s) := by
  simp only [CacheImpl.Get, hke]

end CacheImpl

/-- The invariant is monotone in the clock. -/
theorem cacheInv_clock_le {K V : Type} [DecidableEq K] {s : CacheImpl K V}
    {t : K → Option Nat} {C : Cells K V} {clock clock' : Nat}
    (h : CacheInv s t C clock) (hle : clock ≤ clock') :
    CacheInv s t C clock' :=
  ⟨h.links, h.len_eq, h.ids_nodup, h.root_not_mem, h.ids_lt, h.nextElem_pos,
    h.root_val, h.cell_val, h.cell_node, h.nids_nodup, h.nids_lt, h.keys_nodup,
    h.key_map, h.freq_map, h.sorted, h.freq_pos,
    fun p hp => lt_of_lt_of_le (h.touch_lt p hp) hle, h.touch_eq,
    h.size_le, h.cap_nonneg⟩

/-- `Put` on an absent key crashes (nil dereference in `extractLatest`) when
the cache is empty with capacity 0. -/
theorem put_miss_crash {K V : Type} [DecidableEq K] {s : CacheImpl K V}
    {t : K → Option Nat} {clock : Nat} {k : K} {v : V}
    (h : CacheInv s t ([] : Cells K V) clock)
    (hke : s.keyToElement k = none)
    (hcap0 : s.capacity = 0) :
    CacheImpl.Put s k v = none := by
  have hlen0 : s.listOfData.len = 0 := by
    rw [h.len_eq]
    rfl
  have hPB : s.listOfData.PopBack = (none, s.listOfData) :=
    LList.PopBack_empty hlen0
  have hext : s.extractLatest = none := CacheImpl.extractLatest_eq_none hPB
  have hstep : (if s.Size = s.capacity then s.extractLatest else some s) = none := by
    rw [if_pos (by
      show (s.listOfData.len : Int) = s.capacity
      rw [hlen0, hcap0]
      rfl)]
    exact hext
  exact CacheImpl.Put_eq_none hke hstep

/-- One runner step preserves the invariant (when it does not crash). -/
theorem stepG_inv {K V : Type} [DecidableEq K] {g g' : GState K V}
    {C : Cells K V} (h : CacheInv g.cache g.touch C g.clock) {op : Op K V}
    (hstep : stepG g op = some g') :
    ∃ C', CacheInv g'.cache g'.touch C' g'.clock ∧
      g'.cache.capacity = g.cache.capacity ∧ g'.clock = g.clock + 1 := by
  cases op with
  | get k =>
    cases hke : g.cache.keyToElement k with
    | some e =>
      obtain ⟨P, a, Q, Chi, Clo, s4, hdec, hak, hCC, hget, hinv⟩ :=
        get_hit_spec h hke
      have hg' : g' = ⟨(CacheImpl.Get g.cache k).2,
          fun j => if j = k then some g.clock else g.touch j, g.clock + 1⟩ := by
        rw [← Option.some.inj hstep]
        show GState.mk _ (if (g.cache.keyToElement k).isSome then _ else _) _ = _
        rw [hke]
        rfl
      refine ⟨Chi ++ (e, ⟨k, a.value, a.freq + 1, g.clock⟩) :: Clo, ?_, ?_, ?_⟩
      · rw [hg']
        show CacheInv (CacheImpl.Get g.cache k).2 _ _ _
        rw [hget]
        exact hinv
      · rw [hg']
        exact CacheImpl.Get_capacity g.cache k
      · rw [hg']
    | none =>
      have hg' : g' = ⟨(CacheImpl.Get g.cache k).2, g.touch, g.clock + 1⟩ := by
        rw [← Option.some.inj hstep]
        show GState.mk _ (if (g.cache.keyToElement k).isSome then _ else _) _ = _
        rw [hke]
        rfl
      refine ⟨C, ?_, ?_, ?_⟩
      · rw [hg']
        show CacheInv (CacheImpl.Get g.cache k).2 g.touch C (g.clock + 1)
        rw [CacheImpl.Get_eq_miss hke]
        exact cacheInv_clock_le h (Nat.le_succ _)
      · rw [hg']
        exact CacheImpl.Get_capacity g.cache k
      · rw [hg']
  | put k v =>
    cases hput : CacheImpl.Put g.cache k v with
    | none =>
      exfalso
      have hnone : stepG g (Op.put k v) = none := by simp only [stepG, hput]
      rw [hnone] at hstep
      exact Option.noConfusion hstep
    | some c =>
      have hg' : g' = ⟨c, fun j => if j = k then some g.clock else g.touch j,
          g.clock + 1⟩ := by
        have := hstep
        simp only [stepG, hput] at this
        exact (Option.some.inj this).symm
      cases hke : g.cache.keyToElement k with
      | some e =>
        obtain ⟨P, a, Q, Chi, Clo, s4, hdec, hak, hCC, hPut, hinv⟩ :=
          put_hit_spec h hke
        have hc : c = s4 := by
          rw [hput] at hPut
          exact Option.some.inj hPut
        refine ⟨Chi ++ (e, ⟨k, v, a.freq + 1, g.clock⟩) :: Clo, ?_, ?_, ?_⟩
        · rw [hg']
          show CacheInv c _ _ _
          rw [hc]
          exact hinv
        · rw [hg']
          show c.capacity = g.cache.capacity
          exact CacheImpl.Put_capacity hput
        · rw [hg']
      | none =>
        by_cases hfull : (C.length : Int) = g.cache.capacity
        · rcases List.eq_nil_or_concat C with hnil | ⟨D, z, hDz⟩
          · exfalso
            have hcap0 : g.cache.capacity = 0 := by
              rw [← hfull, hnil]
              rfl
            rw [put_miss_crash (hnil ▸ h) hke hcap0] at hput
            exact Option.noConfusion hput
          · subst hDz
            rw [List.concat_eq_append] at *
            obtain ⟨s', Chi, Clo, s4, hext, hkz, hCC, hhi, hlo, hPut, hinv⟩ :=
              put_miss_evict_spec h hke (by
                have : ((D ++ [z]).length : Int) = (D.length : Int) + 1 := by
                  simp
                rw [this] at hfull
                exact hfull)
            have hc : c = s4 := by
              rw [hput] at hPut
              exact Option.some.inj hPut
            refine ⟨Chi ++ (s'.nextElem, ⟨k, v, 1, g.clock⟩) :: Clo, ?_, ?_, ?_⟩
            · rw [hg']
              show CacheInv c _ _ _
              rw [hc]
              exact hinv
            · rw [hg']
              exact CacheImpl.Put_capacity hput
            · rw [hg']
        · obtain ⟨Chi, Clo, s4, hCC, hhi, hlo, hPut, hinv⟩ :=
            put_miss_room_spec h hke hfull
          have hc : c = s4 := by
            rw [hput] at hPut
            exact Option.some.inj hPut
          refine ⟨Chi ++ (g.cache.nextElem, ⟨k, v, 1, g.clock⟩) :: Clo, ?_, ?_, ?_⟩
          · rw [hg']
            show CacheInv c _ _ _
            rw [hc]
            exact hinv
          · rw [hg']
            exact CacheImpl.Put_capacity hput
          · rw [hg']

/-- Every completed run from an invariant state ends in an invariant state
with the same capacity. -/
theorem runFromG_inv {K V : Type} [DecidableEq K] :
    ∀ (ops : List (Op K V)) (g g' : GState K V) (C : Cells K V),
      CacheInv g.cache g.touch C g.clock →
      runFromG g ops = some g' →
      ∃ C', CacheInv g'.cache g'.touch C' g'.clock ∧
        g'.cache.capacity = g.cache.capacity := by
  intro ops
  induction ops with
  | nil =>
    intro g g' C h hrun
    have hgg : g = g' := Option.some.inj hrun
    exact ⟨C, hgg ▸ h, hgg ▸ rfl⟩
  | cons op ops ih =>
    intro g g' C h hrun
    rw [show runFromG g (op :: ops) = stepG g op >>= fun g1 => runFromG g1 ops
      from List.foldlM_cons stepG g op ops] at hrun
    cases hst : stepG g op with
    | none =>
      rw [hst] at hrun
      exact Option.noConfusion hrun
    | some g1 =>
      rw [hst] at hrun
      obtain ⟨C1, h1, hcap1, hclk⟩ := stepG_inv h hst
      obtain ⟨C', h', hcap'⟩ := ih g1 g' C1 h1 hrun
      exact ⟨C', h', hcap'.trans hcap1⟩

/-- Every completed run on a fresh cache of non-negative capacity `cap` ends
in an invariant state with capacity `cap`. -/
theorem runG_inv {K V : Type} [DecidableEq K] [Inhabited K] [Inhabited V]
    {cap : Int} {ops : List (Op K V)} {g' : GState K V}
    (hcap : 0 ≤ cap) (hrun : runG cap ops = some g') :
    ∃ C', CacheInv g'.cache g'.touch C' g'.clock ∧ g'.cache.capacity = cap :=
  runFromG_inv ops (initG K V cap) g' [] (cacheInv_mkCache hcap) hrun

/-- A completed run completes on every prefix. -/
theorem runG_append {K V : Type} [DecidableEq K] [Inhabited K] [Inhabited V]
    {cap : Int} {xs ys : List (Op K V)} {g' : GState K V}
    (h : runG cap (xs ++ ys) = some g') :
    ∃ g1, runG cap xs = some g1 ∧ runFromG g1 ys = some g' := by
  rw [runG, runFromG, List.foldlM_append] at h
  cases hx : List.foldlM stepG (initG K V cap) xs with
  | none =>
    rw [hx] at h
    exact Option.noConfusion h
  | some g1 =>
    rw [hx] at h
    exact ⟨g1, hx, h⟩

/-- C2: in every state reachable by `Put`/`Get` calls from a fresh cache,
`All` traverses exactly the live records, in non-increasing frequency order,
and among records of equal frequency the most recently touched comes first
(touch instants are the ghost clock values of the runner). -/
theorem claim_C2 {K V : Type} [DecidableEq K] [Inhabited K] [Inhabited V]
    {cap : Int} {ops : List (Op K V)} {g : GState K V}
    (hcap : 0 ≤ cap) (hrun : runG cap ops = some g) :
    ∃ E : Cells K V,
      CacheImpl.All g.cache = E.map (fun p => (p.2.key, p.2.value)) ∧
      (∀ p ∈ E, CacheImpl.GetKeyFrequency g.cache p.2.key = (p.2.freq, none)) ∧
      (∀ p ∈ E, g.touch p.2.key = some p.2.touch) ∧
      (∀ k, (g.cache.keyToElement k).isSome ↔ ∃ p ∈ E, p.2.key = k) ∧
      E.Pairwise (fun p q =>
        q.2.freq < p.2.freq ∨ (q.2.freq = p.2.freq ∧ q.2.touch < p.2.touch)) := by
  obtain ⟨C, h, hcapeq⟩ := runG_inv hcap hrun
  refine ⟨C, h.all_eq, ?_, h.touch_eq, fun k => h.live_iff, h.sorted⟩
  intro p hp
  exact h.getKeyFrequency_eq hp

theorem claim_C2_witness :
    ((0:Int) ≤ 2 ∧
      runG (K := Nat) (V := Nat) 2 [Op.put 1 10, Op.put 2 20, Op.get 1] =
        some ((runG (K := Nat) (V := Nat) 2
          [Op.put 1 10, Op.put 2 20, Op.get 1]).get (by decide))) ∧
    (∃ E : Cells Nat Nat,
      CacheImpl.All (GState.cache ((runG (K := Nat) (V := Nat) 2
          [Op.put 1 10, Op.put 2 20, Op.get 1]).get (by decide))) =
        E.map (fun p => (p.2.key, p.2.value)) ∧
      (∀ p ∈ E, CacheImpl.GetKeyFrequency (GState.cache ((runG (K := Nat) (V := Nat) 2
          [Op.put 1 10, Op.put 2 20, Op.get 1]).get (by decide))) p.2.key =
        (p.2.freq, none)) ∧
      (∀ p ∈ E, GState.touch ((runG (K := Nat) (V := Nat) 2
          [Op.put 1 10, Op.put 2 20, Op.get 1]).get (by decide)) p.2.key =
        some p.2.touch) ∧
      (∀ k, ((GState.cache ((runG (K := Nat) (V := Nat) 2
          [Op.put 1 10, Op.put 2 20, Op.get 1]).get (by decide))).keyToElement
            k).isSome ↔ ∃ p ∈ E, p.2.key = k) ∧
      E.Pairwise (fun p q =>
        q.2.freq < p.2.freq ∨ (q.2.freq = p.2.freq ∧ q.2.touch < p.2.touch))) := by
  refine ⟨⟨by decide, (Option.some_get _).symm⟩, ?_⟩
  exact claim_C2 (by decide) (Option.some_get _).symm

/-- In a cell list with no duplicate element ids, the entry at a given id is
unique. -/
theorem mem_unique_of_ids_nodup {K V : Type} {C : Cells K V} {e : Nat}
    {a b : AEntry K V} (hnd : (C.map Prod.fst).Nodup)
    (h1 : (e, a) ∈ C) (h2 : (e, b) ∈ C) : a = b := by
  induction C with
  | nil => exact absurd h1 (List.not_mem_nil _)
  | cons p C ih =>
    rw [List.map_cons, List.nodup_cons] at hnd
    rcases List.mem_cons.mp h1 with h1 | h1 <;>
      rcases List.mem_cons.mp h2 with h2 | h2
    · exact (Prod.mk.inj (h1.trans h2.symm)).2
    · exfalso
      refine hnd.1 ?_
      rw [← h1]
      exact List.mem_map.mpr ⟨(e, b), h2, rfl⟩
    · exfalso
      refine hnd.1 ?_
      rw [← h2]
      exact List.mem_map.mpr ⟨(e, a), h1, rfl⟩
    · exact ih hnd.2 h1 h2

/-- C10: `Put` of an already-live key never evicts: it succeeds, the size and
the set of live keys are unchanged, every other live key keeps its frequency
and stored value, and only the put key's value and frequency change. -/
theorem claim_C10 {K V : Type} [DecidableEq K] [Inhabited K] [Inhabited V]
    {cap : Int} {ops : List (Op K V)} {g : GState K V} {k : K} {v : V} {e : Nat}
    (hcap : 0 ≤ cap) (hrun : runG cap ops = some g)
    (hke : g.cache.keyToElement k = some e) :
    ∃ c, CacheImpl.Put g.cache k v = some c ∧
      CacheImpl.Size c = CacheImpl.Size g.cache ∧
      (∀ m, (c.keyToElement m).isSome ↔ (g.cache.keyToElement m).isSome) ∧
      (∀ m, m ≠ k → (g.cache.keyToElement m).isSome →
        CacheImpl.GetKeyFrequency c m = CacheImpl.GetKeyFrequency g.cache m ∧
        (∀ w, (m, w) ∈ CacheImpl.All c ↔ (m, w) ∈ CacheImpl.All g.cache)) ∧
      CacheImpl.GetKeyFrequency c k =
        ((CacheImpl.GetKeyFrequency g.cache k).1 + 1, none) ∧
      (k, v) ∈ CacheImpl.All c := by
  obtain ⟨C, h, hcapeq⟩ := runG_inv hcap hrun
  obtain ⟨P, a, Q, Chi, Clo, s4, hdec, hak, hCC, hPut, hinv⟩ := put_hit_spec h hke
  have hmidC : (e, a) ∈ C := by rw [hdec]; simp
  have hmid' : (e, (⟨k, v, a.freq + 1, g.clock⟩ : AEntry K V)) ∈
      Chi ++ (e, (⟨k, v, a.freq + 1, g.clock⟩ : AEntry K V)) :: Clo := by simp
  have hPQC : ∀ p, p ∈ P ++ Q → p ∈ C := by
    intro p hp
    rw [hdec]
    rcases List.mem_append.mp hp with hp | hp
    · exact List.mem_append_left _ hp
    · exact List.mem_append_right _ (List.mem_cons_of_mem _ hp)
  have hCPQ : ∀ p, p ∈ C → p.2.key ≠ k → p ∈ P ++ Q := by
    intro p hp hpk
    rw [hdec] at hp
    rcases List.mem_append.mp hp with hp | hp
    · exact List.mem_append_left _ hp
    · rcases List.mem_cons.mp hp with hp | hp
      · exact absurd (by rw [hp]; exact hak) hpk
      · exact List.mem_append_right _ hp
  have hCells' : ∀ p, p ∈ Chi ++ Clo →
      p ∈ Chi ++ (e, (⟨k, v, a.freq + 1, g.clock⟩ : AEntry K V)) :: Clo := by
    intro p hp
    rcases List.mem_append.mp hp with hp | hp
    · exact List.mem_append_left _ hp
    · exact List.mem_append_right _ (List.mem_cons_of_mem _ hp)
  have hCells'' : ∀ p, p ∈ Chi ++ (e, (⟨k, v, a.freq + 1, g.clock⟩ : AEntry K V)) :: Clo →
      p.2.key ≠ k → p ∈ Chi ++ Clo := by
    intro p hp hpk
    rcases List.mem_append.mp hp with hp | hp
    · exact List.mem_append_left _ hp
    · rcases List.mem_cons.mp hp with hp | hp
      · exact absurd (by rw [hp]) hpk
      · exact List.mem_append_right _ hp
  refine ⟨s4, hPut, ?_, ?_, ?_, ?_, ?_⟩
  · -- size unchanged
    rw [hinv.size_eq, h.size_eq]
    have hlen : (P ++ Q).length = (Chi ++ Clo).length := by rw [hCC]
    rw [hdec]
    simp only [List.length_append, List.length_cons] at *
    omega
  · -- live set unchanged
    intro m
    rw [hinv.live_iff, h.live_iff]
    constructor
    · rintro ⟨p, hp, hpk⟩
      by_cases hmk : m = k
      · exact ⟨(e, a), hmidC, by rw [hak, hmk]⟩
      · exact ⟨p, hPQC p (hCC ▸ hCells'' p hp (by rw [hpk]; exact hmk)), hpk⟩
    · rintro ⟨p, hp, hpk⟩
      by_cases hmk : m = k
      · exact ⟨(e, ⟨k, v, a.freq + 1, g.clock⟩), hmid', by rw [hmk]⟩
      · exact ⟨p, hCells' p (hCC ▸ hCPQ p hp (by rw [hpk]; exact hmk)), hpk⟩
  · -- other keys: frequency and value unchanged
    intro m hmk hlive
    obtain ⟨eq, heq⟩ := Option.isSome_iff_exists.mp hlive
    obtain ⟨b, hbC, hbk⟩ := h.mem_of_key_some heq
    have hbPQ : (eq, b) ∈ P ++ Q := hCPQ (eq, b) hbC (by rw [hbk]; exact hmk)
    have hbCells' : (eq, b) ∈
        Chi ++ (e, (⟨k, v, a.freq + 1, g.clock⟩ : AEntry K V)) :: Clo :=
      hCells' (eq, b) (hCC ▸ hbPQ)
    constructor
    · rw [← hbk, hinv.getKeyFrequency_eq hbCells', h.getKeyFrequency_eq hbC]
    · intro w
      rw [hinv.all_eq, h.all_eq]
      constructor
      · intro hmem
        obtain ⟨q, hq, hqe⟩ := List.mem_map.mp hmem
        have hqk : q.2.key = m := (Prod.mk.inj hqe).1
        refine List.mem_map.mpr ⟨q, ?_, hqe⟩
        exact hPQC q (hCC ▸ hCells'' q hq (by rw [hqk]; exact hmk))
      · intro hmem
        obtain ⟨q, hq, hqe⟩ := List.mem_map.mp hmem
        have hqk : q.2.key = m := (Prod.mk.inj hqe).1
        refine List.mem_map.mpr ⟨q, ?_, hqe⟩
        exact hCells' q (hCC ▸ hCPQ q hq (by rw [hqk]; exact hmk))
  · -- put key: frequency incremented
    have hafter := hinv.getKeyFrequency_eq hmid'
    have hbefore := h.getKeyFrequency_eq hmidC
    rw [hak] at hbefore
    rw [hafter, hbefore]
  · -- put key: new value stored
    rw [hinv.all_eq]
    exact List.mem_map.mpr ⟨(e, ⟨k, v, a.freq + 1, g.clock⟩), hmid', rfl⟩

theorem claim_C10_witness :
    ((0:Int) ≤ 2 ∧
      runG (K := Nat) (V := Nat) 2 [Op.put 1 10, Op.put 2 20] =
        some ((runG (K := Nat) (V := Nat) 2 [Op.put 1 10, Op.put 2 20]).get
          (by decide)) ∧
      (GState.cache ((runG (K := Nat) (V := Nat) 2 [Op.put 1 10, Op.put 2 20]).get
          (by decide))).keyToElement 1 = some 1) ∧
    (∃ c, CacheImpl.Put (GState.cache ((runG (K := Nat) (V := Nat) 2
          [Op.put 1 10, Op.put 2 20]).get (by decide))) 1 99 = some c ∧
      CacheImpl.Size c = CacheImpl.Size (GState.cache ((runG (K := Nat) (V := Nat) 2
          [Op.put 1 10, Op.put 2 20]).get (by decide))) ∧
      (∀ m, (c.keyToElement m).isSome ↔
        ((GState.cache ((runG (K := Nat) (V := Nat) 2
          [Op.put 1 10, Op.put 2 20]).get (by decide))).keyToElement m).isSome) ∧
      (∀ m, m ≠ 1 → ((GState.cache ((runG (K := Nat) (V := Nat) 2
          [Op.put 1 10, Op.put 2 20]).get (by decide))).keyToElement m).isSome →
        CacheImpl.GetKeyFrequency c m =
          CacheImpl.GetKeyFrequency (GState.cache ((runG (K := Nat) (V := Nat) 2
            [Op.put 1 10, Op.put 2 20]).get (by decide))) m ∧
        (∀ w, (m, w) ∈ CacheImpl.All c ↔
          (m, w) ∈ CacheImpl.All (GState.cache ((runG (K := Nat) (V := Nat) 2
            [Op.put 1 10, Op.put 2 20]).get (by decide))))) ∧
      CacheImpl.GetKeyFrequency c 1 =
        ((CacheImpl.GetKeyFrequency (GState.cache ((runG (K := Nat) (V := Nat) 2
          [Op.put 1 10, Op.put 2 20]).get (by decide))) 1).1 + 1, none) ∧
      (1, 99) ∈ CacheImpl.All c) := by
  refine ⟨⟨by decide, (Option.some_get _).symm, by decide⟩, ?_⟩
  exact claim_C10 (e := 1) (by decide) (Option.some_get _).symm (by decide)

/-- C6: on any reachable cache of capacity at least 1, `put(k, v)` succeeds,
and an immediate `get(k)` returns `v` with no error; the frequency observed
after the get is one greater than the frequency `k` had right after the put,
and the stored value is still `v` after the get. -/
theorem claim_C6 {K V : Type} [DecidableEq K] [Inhabited K] [Inhabited V]
    {cap : Int} {ops : List (Op K V)} {g : GState K V}
    (hcap : 1 ≤ cap) (hrun : runG cap ops = some g) (k : K) (v : V) :
    ∃ c c2, CacheImpl.Put g.cache k v = some c ∧
      CacheImpl.Get c k = ((v, none), c2) ∧
      CacheImpl.GetKeyFrequency c2 k =
        ((CacheImpl.GetKeyFrequency c k).1 + 1, none) ∧
      1 ≤ (CacheImpl.GetKeyFrequency c k).1 ∧
      (k, v) ∈ CacheImpl.All c2 := by
  obtain ⟨C, h, hcapeq⟩ := runG_inv (le_trans zero_le_one hcap) hrun
  obtain ⟨e', f, Chi, Clo, c, hPut, hf1, hinv⟩ : ∃ e' f Chi Clo c,
      CacheImpl.Put g.cache k v = some c ∧ 1 ≤ f ∧
      CacheInv c (fun m => if m = k then some g.clock else g.touch m)
        (Chi ++ ((e', ⟨k, v, f, g.clock⟩) : Nat × AEntry K V) :: Clo)
        (g.clock + 1) := by
    cases hke : g.cache.keyToElement k with
    | some e =>
      obtain ⟨P, a, Q, Chi, Clo, s4, hdec, hak, hCC, hPut, hinv⟩ :=
        put_hit_spec h hke
      have hfa : 1 ≤ a.freq := h.freq_pos (e, a) (by rw [hdec]; simp)
      exact ⟨e, a.freq + 1, Chi, Clo, s4, hPut, by omega, hinv⟩
    | none =>
      by_cases hfull : ((C.length : Int)) = g.cache.capacity
      · rcases List.eq_nil_or_concat C with hnil | ⟨D, z, hDz⟩
        · exfalso
          rw [hnil] at hfull
          rw [hcapeq] at hfull
          simp at hfull
          omega
        · subst hDz
          rw [List.concat_eq_append] at *
          obtain ⟨s', Chi, Clo, s4, hext, hkz, hCC, hhi, hlo, hPut, hinv⟩ :=
            put_miss_evict_spec h hke (by
              have hlen : ((D ++ [z]).length : Int) = (D.length : Int) + 1 := by
                simp
              rw [hlen] at hfull
              exact hfull)
          exact ⟨s'.nextElem, 1, Chi, Clo, s4, hPut, le_refl 1, hinv⟩
      · obtain ⟨Chi, Clo, s4, hCC, hhi, hlo, hPut, hinv⟩ :=
          put_miss_room_spec h hke hfull
        exact ⟨g.cache.nextElem, 1, Chi, Clo, s4, hPut, le_refl 1, hinv⟩
  have hmid : ((e', ⟨k, v, f, g.clock⟩) : Nat × AEntry K V) ∈
      Chi ++ ((e', ⟨k, v, f, g.clock⟩) : Nat × AEntry K V) :: Clo := by simp
  have hke2 : c.keyToElement k = some e' := hinv.key_some_of_mem hmid
  have hfreqc : CacheImpl.GetKeyFrequency c k = (f, none) :=
    hinv.getKeyFrequency_eq hmid
  obtain ⟨P2, a2, Q2, Chi2, Clo2, c2, hdec2, hak2, hCC2, hGet, hinv2⟩ :=
    get_hit_spec hinv hke2
  have hmid2in : (e', a2) ∈
      Chi ++ ((e', ⟨k, v, f, g.clock⟩) : Nat × AEntry K V) :: Clo := by
    rw [hdec2]
    simp
  have ha2 : a2 = ⟨k, v, f, g.clock⟩ :=
    mem_unique_of_ids_nodup hinv.ids_nodup hmid2in hmid
  have hmid2' : ((e', ⟨k, a2.value, a2.freq + 1, g.clock + 1⟩) : Nat × AEntry K V) ∈
      Chi2 ++ ((e', ⟨k, a2.value, a2.freq + 1, g.clock + 1⟩) : Nat × AEntry K V)
        :: Clo2 := by simp
  have hfreq2 : CacheImpl.GetKeyFrequency c2 k = (a2.freq + 1, none) :=
    hinv2.getKeyFrequency_eq hmid2'
  refine ⟨c, c2, hPut, ?_, ?_, ?_, ?_⟩
  · rw [hGet, ha2]
  · rw [hfreq2, hfreqc, ha2]
  · rw [hfreqc]
    exact hf1
  · rw [hinv2.all_eq]
    refine List.mem_map.mpr ⟨(e', ⟨k, a2.value, a2.freq + 1, g.clock + 1⟩), hmid2', ?_⟩
    rw [ha2]

theorem claim_C6_witness :
    ((1:Int) ≤ 1 ∧ runG (K := Nat) (V := Nat) 1 [] =
      some ((runG (K := Nat) (V := Nat) 1 []).get (by decide))) ∧
    (∃ c c2, CacheImpl.Put (GState.cache ((runG (K := Nat) (V := Nat) 1 []).get
        (by decide))) 1 7 = some c ∧
      CacheImpl.Get c 1 = ((7, none), c2) ∧
      CacheImpl.GetKeyFrequency c2 1 =
        ((CacheImpl.GetKeyFrequency c 1).1 + 1, none) ∧
      1 ≤ (CacheImpl.GetKeyFrequency c 1).1 ∧
      (1, 7) ∈ CacheImpl.All c2) := by
  refine ⟨⟨by decide, (Option.some_get _).symm⟩, ?_⟩
  exact claim_C6 (by decide) (Option.some_get _).symm 1 7

/-- C1: on any reachable full cache (`Size = Capacity`, capacity at least 1),
a `Put` of an absent key succeeds and evicts exactly one live key `zk`: `zk`
is no longer live afterwards, every other live key remains live, and `zk`
minimizes frequency among the live keys, with the least recent ghost-touch
instant among those sharing that minimal frequency. -/
theorem claim_C1 {K V : Type} [DecidableEq K] [Inhabited K] [Inhabited V]
    {cap : Int} {ops : List (Op K V)} {g : GState K V} (k : K) (v : V)
    (hcap : 1 ≤ cap) (hrun : runG cap ops = some g)
    (hfull : CacheImpl.Size g.cache = CacheImpl.Capacity g.cache)
    (hk : g.cache.keyToElement k = none) :
    ∃ c zk, CacheImpl.Put g.cache k v = some c ∧
      (g.cache.keyToElement zk).isSome ∧
      c.keyToElement zk = none ∧
      (∀ m, m ≠ zk → (g.cache.keyToElement m).isSome →
        (c.keyToElement m).isSome) ∧
      (∀ m, m ≠ zk → (g.cache.keyToElement m).isSome →
        (CacheImpl.GetKeyFrequency g.cache zk).1 <
            (CacheImpl.GetKeyFrequency g.cache m).1 ∨
          ((CacheImpl.GetKeyFrequency g.cache zk).1 =
              (CacheImpl.GetKeyFrequency g.cache m).1 ∧
            ∃ tz tm, g.touch zk = some tz ∧ g.touch m = some tm ∧ tz < tm)) := by
  obtain ⟨C, h, hcapeq⟩ := runG_inv (le_trans zero_le_one hcap) hrun
  have hlenfull : ((C.length : Int)) = g.cache.capacity := by
    rw [← h.size_eq]
    exact hfull
  rcases List.eq_nil_or_concat C with hnil | ⟨D, z, hDz⟩
  · exfalso
    rw [hnil] at hlenfull
    rw [hcapeq] at hlenfull
    simp at hlenfull
    omega
  subst hDz
  rw [List.concat_eq_append] at *
  obtain ⟨s', Chi, Clo, s4, hext, hkz, hCC, hhi, hlo, hPut, hinv⟩ :=
    put_miss_evict_spec h hk (by
      have hlen : ((D ++ [z]).length : Int) = (D.length : Int) + 1 := by simp
      rw [hlen] at hlenfull
      exact hlenfull)
  have hmemz : z ∈ D ++ [z] := by simp
  have hmemz' : ((z.1, z.2) : Nat × AEntry K V) ∈ D ++ [z] := by simpa using hmemz
  have hknotin : ∀ p ∈ D ++ [z], p.2.key ≠ k := by
    have hkl : keyLookup k (D ++ [z]) = none := by rw [← h.key_map]; exact hk
    exact keyLookup_eq_none.mp hkl
  have hzD : ∀ p ∈ D, p.2.key ≠ z.2.key := by
    have hkeys := h.keys_nodup
    rw [show (D ++ [z]).map (fun p => p.2.key) =
      D.map (fun p => p.2.key) ++ [z.2.key] from by simp] at hkeys
    rw [List.nodup_append] at hkeys
    intro p hp hcon
    exact (hkeys.2.2 (List.mem_map.mpr ⟨p, hp, hcon⟩)) (List.mem_singleton.mpr rfl)
  have hmemD : ∀ p, p ∈ D → p ∈ D ++ [z] := fun p hp => List.mem_append_left _ hp
  have hDcells : ∀ p, p ∈ D →
      p ∈ Chi ++ ((s'.nextElem, ⟨k, v, 1, g.clock⟩) : Nat × AEntry K V) :: Clo := by
    intro p hp
    rw [hCC] at hp
    rcases List.mem_append.mp hp with hp | hp
    · exact List.mem_append_left _ hp
    · exact List.mem_append_right _ (List.mem_cons_of_mem _ hp)
  have hcellsD : ∀ p,
      p ∈ Chi ++ ((s'.nextElem, ⟨k, v, 1, g.clock⟩) : Nat × AEntry K V) :: Clo →
      p.2.key ≠ k → p ∈ D := by
    intro p hp hpk
    rw [hCC]
    rcases List.mem_append.mp hp with hp | hp
    · exact List.mem_append_left _ hp
    · rcases List.mem_cons.mp hp with hp | hp
      · exact absurd (by rw [hp]) hpk
      · exact List.mem_append_right _ hp
  refine ⟨s4, z.2.key, hPut, ?_, ?_, ?_, ?_⟩
  · rw [h.key_some_of_mem hmemz']
    rfl
  · rw [hinv.key_map]
    refine keyLookup_eq_none.mpr ?_
    intro p hp hcon
    rcases List.mem_append.mp hp with hpChi | hpmid
    · exact hzD p (by rw [hCC]; exact List.mem_append_left _ hpChi) hcon
    · rcases List.mem_cons.mp hpmid with hpm | hpClo
      · exact hknotin z hmemz (by rw [← hcon, hpm])
      · exact hzD p (by rw [hCC]; exact List.mem_append_right _ hpClo) hcon
  · intro m hmz hlive
    obtain ⟨eq, heq⟩ := Option.isSome_iff_exists.mp hlive
    obtain ⟨b, hbC, hbk⟩ := h.mem_of_key_some heq
    have hbD : (eq, b) ∈ D := by
      rcases List.mem_append.mp hbC with hp | hp
      · exact hp
      · exfalso
        have hbz : ((eq, b) : Nat × AEntry K V) = z := List.mem_singleton.mp hp
        exact hmz (by rw [← hbk, ← hbz])
    have := hinv.key_some_of_mem (hDcells (eq, b) hbD)
    rw [hbk] at this
    rw [this]
    rfl
  · intro m hmz hlive
    obtain ⟨eq, heq⟩ := Option.isSome_iff_exists.mp hlive
    obtain ⟨b, hbC, hbk⟩ := h.mem_of_key_some heq
    have hbD : (eq, b) ∈ D := by
      rcases List.mem_append.mp hbC with hp | hp
      · exact hp
      · exfalso
        have hbz : ((eq, b) : Nat × AEntry K V) = z := List.mem_singleton.mp hp
        exact hmz (by rw [← hbk, ← hbz])
    have hsorted := h.sorted
    rw [List.pairwise_append] at hsorted
    have hgt : entGT b z.2 :=
      hsorted.2.2 (eq, b) hbD z (List.mem_singleton.mpr rfl)
    have hfz : CacheImpl.GetKeyFrequency g.cache z.2.key = (z.2.freq, none) :=
      h.getKeyFrequency_eq hmemz'
    have hfb : CacheImpl.GetKeyFrequency g.cache m = (b.freq, none) := by
      rw [← hbk]
      exact h.getKeyFrequency_eq hbC
    have htz : g.touch z.2.key = some z.2.touch := h.touch_eq z hmemz
    have htb : g.touch m = some b.touch := by
      rw [← hbk]
      exact h.touch_eq (eq, b) hbC
    rw [hfz, hfb]
    rcases hgt with hlt | ⟨hfeq, htlt⟩
    · exact Or.inl hlt
    · exact Or.inr ⟨hfeq, z.2.touch, b.touch, htz, htb, htlt⟩

theorem claim_C1_witness :
    ((1:Int) ≤ 1 ∧
      runG (K := Nat) (V := Nat) 1 [Op.put 1 1] =
        some ((runG (K := Nat) (V := Nat) 1 [Op.put 1 1]).get (by decide)) ∧
      CacheImpl.Size (GState.cache ((runG (K := Nat) (V := Nat) 1
          [Op.put 1 1]).get (by decide))) =
        CacheImpl.Capacity (GState.cache ((runG (K := Nat) (V := Nat) 1
          [Op.put 1 1]).get (by decide))) ∧
      (GState.cache ((runG (K := Nat) (V := Nat) 1
          [Op.put 1 1]).get (by decide))).keyToElement 2 = none) ∧
    (∃ c zk, CacheImpl.Put (GState.cache ((runG (K := Nat) (V := Nat) 1
          [Op.put 1 1]).get (by decide))) 2 2 = some c ∧
      ((GState.cache ((runG (K := Nat) (V := Nat) 1
          [Op.put 1 1]).get (by decide))).keyToElement zk).isSome ∧
      c.keyToElement zk = none ∧
      (∀ m, m ≠ zk → ((GState.cache ((runG (K := Nat) (V := Nat) 1
          [Op.put 1 1]).get (by decide))).keyToElement m).isSome →
        (c.keyToElement m).isSome) ∧
      (∀ m, m ≠ zk → ((GState.cache ((runG (K := Nat) (V := Nat) 1
          [Op.put 1 1]).get (by decide))).keyToElement m).isSome →
        (CacheImpl.GetKeyFrequency (GState.cache ((runG (K := Nat) (V := Nat) 1
            [Op.put 1 1]).get (by decide))) zk).1 <
          (CacheImpl.GetKeyFrequency (GState.cache ((runG (K := Nat) (V := Nat) 1
            [Op.put 1 1]).get (by decide))) m).1 ∨
        ((CacheImpl.GetKeyFrequency (GState.cache ((runG (K := Nat) (V := Nat) 1
            [Op.put 1 1]).get (by decide))) zk).1 =
          (CacheImpl.GetKeyFrequency (GState.cache ((runG (K := Nat) (V := Nat) 1
            [Op.put 1 1]).get (by decide))) m).1 ∧
          ∃ tz tm, GState.touch ((runG (K := Nat) (V := Nat) 1
              [Op.put 1 1]).get (by decide)) zk = some tz ∧
            GState.touch ((runG (K := Nat) (V := Nat) 1
              [Op.put 1 1]).get (by decide)) m = some tm ∧ tz < tm))) := by
  refine ⟨⟨by decide, (Option.some_get _).symm, by decide, by decide⟩, ?_⟩
  exact claim_C1 2 2 (by decide) (Option.some_get _).symm (by decide) (by decide)

/-- C5: frequency lifecycle on any reachable state.  (1) Every live key's
observed frequency is strictly positive.  (2) The first `Put` that inserts a
key leaves its frequency at exactly 1.  (3) A `Get` of a live key, and a
`Put` of a live key, each increase its frequency by exactly 1.  (4) Across
any single runner step, the frequency of a key that stays live never
decreases. -/
theorem claim_C5 {K V : Type} [DecidableEq K] [Inhabited K] [Inhabited V]
    {cap : Int} {ops : List (Op K V)} {g : GState K V}
    (hcap : 0 ≤ cap) (hrun : runG cap ops = some g) :
    (∀ m, (g.cache.keyToElement m).isSome →
      1 ≤ (CacheImpl.GetKeyFrequency g.cache m).1) ∧
    (∀ (k : K) (v : V) (c : CacheImpl K V), g.cache.keyToElement k = none →
      CacheImpl.Put g.cache k v = some c →
      CacheImpl.GetKeyFrequency c k = (1, none)) ∧
    (∀ (k : K) (e : Nat), g.cache.keyToElement k = some e →
      CacheImpl.GetKeyFrequency (CacheImpl.Get g.cache k).2 k =
        ((CacheImpl.GetKeyFrequency g.cache k).1 + 1, none) ∧
      (∀ v : V, ∃ c, CacheImpl.Put g.cache k v = some c ∧
        CacheImpl.GetKeyFrequency c k =
          ((CacheImpl.GetKeyFrequency g.cache k).1 + 1, none))) ∧
    (∀ (op : Op K V) (g' : GState K V), stepG g op = some g' →
      ∀ m, (g.cache.keyToElement m).isSome → (g'.cache.keyToElement m).isSome →
        (CacheImpl.GetKeyFrequency g.cache m).1 ≤
          (CacheImpl.GetKeyFrequency g'.cache m).1) := by
  obtain ⟨C, h, hcapeq⟩ := runG_inv hcap hrun
  refine ⟨?_, ?_, ?_, ?_⟩
  · -- (1) positivity
    intro m hlive
    obtain ⟨eqm, heqm⟩ := Option.isSome_iff_exists.mp hlive
    obtain ⟨b, hbC, hbk⟩ := h.mem_of_key_some heqm
    have hb : CacheImpl.GetKeyFrequency g.cache m = (b.freq, none) := by
      rw [← hbk]
      exact h.getKeyFrequency_eq hbC
    rw [hb]
    exact h.freq_pos (eqm, b) hbC
  · -- (2) first insertion has frequency 1
    intro k v c hke hput
    by_cases hfull : ((C.length : Int)) = g.cache.capacity
    · rcases List.eq_nil_or_concat C with hnil | ⟨D, z, hDz⟩
      · exfalso
        have hcap0 : g.cache.capacity = 0 := by
          rw [← hfull, hnil]
          rfl
        rw [put_miss_crash (hnil ▸ h) hke hcap0] at hput
        exact Option.noConfusion hput
      · subst hDz
        rw [List.concat_eq_append] at *
        obtain ⟨s', Chi, Clo, s4, hext, hkz, hCC, hhi, hlo, hPut, hinv⟩ :=
          put_miss_evict_spec h hke (by
            have hlen : ((D ++ [z]).length : Int) = (D.length : Int) + 1 := by
              simp
            rw [hlen] at hfull
            exact hfull)
        have hc : c = s4 := by
          rw [hput] at hPut
          exact Option.some.inj hPut
        rw [hc]
        exact hinv.getKeyFrequency_eq (by simp :
          ((s'.nextElem, ⟨k, v, 1, g.clock⟩) : Nat × AEntry K V) ∈
            Chi ++ ((s'.nextElem, ⟨k, v, 1, g.clock⟩) : Nat × AEntry K V) :: Clo)
    · obtain ⟨Chi, Clo, s4, hCC, hhi, hlo, hPut, hinv⟩ :=
        put_miss_room_spec h hke hfull
      have hc : c = s4 := by
        rw [hput] at hPut
        exact Option.some.inj hPut
      rw [hc]
      exact hinv.getKeyFrequency_eq (by simp :
        ((g.cache.nextElem, ⟨k, v, 1, g.clock⟩) : Nat × AEntry K V) ∈
          Chi ++ ((g.cache.nextElem, ⟨k, v, 1, g.clock⟩) : Nat × AEntry K V) :: Clo)
  · -- (3) hit operations increment by exactly 1
    intro k e hke
    have hbefore : CacheImpl.GetKeyFrequency g.cache k =
        ((CacheImpl.GetKeyFrequency g.cache k).1, none) := by
      obtain ⟨b, hbC, hbk⟩ := h.mem_of_key_some hke
      rw [← hbk, h.getKeyFrequency_eq hbC]
    constructor
    · obtain ⟨P, a, Q, Chi, Clo, s4, hdec, hak, hCC, hGet, hinv⟩ :=
        get_hit_spec h hke
      have hfa : CacheImpl.GetKeyFrequency g.cache k = (a.freq, none) := by
        rw [← hak]
        exact h.getKeyFrequency_eq (e := e) (by rw [hdec]; simp)
      have hafter : CacheImpl.GetKeyFrequency s4 k = (a.freq + 1, none) :=
        hinv.getKeyFrequency_eq (by simp :
          ((e, ⟨k, a.value, a.freq + 1, g.clock⟩) : Nat × AEntry K V) ∈
            Chi ++ ((e, ⟨k, a.value, a.freq + 1, g.clock⟩) : Nat × AEntry K V)
              :: Clo)
      rw [hGet]
      show CacheImpl.GetKeyFrequency s4 k = _
      rw [hafter, hfa]
    · intro v
      obtain ⟨P, a, Q, Chi, Clo, s4, hdec, hak, hCC, hPut, hinv⟩ :=
        put_hit_spec (v := v) h hke
      have hfa : CacheImpl.GetKeyFrequency g.cache k = (a.freq, none) := by
        rw [← hak]
        exact h.getKeyFrequency_eq (e := e) (by rw [hdec]; simp)
      have hafter : CacheImpl.GetKeyFrequency s4 k = (a.freq + 1, none) :=
        hinv.getKeyFrequency_eq (by simp :
          ((e, ⟨k, v, a.freq + 1, g.clock⟩) : Nat × AEntry K V) ∈
            Chi ++ ((e, ⟨k, v, a.freq + 1, g.clock⟩) : Nat × AEntry K V)
              :: Clo)
      refine ⟨s4, hPut, ?_⟩
      rw [hafter, hfa]
  · -- (4) per-step monotonicity while live
    intro op g' hstep m hliveb hlivea
    obtain ⟨eqm, heqm⟩ := Option.isSome_iff_exists.mp hliveb
    obtain ⟨b, hbC, hbk⟩ := h.mem_of_key_some heqm
    have hbefore : CacheImpl.GetKeyFrequency g.cache m = (b.freq, none) := by
      rw [← hbk]
      exact h.getKeyFrequency_eq hbC
    cases op with
    | get q =>
      have hg'c : g'.cache = (CacheImpl.Get g.cache q).2 := by
        rw [← Option.some.inj hstep]
      cases hqe : g.cache.keyToElement q with
      | none =>
        rw [hg'c, CacheImpl.Get_eq_miss hqe]
      | some eq' =>
        obtain ⟨P, a, Q, Chi, Clo, s4, hdec, hak, hCC, hGet, hinv⟩ :=
          get_hit_spec h hqe
        have hg's4 : g'.cache = s4 := by rw [hg'c, hGet]
        by_cases hmq : m = q
        · subst hmq
          have heqid : eqm = eq' := by
            rw [heqm] at hqe
            exact Option.some.inj hqe
          have hba : b = a := by
            refine mem_unique_of_ids_nodup h.ids_nodup (heqid ▸ hbC) ?_
            rw [hdec]
            simp
          have hafter : CacheImpl.GetKeyFrequency s4 m = (a.freq + 1, none) :=
            hinv.getKeyFrequency_eq (by simp :
              ((eq', ⟨m, a.value, a.freq + 1, g.clock⟩) : Nat × AEntry K V) ∈
                Chi ++ ((eq', ⟨m, a.value, a.freq + 1, g.clock⟩) : Nat × AEntry K V)
                  :: Clo)
          rw [hbefore, hg's4, hafter, hba]
          simp
        · have hbPQ : (eqm, b) ∈ P ++ Q := by
            rw [hdec] at hbC
            rcases List.mem_append.mp hbC with hp | hp
            · exact List.mem_append_left _ hp
            · rcases List.mem_cons.mp hp with hp | hp
              · exfalso
                exact hmq (by rw [← hbk, (Prod.mk.inj hp).2, hak])
              · exact List.mem_append_right _ hp
          have hbCC : (eqm, b) ∈ Chi ++ Clo := hCC ▸ hbPQ
          have hbcells : (eqm, b) ∈
              Chi ++ ((eq', ⟨q, a.value, a.freq + 1, g.clock⟩) : Nat × AEntry K V)
                :: Clo := by
            rcases List.mem_append.mp hbCC with hp | hp
            · exact List.mem_append_left _ hp
            · exact List.mem_append_right _ (List.mem_cons_of_mem _ hp)
          have hafter : CacheImpl.GetKeyFrequency s4 m = (b.freq, none) := by
            rw [← hbk]
            exact hinv.getKeyFrequency_eq hbcells
          rw [hbefore, hg's4, hafter]
    | put q w =>
      cases hput : CacheImpl.Put g.cache q w with
      | none =>
        exfalso
        have hnone : stepG g (Op.put q w) = none := by simp only [stepG, hput]
        rw [hnone] at hstep
        exact Option.noConfusion hstep
      | some c =>
        have hg'c : g'.cache = c := by
          have h2 := hstep
          simp only [stepG, hput] at h2
          rw [← Option.some.inj h2]
        cases hqe : g.cache.keyToElement q with
        | some eq' =>
          obtain ⟨P, a, Q, Chi, Clo, s4, hdec, hak, hCC, hPut, hinv⟩ :=
            put_hit_spec (v := w) h hqe
          have hg's4 : g'.cache = s4 := by
            rw [hg'c]
            rw [hput] at hPut
            exact Option.some.inj hPut
          by_cases hmq : m = q
          · subst hmq
            have heqid : eqm = eq' := by
              rw [heqm] at hqe
              exact Option.some.inj hqe
            have hba : b = a := by
              refine mem_unique_of_ids_nodup h.ids_nodup (heqid ▸ hbC) ?_
              rw [hdec]
              simp
            have hafter : CacheImpl.GetKeyFrequency s4 m = (a.freq + 1, none) :=
              hinv.getKeyFrequency_eq (by simp :
                ((eq', ⟨m, w, a.freq + 1, g.clock⟩) : Nat × AEntry K V) ∈
                  Chi ++ ((eq', ⟨m, w, a.freq + 1, g.clock⟩) : Nat × AEntry K V)
                    :: Clo)
            rw [hbefore, hg's4, hafter, hba]
            simp
          · have hbPQ : (eqm, b) ∈ P ++ Q := by
              rw [hdec] at hbC
              rcases List.mem_append.mp hbC with hp | hp
              · exact List.mem_append_left _ hp
              · rcases List.mem_cons.mp hp with hp | hp
                · exfalso
                  exact hmq (by rw [← hbk, (Prod.mk.inj hp).2, hak])
                · exact List.mem_append_right _ hp
            have hbCC : (eqm, b) ∈ Chi ++ Clo := hCC ▸ hbPQ
            have hbcells : (eqm, b) ∈
                Chi ++ ((eq', ⟨q, w, a.freq + 1, g.clock⟩) : Nat × AEntry K V)
                  :: Clo := by
              rcases List.mem_append.mp hbCC with hp | hp
              · exact List.mem_append_left _ hp
              · exact List.mem_append_right _ (List.mem_cons_of_mem _ hp)
            have hafter : CacheImpl.GetKeyFrequency s4 m = (b.freq, none) := by
              rw [← hbk]
              exact hinv.getKeyFrequency_eq hbcells
            rw [hbefore, hg's4, hafter]
        | none =>
          have hmq : m ≠ q := by
            intro hcon
            rw [hcon, hqe] at heqm
            exact Option.noConfusion heqm
          by_cases hfull : ((C.length : Int)) = g.cache.capacity
          · rcases List.eq_nil_or_concat C with hnil | ⟨D, z, hDz⟩
            · exfalso
              rw [hnil] at hbC
              exact List.not_mem_nil _ hbC
            · subst hDz
              rw [List.concat_eq_append] at *
              obtain ⟨s', Chi, Clo, s4, hext, hkz, hCC, hhi, hlo, hPut, hinv⟩ :=
                put_miss_evict_spec h hqe (by
                  have hlen : ((D ++ [z]).length : Int) = (D.length : Int) + 1 := by
                    simp
                  rw [hlen] at hfull
                  exact hfull)
              have hg's4 : g'.cache = s4 := by
                rw [hg'c]
                rw [hput] at hPut
                exact Option.some.inj hPut
              have hzD : ∀ p ∈ D, p.2.key ≠ z.2.key := by
                have hkeys := h.keys_nodup
                rw [show (D ++ [z]).map (fun p => p.2.key) =
                  D.map (fun p => p.2.key) ++ [z.2.key] from by simp] at hkeys
                rw [List.nodup_append] at hkeys
                intro p hp hcon
                exact (hkeys.2.2 (List.mem_map.mpr ⟨p, hp, hcon⟩))
                  (List.mem_singleton.mpr rfl)
              rcases List.mem_append.mp hbC with hbD | hbz
              · have hbcells : (eqm, b) ∈
                    Chi ++ ((s'.nextElem, ⟨q, w, 1, g.clock⟩) : Nat × AEntry K V)
                      :: Clo := by
                  rw [hCC] at hbD
                  rcases List.mem_append.mp hbD with hp | hp
                  · exact List.mem_append_left _ hp
                  · exact List.mem_append_right _ (List.mem_cons_of_mem _ hp)
                have hafter : CacheImpl.GetKeyFrequency s4 m = (b.freq, none) := by
                  rw [← hbk]
                  exact hinv.getKeyFrequency_eq hbcells
                rw [hbefore, hg's4, hafter]
              · exfalso
                have hbz' : ((eqm, b) : Nat × AEntry K V) = z :=
                  List.mem_singleton.mp hbz
                have hmzk : m = z.2.key := by rw [← hbk, ← hbz']
                have hdead : s4.keyToElement z.2.key = none := by
                  rw [hinv.key_map]
                  refine keyLookup_eq_none.mpr ?_
                  intro p hp hcon
                  rcases List.mem_append.mp hp with hpChi | hpmid
                  · exact hzD p (by rw [hCC]; exact List.mem_append_left _ hpChi)
                      hcon
                  · rcases List.mem_cons.mp hpmid with hpm | hpClo
                    · refine hmq ?_
                      rw [hmzk, ← hcon, hpm]
                    · refine hzD p ?_ hcon
                      rw [hCC]
                      exact List.mem_append_right _ hpClo
                rw [hg's4, hmzk, hdead] at hlivea
                simp at hlivea
          · obtain ⟨Chi, Clo, s4, hCC, hhi, hlo, hPut, hinv⟩ :=
              put_miss_room_spec h hqe hfull
            have hg's4 : g'.cache = s4 := by
              rw [hg'c]
              rw [hput] at hPut
              exact Option.some.inj hPut
            have hbcells : (eqm, b) ∈
                Chi ++ ((g.cache.nextElem, ⟨q, w, 1, g.clock⟩) : Nat × AEntry K V)
                  :: Clo := by
              rw [hCC] at hbC
              rcases List.mem_append.mp hbC with hp | hp
              · exact List.mem_append_left _ hp
              · exact List.mem_append_right _ (List.mem_cons_of_mem _ hp)
            have hafter : CacheImpl.GetKeyFrequency s4 m = (b.freq, none) := by
              rw [← hbk]
              exact hinv.getKeyFrequency_eq hbcells
            rw [hbefore, hg's4, hafter]

theorem claim_C5_witness :
    ((0:Int) ≤ 2 ∧
      runG (K := Nat) (V := Nat) 2 [Op.put 1 10] =
        some ((runG (K := Nat) (V := Nat) 2 [Op.put 1 10]).get (by decide))) ∧
    ((∀ m, ((GState.cache ((runG (K := Nat) (V := Nat) 2 [Op.put 1 10]).get
          (by decide))).keyToElement m).isSome →
      1 ≤ (CacheImpl.GetKeyFrequency (GState.cache ((runG (K := Nat) (V := Nat) 2
          [Op.put 1 10]).get (by decide))) m).1) ∧
    (∀ (k : Nat) (v : Nat) (c : CacheImpl Nat Nat),
      (GState.cache ((runG (K := Nat) (V := Nat) 2 [Op.put 1 10]).get
          (by decide))).keyToElement k = none →
      CacheImpl.Put (GState.cache ((runG (K := Nat) (V := Nat) 2
          [Op.put 1 10]).get (by decide))) k v = some c →
      CacheImpl.GetKeyFrequency c k = (1, none)) ∧
    (∀ (k : Nat) (e : Nat),
      (GState.cache ((runG (K := Nat) (V := Nat) 2 [Op.put 1 10]).get
          (by decide))).keyToElement k = some e →
      CacheImpl.GetKeyFrequency
          (CacheImpl.Get (GState.cache ((runG (K := Nat) (V := Nat) 2
            [Op.put 1 10]).get (by decide))) k).2 k =
        ((CacheImpl.GetKeyFrequency (GState.cache ((runG (K := Nat) (V := Nat) 2
          [Op.put 1 10]).get (by decide))) k).1 + 1, none) ∧
      (∀ v : Nat, ∃ c, CacheImpl.Put (GState.cache ((runG (K := Nat) (V := Nat) 2
          [Op.put 1 10]).get (by decide))) k v = some c ∧
        CacheImpl.GetKeyFrequency c k =
          ((CacheImpl.GetKeyFrequency (GState.cache ((runG (K := Nat) (V := Nat) 2
            [Op.put 1 10]).get (by decide))) k).1 + 1, none))) ∧
    (∀ (op : Op Nat Nat) (g' : GState Nat Nat),
      stepG ((runG (K := Nat) (V := Nat) 2 [Op.put 1 10]).get (by decide)) op =
        some g' →
      ∀ m, ((GState.cache ((runG (K := Nat) (V := Nat) 2 [Op.put 1 10]).get
          (by decide))).keyToElement m).isSome →
        (g'.cache.keyToElement m).isSome →
        (CacheImpl.GetKeyFrequency (GState.cache ((runG (K := Nat) (V := Nat) 2
          [Op.put 1 10]).get (by decide))) m).1 ≤
          (CacheImpl.GetKeyFrequency g'.cache m).1)) := by
  refine ⟨⟨by decide, (Option.some_get _).symm⟩, ?_⟩
  exact claim_C5 (by decide) (Option.some_get _).symm

/-- Sliding-window behaviour of a block of `Put`s with fresh distinct keys on
a cache whose records all sit at frequency 1: each insertion goes to the
front, evicting the back record exactly when the cache is full, so the live
keys are the most recent `capacity` many. -/
theorem puts_window {K V : Type} [DecidableEq K] (f : K → V) :
    ∀ (ks : List K) (g : GState K V) (C : Cells K V),
      CacheInv g.cache g.touch C g.clock →
      (∀ p ∈ C, p.2.freq = 1) →
      ks.Nodup →
      (∀ k ∈ ks, ∀ p ∈ C, p.2.key ≠ k) →
      1 ≤ g.cache.capacity →
      ∃ g' C', runFromG g (ks.map fun k => Op.put k (f k)) = some g' ∧
        CacheInv g'.cache g'.touch C' g'.clock ∧
        (∀ p ∈ C', p.2.freq = 1) ∧
        g'.cache.capacity = g.cache.capacity ∧
        C'.map (fun p => p.2.key) =
          (ks.reverse ++ C.map (fun p => p.2.key)).take g.cache.capacity.toNat := by
  intro ks
  induction ks with
  | nil =>
    intro g C h hfreq hnd habs hcap1
    refine ⟨g, C, rfl, h, hfreq, rfl, ?_⟩
    rw [List.reverse_nil, List.nil_append]
    refine (List.take_of_length_le ?_).symm
    rw [List.length_map]
    have hsz := h.size_le
    omega
  | cons k ks ih =>
    intro g C h hfreq hnd habs hcap1
    have hke : g.cache.keyToElement k = none := by
      rw [h.key_map]
      exact keyLookup_eq_none.mpr (fun p hp => habs k (List.mem_cons_self k ks) p hp)
    have hndk := List.nodup_cons.mp hnd
    by_cases hfull : ((C.length : Int)) = g.cache.capacity
    · rcases List.eq_nil_or_concat C with hnil | ⟨D, z, hDz⟩
      · exfalso
        rw [hnil] at hfull
        simp at hfull
        omega
      · subst hDz
        rw [List.concat_eq_append] at *
        obtain ⟨s', Chi, Clo, s4, hext, hkz, hCC, hhi, hlo, hPut, hinv⟩ :=
          put_miss_evict_spec (v := f k) h hke (by
            have hlen : ((D ++ [z]).length : Int) = (D.length : Int) + 1 := by
              simp
            rw [hlen] at hfull
            exact hfull)
        have hChi : Chi = [] := by
          cases hx : Chi with
          | nil => rfl
          | cons x xs =>
            exfalso
            have hxD : x ∈ D := by
              rw [hCC, hx]
              exact List.mem_append_left _ (List.mem_cons_self x xs)
            have hx1 : x.2.freq = 1 := hfreq x (List.mem_append_left _ hxD)
            have := hhi x (by rw [hx]; exact List.mem_cons_self x xs)
            omega
        subst hChi
        rw [List.nil_append] at hCC
        subst hCC
        have hstepG : stepG g (Op.put k (f k)) =
            some ⟨s4, fun j => if j = k then some g.clock else g.touch j,
              g.clock + 1⟩ := by
          simp only [stepG, hPut]
        have hcap4 : s4.capacity = g.cache.capacity := CacheImpl.Put_capacity hPut
        obtain ⟨g', C'', hrun', hinv'', hfreq'', hcapeq'', hkeys''⟩ :=
          ih ⟨s4, fun j => if j = k then some g.clock else g.touch j, g.clock + 1⟩
            ([] ++ ((s'.nextElem, ⟨k, f k, 1, g.clock⟩) : Nat × AEntry K V) :: D)
            hinv
            (by
              intro p hp
              rcases List.mem_cons.mp (by simpa using hp) with hp1 | hp2
              · rw [hp1]
              · exact hfreq p (List.mem_append_left _ hp2))
            hndk.2
            (by
              intro m hm p hp
              rcases List.mem_cons.mp (by simpa using hp) with hp1 | hp2
              · rw [hp1]
                intro hcon
                have hkm : k = m := hcon
                exact hndk.1 (hkm ▸ hm)
              · exact habs m (List.mem_cons_of_mem _ hm) p
                  (List.mem_append_left _ hp2))
            (by rw [hcap4]; exact hcap1)
        refine ⟨g', C'', ?_, hinv'', hfreq'', by rw [hcapeq'']; exact hcap4, ?_⟩
        · rw [List.map_cons,
            show runFromG g (Op.put k (f k) ::
                ks.map fun k => Op.put k (f k)) =
              stepG g (Op.put k (f k)) >>= fun g1 =>
                runFromG g1 (ks.map fun k => Op.put k (f k)) from
              List.foldlM_cons stepG g _ _, hstepG]
          exact hrun'
        · rw [hkeys'']
          show (ks.reverse ++
              (([] ++ ((s'.nextElem, ⟨k, f k, 1, g.clock⟩) : Nat × AEntry K V)
                :: D).map (fun p : Nat × AEntry K V => p.2.key))).take
              s4.capacity.toNat = _
          rw [hcap4]
          have hlhs : ([] ++ ((s'.nextElem, ⟨k, f k, 1, g.clock⟩) : Nat × AEntry K V)
              :: D).map (fun p : Nat × AEntry K V => p.2.key) =
              k :: D.map (fun p : Nat × AEntry K V => p.2.key) := by
            simp
          rw [hlhs]
          have hrhs : (k :: ks).reverse ++
              (D ++ [z]).map (fun p : Nat × AEntry K V => p.2.key) =
              (ks.reverse ++ k :: D.map (fun p : Nat × AEntry K V => p.2.key)) ++
                [z.2.key] := by
            simp
          rw [hrhs]
          refine (List.take_append_of_le_length ?_).symm
          have hfull' : ((D.length : Int)) + 1 = g.cache.capacity := by
            have h0 := hfull
            simp only [List.length_append, List.length_singleton, Nat.cast_add,
              Nat.cast_one] at h0
            omega
          simp only [List.length_append, List.length_cons, List.length_reverse,
            List.length_map]
          omega
    · obtain ⟨Chi, Clo, s4, hCC, hhi, hlo, hPut, hinv⟩ :=
        put_miss_room_spec (v := f k) h hke hfull
      have hChi : Chi = [] := by
        cases hx : Chi with
        | nil => rfl
        | cons x xs =>
          exfalso
          have hxC : x ∈ C := by
            rw [hCC, hx]
            exact List.mem_append_left _ (List.mem_cons_self x xs)
          have hx1 : x.2.freq = 1 := hfreq x hxC
          have := hhi x (by rw [hx]; exact List.mem_cons_self x xs)
          omega
      subst hChi
      rw [List.nil_append] at hCC
      subst hCC
      have hstepG : stepG g (Op.put k (f k)) =
          some ⟨s4, fun j => if j = k then some g.clock else g.touch j,
            g.clock + 1⟩ := by
        simp only [stepG, hPut]
      have hcap4 : s4.capacity = g.cache.capacity := CacheImpl.Put_capacity hPut
      obtain ⟨g', C'', hrun', hinv'', hfreq'', hcapeq'', hkeys''⟩ :=
        ih ⟨s4, fun j => if j = k then some g.clock else g.touch j, g.clock + 1⟩
          ([] ++ ((g.cache.nextElem, ⟨k, f k, 1, g.clock⟩) : Nat × AEntry K V) :: C)
          hinv
          (by
            intro p hp
            rcases List.mem_cons.mp (by simpa using hp) with hp1 | hp2
            · rw [hp1]
            · exact hfreq p hp2)
          hndk.2
          (by
            intro m hm p hp
            rcases List.mem_cons.mp (by simpa using hp) with hp1 | hp2
            · rw [hp1]
              intro hcon
              have hkm : k = m := hcon
              exact hndk.1 (hkm ▸ hm)
            · exact habs m (List.mem_cons_of_mem _ hm) p hp2)
          (by rw [hcap4]; exact hcap1)
      refine ⟨g', C'', ?_, hinv'', hfreq'', by rw [hcapeq'']; exact hcap4, ?_⟩
      · rw [List.map_cons,
          show runFromG g (Op.put k (f k) ::
              ks.map fun k => Op.put k (f k)) =
            stepG g (Op.put k (f k)) >>= fun g1 =>
              runFromG g1 (ks.map fun k => Op.put k (f k)) from
            List.foldlM_cons stepG g _ _, hstepG]
        exact hrun'
      · rw [hkeys'']
        show (ks.reverse ++
            (([] ++ ((g.cache.nextElem, ⟨k, f k, 1, g.clock⟩) : Nat × AEntry K V)
              :: C).map (fun p : Nat × AEntry K V => p.2.key))).take
            s4.capacity.toNat = _
        rw [hcap4]
        have harr : (ks.reverse ++
            ([] ++ ((g.cache.nextElem, ⟨k, f k, 1, g.clock⟩) : Nat × AEntry K V)
              :: C).map (fun p : Nat × AEntry K V => p.2.key)) =
            ((k :: ks).reverse ++
              C.map (fun p : Nat × AEntry K V => p.2.key)) := by
          simp
        rw [harr]

/-- C4: (1) after every completed prefix of any operation sequence,
`Size ≤ Capacity`, and the capacity is the constructed one; (2) for a block
of `Put`s with distinct fresh keys, exactly the most recent `capacity`-many
keys remain live (the LFU+LRU window), however many keys are inserted. -/
theorem claim_C4 {K V : Type} [DecidableEq K] [Inhabited K] [Inhabited V] :
    (∀ (cap : Int) (xs ys : List (Op K V)) (g : GState K V), 0 ≤ cap →
      runG cap (xs ++ ys) = some g →
      ∃ g1, runG cap xs = some g1 ∧
        CacheImpl.Size g1.cache ≤ CacheImpl.Capacity g1.cache ∧
        CacheImpl.Capacity g1.cache = cap) ∧
    (∀ (cap : Int) (ks : List K) (f : K → V), 1 ≤ cap → ks.Nodup →
      ∃ g, runG cap (ks.map fun k => Op.put k (f k)) = some g ∧
        (∀ k, (g.cache.keyToElement k).isSome ↔
          k ∈ ks.reverse.take cap.toNat)) := by
  constructor
  · intro cap xs ys g hcap hrun
    obtain ⟨g1, hx, hy⟩ := runG_append hrun
    obtain ⟨C1, h1, hcapeq⟩ := runG_inv hcap hx
    refine ⟨g1, hx, ?_, hcapeq⟩
    rw [h1.size_eq]
    exact h1.size_le
  · intro cap ks f hcap1 hnd
    obtain ⟨g', C', hrun', hinv', hfreq', hcapeq', hkeys'⟩ :=
      puts_window f ks (initG K V cap) []
        (cacheInv_mkCache (le_trans zero_le_one hcap1))
        (by simp) hnd (by simp) hcap1
    have hkeys2 : C'.map (fun p => p.2.key) = ks.reverse.take cap.toNat := by
      rw [hkeys']
      have hc : (initG K V cap).cache.capacity = cap := rfl
      rw [hc]
      simp
    refine ⟨g', hrun', ?_⟩
    intro k
    rw [hinv'.live_iff]
    constructor
    · rintro ⟨p, hp, hpk⟩
      rw [← hkeys2]
      exact List.mem_map.mpr ⟨p, hp, hpk⟩
    · intro hk
      rw [← hkeys2] at hk
      obtain ⟨p, hp, hpk⟩ := List.mem_map.mp hk
      exact ⟨p, hp, hpk⟩

theorem claim_C4_witness :
    (∃ g1, runG (K := Nat) (V := Nat) 1 [Op.put 1 1] = some g1 ∧
      CacheImpl.Size g1.cache ≤ CacheImpl.Capacity g1.cache ∧
      CacheImpl.Capacity g1.cache = 1) ∧
    (∃ g, runG (K := Nat) (V := Nat) 1
        (([1, 2] : List Nat).map fun k => Op.put k (Nat.succ k)) = some g ∧
      (∀ k, (g.cache.keyToElement k).isSome ↔
        k ∈ ([1, 2] : List Nat).reverse.take (1 : Int).toNat)) := by
  refine ⟨?_, ?_⟩
  · exact claim_C4.1 1 [Op.put 1 1] [Op.get 1]
      ((runG (K := Nat) (V := Nat) 1 ([Op.put 1 1] ++ [Op.get 1])).get (by decide))
      (by decide) (Option.some_get _).symm
  · exact claim_C4.2 1 [1, 2] Nat.succ (by decide) (by decide)
